import Mathlib

/-!
# The worklist hash table of `src/hash.c`

A shallow embedding of `wHashCreate`, `wHashInsert`, `wHashFind` and `wHashPop`.

* A pointer `wState*` is an address (`Nat`) or `NULL` (`none`); the memory holding the
  `wState` records is a function from addresses to records, and `p->f = v` is a pointwise
  update of that function, so aliasing between pointers behaves as in C.
* `table->buckets` is a function from indices to chain heads (the allocated length is
  `num_buckets`, resp. `2 * num_buckets` during a grow).
* The `int` fields are never negative in the states the code builds; they are natural
  numbers here and signed overflow (undefined in C) is outside the model.
* Every `while` loop walks a pointer chain and takes a `fuel` bound on its number of
  iterations; running out of fuel is `none`.
-/

namespace WHash

/-- The record `struct wState`. -/
structure wState where
  next : Option Nat
  work : Option Nat
  hash : Nat
  memory : Nat
deriving DecidableEq

/-- The record `struct wHash`. -/
structure wHash where
  buckets : Nat → Option Nat
  worklist : Option Nat
  min_buckets : Nat
  num_buckets : Nat
  num_entries : Nat
  mask : Nat
  cmp : wState → wState → Int

/-- The memory of `wState` records together with the table. -/
structure Store where
  mem : Nat → wState
  table : wHash

/-- Pointwise update of a function of addresses or indices. -/
def setAt {β : Type} (f : Nat → β) (a : Nat) (v : β) : Nat → β :=
  fun x => if x = a then v else f x

/-- The assignment `p->next = v`. -/
def setNext (mem : Nat → wState) (p : Nat) (v : Option Nat) : Nat → wState :=
  fun x => if x = p then { mem x with next := v } else mem x

/-- The assignment `p->work = v`. -/
def setWork (mem : Nat → wState) (p : Nat) (v : Option Nat) : Nat → wState :=
  fun x => if x = p then { mem x with work := v } else mem x

/-- The constant `WHASH_MIN`. -/
def WHASH_MIN : Nat := 1024

/-- The function `wHashCreate` (lines 122-135); `calloc` zeroes the buckets. -/
def wHashCreate (cmp : wState → wState → Int) : wHash :=
  { min_buckets := WHASH_MIN
    num_buckets := WHASH_MIN
    num_entries := 0
    mask := WHASH_MIN - 1
    buckets := fun _ => none
    worklist := none
    cmp := cmp }

/-- The search loop of `wHashInsert` (lines 144-150 and 215-220), on the loop variables
`cmp`, `last_entry`, `next_entry`; it returns their values at loop exit. -/
def searchLoop (cmp : wState → wState → Int) (mem : Nat → wState) (entry : Nat) :
    Nat → Int → Option Nat → Option Nat → Option (Int × Option Nat × Option Nat)
  | _, c, last_entry, none => some (c, last_entry, none)
  | 0, _, _, some _ => none
  | fuel + 1, _, last_entry, some n =>
    if cmp (mem n) (mem entry) ≥ 0 then some (cmp (mem n) (mem entry), last_entry, some n)
    else searchLoop cmp mem entry fuel (cmp (mem n) (mem entry)) (some n) (mem n).next

/-- The splitting loop of a grow (lines 169-184), on `last_entry`, `l1`, `l2`. -/
def splitLoop (mask i : Nat) :
    Nat → (Nat → wState) → Option Nat → Option Nat → Option Nat →
      Option ((Nat → wState) × Option Nat × Option Nat)
  | _, mem, l1, l2, none => some (mem, l1, l2)
  | 0, _, _, _, some _ => none
  | fuel + 1, mem, l1, l2, some e =>
    if (mem e).hash &&& mask = i then
      splitLoop mask i fuel (setNext mem e l1) (some e) l2 (mem e).next
    else
      splitLoop mask i fuel (setNext mem e l2) l1 (some e) (mem e).next

/-- The list reversal loops of a grow (lines 188-194 and 199-205), on the list head and
`last_entry`; it returns the memory and `last_entry` at loop exit. -/
def reverseLoop :
    Nat → (Nat → wState) → Option Nat → Option Nat → Option ((Nat → wState) × Option Nat)
  | _, mem, none, last_entry => some (mem, last_entry)
  | 0, _, some _, _ => none
  | fuel + 1, mem, some l, last_entry =>
    reverseLoop fuel (setNext mem l last_entry) (mem l).next (some l)

/-- The body of the `for` loop of a grow for bucket `i` (lines 165-207); `n` is
`table->num_buckets` and `mask` the new mask. -/
def splitBucket (fuel mask n i : Nat) (mem : Nat → wState) (buckets : Nat → Option Nat) :
    Option ((Nat → wState) × (Nat → Option Nat)) :=
  match splitLoop mask i fuel mem none none (buckets i) with
  | none => none
  | some (mem1, l1, l2) =>
    match reverseLoop fuel mem1 l1 none with
    | none => none
    | some (mem2, r1) =>
      match reverseLoop fuel mem2 l2 none with
      | none => none
      | some (mem3, r2) => some (mem3, setAt (setAt buckets i r1) (i + n) r2)

/-- The `for` loop of a grow (lines 163-208): `k` iterations starting at index `i`. -/
def splitBuckets (fuel mask n : Nat) :
    Nat → Nat → (Nat → wState) → (Nat → Option Nat) →
      Option ((Nat → wState) × (Nat → Option Nat))
  | 0, _, mem, buckets => some (mem, buckets)
  | k + 1, i, mem, buckets =>
    match splitBucket fuel mask n i mem buckets with
    | none => none
    | some (mem1, buckets1) => splitBuckets fuel mask n k (i + 1) mem1 buckets1

/-- The grow of `wHashInsert` up to the update of `num_buckets` (lines 159-210). -/
def growTable (fuel : Nat) (s : Store) : Option Store :=
  match splitBuckets fuel (s.table.num_buckets * 2 - 1) s.table.num_buckets
      s.table.num_buckets 0 s.mem s.table.buckets with
  | none => none
  | some (mem1, buckets1) =>
    some { mem := mem1
           table := { s.table with
             mask := s.table.num_buckets * 2 - 1
             buckets := buckets1
             num_buckets := s.table.num_buckets * 2 } }

/-- The linking of the new entry into its bucket and onto the worklist (lines 224-239). -/
def linkEntry (s : Store) (entry : Nat) (last_entry next_entry : Option Nat) : Store :=
  let i := (s.mem entry).hash &&& s.table.mask
  let s1 : Store :=
    match last_entry with
    | none =>
      { mem := setNext s.mem entry (s.table.buckets i)
        table := { s.table with buckets := setAt s.table.buckets i (some entry) } }
    | some l =>
      { mem := setNext (setNext s.mem entry next_entry) l (some entry)
        table := s.table }
  { mem := setWork s1.mem entry s1.table.worklist
    table := { s1.table with worklist := some entry } }

/-- The function `wHashInsert` (lines 137-242): the new store and the returned pointer. -/
def wHashInsert (fuel : Nat) (s : Store) (entry : Nat) : Option (Store × Option Nat) :=
  match searchLoop s.table.cmp s.mem entry fuel 1 none
      (s.table.buckets ((s.mem entry).hash &&& s.table.mask)) with
  | none => none
  | some (c, last_entry, next_entry) =>
    if c = 0 then some (s, next_entry)
    else
      let s1 : Store := { s with table := { s.table with num_entries := s.table.num_entries + 1 } }
      if s.table.num_entries ≥ s.table.num_buckets * 3 / 4 then
        match growTable fuel s1 with
        | none => none
        | some s2 =>
          match searchLoop s2.table.cmp s2.mem entry fuel c none
              (s2.table.buckets ((s2.mem entry).hash &&& s2.table.mask)) with
          | none => none
          | some (_, last1, next1) => some (linkEntry s2 entry last1 next1, some entry)
      else some (linkEntry s1 entry last_entry next_entry, some entry)

/-- The loop of `wHashFind` (lines 248-254). -/
def findLoop (cmp : wState → wState → Int) (mem : Nat → wState) (entry : Nat) :
    Nat → Option Nat → Option (Option Nat)
  | _, none => some none
  | 0, some _ => none
  | fuel + 1, some n =>
    if cmp (mem n) (mem entry) > 0 then some none
    else if cmp (mem n) (mem entry) ≥ 0 then some (some n)
    else findLoop cmp mem entry fuel (mem n).next

/-- The function `wHashFind` (lines 244-256). -/
def wHashFind (fuel : Nat) (s : Store) (entry : Nat) : Option (Option Nat) :=
  findLoop s.table.cmp s.mem entry fuel (s.table.buckets ((s.mem entry).hash &&& s.table.mask))

/-- The function `wHashPop` (lines 258-265): the new store and the returned pointer. -/
def wHashPop (s : Store) : Store × Option Nat :=
  match s.table.worklist with
  | none => (s, none)
  | some r => ({ s with table := { s.table with worklist := (s.mem r).work } }, some r)

/-- The `next` links from `s` run through exactly the addresses `L` and end in `t`. -/
def IsSeg (mem : Nat → wState) : Option Nat → List Nat → Option Nat → Prop
  | s, [], t => s = t
  | s, p :: l, t => s = some p ∧ IsSeg mem (mem p).next l t

/-- The bucket chain starting at `s` consists of exactly the addresses `L`. -/
def IsChain (mem : Nat → wState) (s : Option Nat) (L : List Nat) : Prop :=
  IsSeg mem s L none

/-- The worklist chain (through the `work` links) starting at `s` consists of exactly `L`. -/
def IsWork (mem : Nat → wState) : Option Nat → List Nat → Prop
  | s, [] => s = none
  | s, p :: l => s = some p ∧ IsWork mem (mem p).work l

/-- The contract of the caller-supplied comparator over the records of memory `mem`: its
result depends on the `hash` and `memory` fields only, it is a total order on the addresses
(`cmp a b < 0` is "less", `= 0` is "equal", `> 0` is "greater"), and entries that compare
equal have equal keys. -/
structure CmpOK (cmp : wState → wState → Int) (mem : Nat → wState) : Prop where
  data : ∀ a b a1 b1 : wState, a.hash = a1.hash → a.memory = a1.memory →
    b.hash = b1.hash → b.memory = b1.memory → cmp a b = cmp a1 b1
  antisymm : ∀ p q, cmp (mem p) (mem q) < 0 ↔ 0 < cmp (mem q) (mem p)
  trans : ∀ p q r, cmp (mem p) (mem q) ≤ 0 → cmp (mem q) (mem r) ≤ 0 →
    cmp (mem p) (mem r) ≤ 0
  keys : ∀ p q, cmp (mem p) (mem q) = 0 → (mem p).hash = (mem q).hash

/-- The bucket chains of store `s` are the lists `B i`: each is strictly ascending by the
comparator and holds exactly the admitted entries `A` whose key selects bucket `i`. -/
def Chains (cmp : wState → wState → Int) (mem0 : Nat → wState) (s : Store) (A : List Nat)
    (B : Nat → List Nat) : Prop :=
  ∀ i, i < s.table.num_buckets →
    IsChain s.mem (s.table.buckets i) (B i) ∧
    (B i).Pairwise (fun p q => cmp (mem0 p) (mem0 q) < 0) ∧
    ∀ p, p ∈ B i ↔ p ∈ A ∧ (mem0 p).hash % s.table.num_buckets = i

/-- The structure of a store with admitted entries `A` (most recent first) and frontier `W`,
relative to the initial memory `mem0` of the caller. -/
structure Wf (cmp : wState → wState → Int) (mem0 : Nat → wState) (s : Store)
    (A W : List Nat) : Prop where
  cmp_eq : s.table.cmp = cmp
  data : ∀ p, (s.mem p).hash = (mem0 p).hash ∧ (s.mem p).memory = (mem0 p).memory
  size : ∃ g, s.table.num_buckets = WHASH_MIN * 2 ^ g
  mask : s.table.mask = s.table.num_buckets - 1
  distinct : A.Pairwise (fun p q => cmp (mem0 p) (mem0 q) ≠ 0)
  chains : ∃ B, Chains cmp mem0 s A B
  work : IsWork s.mem s.table.worklist W
  sub : W.Sublist A

/-- The invariant of the stores built by `wHashCreate`, `wHashInsert` and `wHashPop`. -/
structure Inv (cmp : wState → wState → Int) (mem0 : Nat → wState) (s : Store)
    (A W : List Nat) : Prop where
  wf : Wf cmp mem0 s A W
  count : s.table.num_entries = A.length
  load : 4 * A.length ≤ 3 * s.table.num_buckets
  tight : s.table.num_buckets ≠ WHASH_MIN → 3 * s.table.num_buckets < 8 * A.length

/-- One call of the interface by the caller. -/
inductive Op where
  | insert (entry : Nat)
  | find (entry : Nat)
  | pop
deriving DecidableEq

/-- One call of the interface: the new store and the returned pointer. -/
def step (fuel : Nat) (s : Store) : Op → Option (Store × Option Nat)
  | Op.insert e => wHashInsert fuel s e
  | Op.find e =>
    match wHashFind fuel s e with
    | none => none
    | some r => some (s, r)
  | Op.pop => some (wHashPop s)

/-- A sequence of calls: the final store and the pointers returned, in order. -/
def run (fuel : Nat) : Store → List Op → Option (Store × List (Option Nat))
  | s, [] => some (s, [])
  | s, op :: ops =>
    match step fuel s op with
    | none => none
    | some (s1, r) =>
      match run fuel s1 ops with
      | none => none
      | some (s2, rs) => some (s2, r :: rs)

/-- The loop `while ((s = wHashPop(hash)))` of the file header, with an empty body: the
final store and the entries popped, in order. -/
def popAll : Nat → Store → Option (Store × List Nat)
  | 0, s =>
    match (wHashPop s).2 with
    | none => some ((wHashPop s).1, [])
    | some _ => none
  | fuel + 1, s =>
    match (wHashPop s).2 with
    | none => some ((wHashPop s).1, [])
    | some r =>
      match popAll fuel (wHashPop s).1 with
      | none => none
      | some (s2, rs) => some (s2, r :: rs)

/-- The candidates of the insert calls of a sequence, in order. -/
def insertsOf : List Op → List Nat
  | [] => []
  | Op.insert e :: ops => e :: insertsOf ops
  | Op.find _ :: ops => insertsOf ops
  | Op.pop :: ops => insertsOf ops

/-- The entries returned by the pop calls of a sequence with returned pointers `rs`, in
order. -/
def poppedOf : List Op → List (Option Nat) → List Nat
  | Op.pop :: ops, some r :: rs => r :: poppedOf ops rs
  | _ :: ops, _ :: rs => poppedOf ops rs
  | _, _ => []

/-- The candidates of `cs` that compare equal to no earlier candidate, `seen` being the
candidates before `cs`: the first member of every new equivalence class, in order. -/
def firstsFrom (cmp : wState → wState → Int) (mem : Nat → wState) :
    List Nat → List Nat → List Nat
  | _, [] => []
  | seen, c :: cs =>
    if seen.any (fun q => decide (cmp (mem q) (mem c) = 0)) then
      firstsFrom cmp mem (seen ++ [c]) cs
    else c :: firstsFrom cmp mem (seen ++ [c]) cs

/-- The first member of every comparator-equivalence class among the candidates `cs`, in
order of first occurrence; its length is the number of classes. -/
def classReps (cmp : wState → wState → Int) (mem : Nat → wState) (cs : List Nat) : List Nat :=
  firstsFrom cmp mem [] cs

/-- The effect of one call on the admitted entries (most recent first) and the frontier,
and the pointer it returns. -/
def absStep (cmp : wState → wState → Int) (mem0 : Nat → wState) (a : List Nat × List Nat) :
    Op → (List Nat × List Nat) × Option Nat
  | Op.insert e =>
    match a.1.find? (fun r => decide (cmp (mem0 r) (mem0 e) = 0)) with
    | some q => (a, some q)
    | none => ((e :: a.1, e :: a.2), some e)
  | Op.find e => (a, a.1.find? (fun r => decide (cmp (mem0 r) (mem0 e) = 0)))
  | Op.pop =>
    match a.2 with
    | [] => (a, none)
    | r :: W => ((a.1, W), some r)

/-- The effect of a sequence of calls on the admitted entries and the frontier. -/
def absRun (cmp : wState → wState → Int) (mem0 : Nat → wState) :
    List Nat × List Nat → List Op → (List Nat × List Nat) × List (Option Nat)
  | a, [] => (a, [])
  | a, op :: ops =>
    ((absRun cmp mem0 (absStep cmp mem0 a op).1 ops).1,
      (absStep cmp mem0 a op).2 :: (absRun cmp mem0 (absStep cmp mem0 a op).1 ops).2)

/-- A comparator that orders the entries numerically by payload. -/
def payloadCmp (a b : wState) : Int :=
  if a.memory < b.memory then -1 else if a.memory = b.memory then 0 else 1

/-- A memory for the end-to-end scenario: entries 1, 2 and 3 carry the keys 5, 1029 and
2053 and the payloads 10, 20 and 30; every other address carries key 5 and payload 10. -/
def scenarioMem : Nat → wState := fun p =>
  if p = 1 then ⟨none, none, 5, 10⟩
  else if p = 2 then ⟨none, none, 1029, 20⟩
  else if p = 3 then ⟨none, none, 2053, 30⟩
  else ⟨none, none, 5, 10⟩

/-- The store after `wHashInsert` of entry 1 of `scenarioMem` into a fresh table. -/
def scenarioStore : Store :=
  { mem := scenarioMem
    table := { wHashCreate payloadCmp with
      buckets := fun i => if i = 5 then some 1 else none
      num_entries := 1
      worklist := some 1 } }

/-- A memory of pairwise different entries: the entry at address `p` has key and
payload `p`. -/
def distinctMem : Nat → wState := fun p => ⟨none, none, p, p⟩

/-- Whether a call of `wHashInsert` enters the grow branch (the `if` of line 157): the
search of lines 144-150 ended without an equal entry, so the call did not return at line
152, and `num_entries`, read before its increment, is at least `num_buckets * 3 / 4`. -/
def growBranch (fuel : Nat) (s : Store) (entry : Nat) : Bool :=
  match searchLoop s.table.cmp s.mem entry fuel 1 none
      (s.table.buckets ((s.mem entry).hash &&& s.table.mask)) with
  | none => false
  | some (c, _, _) =>
    if c = 0 then false
    else decide (s.table.num_entries ≥ s.table.num_buckets * 3 / 4)

/-- The number of grows performed by a sequence of calls: the calls of `wHashInsert` that
entered the grow branch. -/
def growsOf (fuel : Nat) : Store → List Op → Nat
  | _, [] => 0
  | s, op :: ops =>
    match step fuel s op with
    | none => 0
    | some (s1, _) =>
      (match op with
        | Op.insert e => if growBranch fuel s e then 1 else 0
        | Op.find _ => 0
        | Op.pop => 0) + growsOf fuel s1 ops

/-- A list of assignments `buckets[k] = v`, executed in order on a bucket array. -/
def replay (buckets : Nat → Option Nat) : List (Nat × Option Nat) → (Nat → Option Nat)
  | [] => buckets
  | kv :: w => replay (setAt buckets kv.1 kv.2) w

/-- The body of the `for` loop of a grow for bucket `i` (lines 165-207) as in `splitBucket`,
which returns in addition the assignments to the bucket array that the body executes, in
program order: `buckets[i] = last_entry` (line 196) and
`buckets[i + num_buckets] = last_entry` (line 207). -/
def splitBucketLog (fuel mask n i : Nat) (mem : Nat → wState) (buckets : Nat → Option Nat) :
    Option ((Nat → wState) × (Nat → Option Nat) × List (Nat × Option Nat)) :=
  match splitLoop mask i fuel mem none none (buckets i) with
  | none => none
  | some (mem1, l1, l2) =>
    match reverseLoop fuel mem1 l1 none with
    | none => none
    | some (mem2, r1) =>
      match reverseLoop fuel mem2 l2 none with
      | none => none
      | some (mem3, r2) =>
        some (mem3, setAt (setAt buckets i r1) (i + n) r2, [(i, r1), (i + n, r2)])

/-- The `for` loop of a grow (lines 163-208) as in `splitBuckets`, which returns in addition
the assignments to the bucket array that the loop executes, in program order. -/
def splitBucketsLog (fuel mask n : Nat) :
    Nat → Nat → (Nat → wState) → (Nat → Option Nat) →
      Option ((Nat → wState) × (Nat → Option Nat) × List (Nat × Option Nat))
  | 0, _, mem, buckets => some (mem, buckets, [])
  | k + 1, i, mem, buckets =>
    match splitBucketLog fuel mask n i mem buckets with
    | none => none
    | some (mem1, buckets1, w1) =>
      match splitBucketsLog fuel mask n k (i + 1) mem1 buckets1 with
      | none => none
      | some (mem2, buckets2, w2) => some (mem2, buckets2, w1 ++ w2)

/-- The comparator is a total order on the records of memory `mem` and reads only their
`hash` and `memory` fields; nothing is assumed about equal entries having equal keys. -/
structure CmpTot (cmp : wState → wState → Int) (mem : Nat → wState) : Prop where
  data : ∀ a b a1 b1 : wState, a.hash = a1.hash → a.memory = a1.memory →
    b.hash = b1.hash → b.memory = b1.memory → cmp a b = cmp a1 b1
  antisymm : ∀ p q, cmp (mem p) (mem q) < 0 ↔ 0 < cmp (mem q) (mem p)
  trans : ∀ p q r, cmp (mem p) (mem q) ≤ 0 → cmp (mem q) (mem r) ≤ 0 →
    cmp (mem p) (mem r) ≤ 0

/-- The bucket structure of a store with admitted entries `A` and chains `B`, under a
comparator that is only known to be a total order. -/
structure Sorted0 (cmp : wState → wState → Int) (mem0 : Nat → wState) (s : Store)
    (A : List Nat) (B : Nat → List Nat) : Prop where
  cmp_eq : s.table.cmp = cmp
  data : ∀ p, (s.mem p).hash = (mem0 p).hash ∧ (s.mem p).memory = (mem0 p).memory
  size : ∃ g, s.table.num_buckets = WHASH_MIN * 2 ^ g
  mask : s.table.mask = s.table.num_buckets - 1
  chains : Chains cmp mem0 s A B

/-- Every entry on the `next` links from `h` satisfies `P`. -/
def AllIn (mem : Nat → wState) (P : Nat → Prop) (h : Option Nat) : Prop :=
  ∀ L t, IsSeg mem h L t → ∀ p ∈ L, P p

/-- Every entry on the chain of bucket `i` has a key that selects bucket `i`. -/
def KeyInv (hsh : Nat → Nat) (s : Store) : Prop :=
  ∀ i, i < s.table.num_buckets →
    AllIn s.mem (fun p => hsh p % s.table.num_buckets = i) (s.table.buckets i)

/-! ## Memory updates and pointer chains -/

theorem setAt_same {β : Type} (f : Nat → β) (a : Nat) (v : β) : setAt f a v a = v := by
  simp [setAt]

theorem setAt_ne {β : Type} (f : Nat → β) (a : Nat) (v : β) (x : Nat) (h : x ≠ a) :
    setAt f a v x = f x := by
  simp [setAt, h]

theorem setNext_next (mem : Nat → wState) (p : Nat) (v : Option Nat) (x : Nat) :
    (setNext mem p v x).next = if x = p then v else (mem x).next := by
  unfold setNext
  split <;> simp_all

theorem setNext_ne (mem : Nat → wState) (p : Nat) (v : Option Nat) (x : Nat) (h : x ≠ p) :
    setNext mem p v x = mem x := by
  simp [setNext, h]

theorem setNext_data (mem : Nat → wState) (p : Nat) (v : Option Nat) (x : Nat) :
    (setNext mem p v x).hash = (mem x).hash ∧ (setNext mem p v x).memory = (mem x).memory ∧
      (setNext mem p v x).work = (mem x).work := by
  unfold setNext
  split <;> simp_all

theorem setWork_work (mem : Nat → wState) (p : Nat) (v : Option Nat) (x : Nat) :
    (setWork mem p v x).work = if x = p then v else (mem x).work := by
  unfold setWork
  split <;> simp_all

theorem setWork_data (mem : Nat → wState) (p : Nat) (v : Option Nat) (x : Nat) :
    (setWork mem p v x).hash = (mem x).hash ∧ (setWork mem p v x).memory = (mem x).memory ∧
      (setWork mem p v x).next = (mem x).next := by
  unfold setWork
  split <;> simp_all

theorem IsSeg.congr {mem mem1 : Nat → wState} {L : List Nat} :
    ∀ {s t : Option Nat}, (∀ p ∈ L, (mem1 p).next = (mem p).next) → IsSeg mem s L t →
      IsSeg mem1 s L t := by
  induction L with
  | nil => intro s t _ h; exact h
  | cons a L ih =>
    intro s t hf h
    refine ⟨h.1, ?_⟩
    rw [hf a (List.mem_cons_self _ _)]
    exact ih (fun p hp => hf p (List.mem_cons_of_mem _ hp)) h.2

theorem IsWork.congr_work {mem mem1 : Nat → wState} {L : List Nat} :
    ∀ {s : Option Nat}, (∀ p ∈ L, (mem1 p).work = (mem p).work) → IsWork mem s L →
      IsWork mem1 s L := by
  induction L with
  | nil => intro s _ h; exact h
  | cons a L ih =>
    intro s hf h
    refine ⟨h.1, ?_⟩
    rw [hf a (List.mem_cons_self _ _)]
    exact ih (fun p hp => hf p (List.mem_cons_of_mem _ hp)) h.2

theorem IsSeg.append {mem : Nat → wState} {L1 : List Nat} :
    ∀ {s m t : Option Nat} {L2 : List Nat}, IsSeg mem s L1 m → IsSeg mem m L2 t →
      IsSeg mem s (L1 ++ L2) t := by
  induction L1 with
  | nil => intro s m t L2 h1 h2; cases h1; exact h2
  | cons a L ih => intro s m t L2 h1 h2; exact ⟨h1.1, ih h1.2 h2⟩

theorem IsSeg.split {mem : Nat → wState} {L1 : List Nat} :
    ∀ {s t : Option Nat} {L2 : List Nat}, IsSeg mem s (L1 ++ L2) t →
      ∃ m, IsSeg mem s L1 m ∧ IsSeg mem m L2 t := by
  induction L1 with
  | nil => intro s t L2 h; exact ⟨s, rfl, h⟩
  | cons a L ih =>
    intro s t L2 h
    obtain ⟨m, h1, h2⟩ := ih h.2
    exact ⟨m, ⟨h.1, h1⟩, h2⟩

theorem IsSeg.unique {mem : Nat → wState} {L : List Nat} :
    ∀ {s : Option Nat} {L1 : List Nat}, IsSeg mem s L none → IsSeg mem s L1 none → L = L1 := by
  induction L with
  | nil =>
    intro s L1 h h1
    cases L1 with
    | nil => rfl
    | cons b L1 => cases h; cases h1.1
  | cons a L ih =>
    intro s L1 h h1
    cases L1 with
    | nil => cases h1; cases h.1
    | cons b L1 =>
      have hab : a = b := by
        have := h.1.symm.trans h1.1
        exact Option.some.inj this
      subst hab
      rw [ih h.2 h1.2]

theorem splitLoop_spec (mask i : Nat) (hsh : Nat → Nat) (L : List Nat) :
    ∀ (fuel : Nat) (mem : Nat → wState) (l1 l2 cur : Option Nat) (L1 L2 : List Nat),
      L.length ≤ fuel → (∀ p, (mem p).hash = hsh p) →
      IsChain mem cur L → IsChain mem l1 L1 → IsChain mem l2 L2 → L.Nodup →
      (∀ p ∈ L, p ∉ L1 ∧ p ∉ L2) →
      ∃ mem1 r1 r2, splitLoop mask i fuel mem l1 l2 cur = some (mem1, r1, r2) ∧
        IsChain mem1 r1 ((L.filter (fun p => decide (hsh p &&& mask = i))).reverse ++ L1) ∧
        IsChain mem1 r2 ((L.filter (fun p => !decide (hsh p &&& mask = i))).reverse ++ L2) ∧
        (∀ p, p ∉ L → mem1 p = mem p) ∧
        (∀ p, (mem1 p).hash = (mem p).hash ∧ (mem1 p).memory = (mem p).memory ∧
          (mem1 p).work = (mem p).work) := by
  induction L with
  | nil =>
    intro fuel mem l1 l2 cur L1 L2 _ _ hc h1 h2 _ _
    cases hc
    refine ⟨mem, l1, l2, ?_, by simpa using h1, by simpa using h2, fun _ _ => rfl,
      fun _ => ⟨rfl, rfl, rfl⟩⟩
    cases fuel <;> rfl
  | cons e L ih =>
    intro fuel mem l1 l2 cur L1 L2 hf hh hc h1 h2 hnd hdis
    obtain ⟨hcur, hrest⟩ := hc
    subst hcur
    cases fuel with
    | zero => simp at hf
    | succ fuel =>
      have hf1 : L.length ≤ fuel := by simpa using hf
      have heL : e ∉ L := (List.nodup_cons.mp hnd).1
      have hndL : L.Nodup := (List.nodup_cons.mp hnd).2
      have he12 := hdis e (List.mem_cons_self _ _)
      have hdisL : ∀ p ∈ L, p ∉ L1 ∧ p ∉ L2 := fun p hp => hdis p (List.mem_cons_of_mem _ hp)
      by_cases hk : hsh e &&& mask = i
      · -- the entry stays in bucket i
        have hstep : splitLoop mask i (fuel + 1) mem l1 l2 (some e)
            = splitLoop mask i fuel (setNext mem e l1) (some e) l2 (mem e).next := by
          simp [splitLoop, hh e, hk]
        have hh1 : ∀ p, (setNext mem e l1 p).hash = hsh p := fun p => by
          rw [(setNext_data mem e l1 p).1]; exact hh p
        have hc1 : IsChain (setNext mem e l1) (mem e).next L :=
          IsSeg.congr (fun p hp => by rw [setNext_ne]; rintro rfl; exact heL hp) hrest
        have h11 : IsChain (setNext mem e l1) (some e) (e :: L1) := by
          refine ⟨rfl, ?_⟩
          rw [setNext_next, if_pos rfl]
          exact IsSeg.congr (fun p hp => by rw [setNext_ne]; rintro rfl; exact he12.1 hp) h1
        have h21 : IsChain (setNext mem e l1) l2 L2 :=
          IsSeg.congr (fun p hp => by rw [setNext_ne]; rintro rfl; exact he12.2 hp) h2
        obtain ⟨mem1, r1, r2, hrun, hr1, hr2, hfr, hdat⟩ :=
          ih fuel (setNext mem e l1) (some e) l2 (mem e).next (e :: L1) L2 hf1 hh1 hc1 h11 h21
            hndL (fun p hp => ⟨fun hm => by
              rcases List.mem_cons.mp hm with rfl | hm
              · exact heL hp
              · exact (hdisL p hp).1 hm, (hdisL p hp).2⟩)
        refine ⟨mem1, r1, r2, hstep.trans hrun, ?_, ?_, ?_, ?_⟩
        · simpa [List.filter_cons, hk] using hr1
        · simpa [List.filter_cons, hk] using hr2
        · intro p hp
          have hpe : p ≠ e := fun h => hp (h ▸ List.mem_cons_self _ _)
          rw [hfr p (fun h => hp (List.mem_cons_of_mem _ h)), setNext_ne _ _ _ _ hpe]
        · intro p
          have a := hdat p
          have b := setNext_data mem e l1 p
          exact ⟨a.1.trans b.1, a.2.1.trans b.2.1, a.2.2.trans b.2.2⟩
      · have hstep : splitLoop mask i (fuel + 1) mem l1 l2 (some e)
            = splitLoop mask i fuel (setNext mem e l2) l1 (some e) (mem e).next := by
          simp [splitLoop, hh e, hk]
        have hh1 : ∀ p, (setNext mem e l2 p).hash = hsh p := fun p => by
          rw [(setNext_data mem e l2 p).1]; exact hh p
        have hc1 : IsChain (setNext mem e l2) (mem e).next L :=
          IsSeg.congr (fun p hp => by rw [setNext_ne]; rintro rfl; exact heL hp) hrest
        have h21 : IsChain (setNext mem e l2) (some e) (e :: L2) := by
          refine ⟨rfl, ?_⟩
          rw [setNext_next, if_pos rfl]
          exact IsSeg.congr (fun p hp => by rw [setNext_ne]; rintro rfl; exact he12.2 hp) h2
        have h11 : IsChain (setNext mem e l2) l1 L1 :=
          IsSeg.congr (fun p hp => by rw [setNext_ne]; rintro rfl; exact he12.1 hp) h1
        obtain ⟨mem1, r1, r2, hrun, hr1, hr2, hfr, hdat⟩ :=
          ih fuel (setNext mem e l2) l1 (some e) (mem e).next L1 (e :: L2) hf1 hh1 hc1 h11 h21
            hndL (fun p hp => ⟨(hdisL p hp).1, fun hm => by
              rcases List.mem_cons.mp hm with rfl | hm
              · exact heL hp
              · exact (hdisL p hp).2 hm⟩)
        refine ⟨mem1, r1, r2, hstep.trans hrun, ?_, ?_, ?_, ?_⟩
        · simpa [List.filter_cons, hk] using hr1
        · simpa [List.filter_cons, hk] using hr2
        · intro p hp
          have hpe : p ≠ e := fun h => hp (h ▸ List.mem_cons_self _ _)
          rw [hfr p (fun h => hp (List.mem_cons_of_mem _ h)), setNext_ne _ _ _ _ hpe]
        · intro p
          have a := hdat p
          have b := setNext_data mem e l2 p
          exact ⟨a.1.trans b.1, a.2.1.trans b.2.1, a.2.2.trans b.2.2⟩

/-! ## The loops of a grow -/

theorem reverseLoop_spec (L : List Nat) :
    ∀ (fuel : Nat) (mem : Nat → wState) (cur acc : Option Nat) (Acc : List Nat),
      L.length ≤ fuel → IsChain mem cur L → IsChain mem acc Acc → L.Nodup →
      (∀ p ∈ L, p ∉ Acc) →
      ∃ mem1 r, reverseLoop fuel mem cur acc = some (mem1, r) ∧
        IsChain mem1 r (L.reverse ++ Acc) ∧
        (∀ p, p ∉ L → mem1 p = mem p) ∧
        (∀ p, (mem1 p).hash = (mem p).hash ∧ (mem1 p).memory = (mem p).memory ∧
          (mem1 p).work = (mem p).work) := by
  induction L with
  | nil =>
    intro fuel mem cur acc Acc _ hc ha _ _
    cases hc
    refine ⟨mem, acc, ?_, by simpa using ha, fun _ _ => rfl, fun _ => ⟨rfl, rfl, rfl⟩⟩
    cases fuel <;> rfl
  | cons e L ih =>
    intro fuel mem cur acc Acc hf hc ha hnd hdis
    obtain ⟨hcur, hrest⟩ := hc
    subst hcur
    cases fuel with
    | zero => simp at hf
    | succ fuel =>
      have hf1 : L.length ≤ fuel := by simpa using hf
      have heL : e ∉ L := (List.nodup_cons.mp hnd).1
      have hndL : L.Nodup := (List.nodup_cons.mp hnd).2
      have heA := hdis e (List.mem_cons_self _ _)
      have hc1 : IsChain (setNext mem e acc) (mem e).next L :=
        IsSeg.congr (fun p hp => by rw [setNext_ne]; rintro rfl; exact heL hp) hrest
      have ha1 : IsChain (setNext mem e acc) (some e) (e :: Acc) := by
        refine ⟨rfl, ?_⟩
        rw [setNext_next, if_pos rfl]
        exact IsSeg.congr (fun p hp => by rw [setNext_ne]; rintro rfl; exact heA hp) ha
      obtain ⟨mem1, r, hrun, hr, hfr, hdat⟩ :=
        ih fuel (setNext mem e acc) (mem e).next (some e) (e :: Acc) hf1 hc1 ha1 hndL
          (fun p hp hm => by
            rcases List.mem_cons.mp hm with rfl | hm
            · exact heL hp
            · exact hdis p (List.mem_cons_of_mem _ hp) hm)
      refine ⟨mem1, r, ?_, ?_, ?_, ?_⟩
      · simpa [reverseLoop] using hrun
      · simpa using hr
      · intro p hp
        have hpe : p ≠ e := fun h => hp (h ▸ List.mem_cons_self _ _)
        rw [hfr p (fun h => hp (List.mem_cons_of_mem _ h)), setNext_ne _ _ _ _ hpe]
      · intro p
        have a := hdat p
        have b := setNext_data mem e acc p
        exact ⟨a.1.trans b.1, a.2.1.trans b.2.1, a.2.2.trans b.2.2⟩

/-- One iteration of the `for` loop: the chain of bucket `i` is split, in its order, into
the entries kept in bucket `i` and the entries moved to bucket `i + n`. -/
theorem splitBucket_spec (fuel mask n i : Nat) (hsh : Nat → Nat) (mem : Nat → wState)
    (buckets : Nat → Option Nat) (L : List Nat)
    (hf : L.length ≤ fuel) (hh : ∀ p, (mem p).hash = hsh p)
    (hc : IsChain mem (buckets i) L) (hnd : L.Nodup) :
    ∃ mem1 r1 r2, splitBucket fuel mask n i mem buckets
        = some (mem1, setAt (setAt buckets i r1) (i + n) r2) ∧
      IsChain mem1 r1 (L.filter (fun p => decide (hsh p &&& mask = i))) ∧
      IsChain mem1 r2 (L.filter (fun p => !decide (hsh p &&& mask = i))) ∧
      (∀ p, p ∉ L → mem1 p = mem p) ∧
      (∀ p, (mem1 p).hash = (mem p).hash ∧ (mem1 p).memory = (mem p).memory ∧
        (mem1 p).work = (mem p).work) := by
  obtain ⟨m1, a1, a2, hs, hc1, hc2, hfr1, hd1⟩ :=
    splitLoop_spec mask i hsh L fuel mem none none (buckets i) [] [] hf hh hc rfl rfl hnd
      (fun p _ => ⟨List.not_mem_nil p, List.not_mem_nil p⟩)
  simp only [List.append_nil] at hc1 hc2
  have hsub1 : ∀ p, p ∈ L.filter (fun p => decide (hsh p &&& mask = i)) → p ∈ L :=
    fun p hp => (List.mem_filter.mp hp).1
  have hsub2 : ∀ p, p ∈ L.filter (fun p => !decide (hsh p &&& mask = i)) → p ∈ L :=
    fun p hp => (List.mem_filter.mp hp).1
  have hdisj : ∀ p, p ∈ L.filter (fun p => decide (hsh p &&& mask = i)) →
      p ∉ L.filter (fun p => !decide (hsh p &&& mask = i)) := by
    intro p h1 h2
    have := (List.mem_filter.mp h1).2
    have := (List.mem_filter.mp h2).2
    simp_all
  obtain ⟨m2, r1, hr1, hk1, hfr2, hd2⟩ :=
    reverseLoop_spec _ fuel m1 a1 none []
      (by rw [List.length_reverse]; exact (List.length_filter_le _ _).trans hf) hc1 rfl
      (List.nodup_reverse.mpr (hnd.filter _)) (fun p _ => List.not_mem_nil p)
  simp only [List.reverse_reverse, List.append_nil] at hk1
  have hc2a : IsChain m2 a2 (L.filter (fun p => !decide (hsh p &&& mask = i))).reverse :=
    IsSeg.congr (fun p hp => by
      rw [hfr2 p]
      intro hm
      exact hdisj p (List.mem_reverse.mp hm) (List.mem_reverse.mp hp)) hc2
  obtain ⟨m3, r2, hr2, hk2, hfr3, hd3⟩ :=
    reverseLoop_spec _ fuel m2 a2 none []
      (by rw [List.length_reverse]; exact (List.length_filter_le _ _).trans hf) hc2a rfl
      (List.nodup_reverse.mpr (hnd.filter _)) (fun p _ => List.not_mem_nil p)
  simp only [List.reverse_reverse, List.append_nil] at hk2
  refine ⟨m3, r1, r2, ?_, ?_, hk2, ?_, ?_⟩
  · simp [splitBucket, hs, hr1, hr2]
  · exact IsSeg.congr (fun p hp => by
      rw [hfr3 p]
      intro hm
      exact hdisj p hp (List.mem_reverse.mp hm)) hk1
  · intro p hp
    rw [hfr3 p (fun h => hp (hsub2 p (List.mem_reverse.mp h))),
      hfr2 p (fun h => hp (hsub1 p (List.mem_reverse.mp h))), hfr1 p hp]
  · intro p
    have a := hd1 p
    have b := hd2 p
    have c := hd3 p
    exact ⟨c.1.trans (b.1.trans a.1), c.2.1.trans (b.2.1.trans a.2.1),
      c.2.2.trans (b.2.2.trans a.2.2)⟩


/-- The `for` loop of a grow: every bucket `j` of the old table is split, in its order,
into the new buckets `j` and `j + n`; nothing else changes. -/
theorem splitBuckets_spec (fuel mask n : Nat) (hsh : Nat → Nat) (B : Nat → List Nat)
    (hlen : ∀ j, j < n → (B j).length ≤ fuel)
    (hnd : ∀ j, j < n → (B j).Nodup)
    (hdisj : ∀ j j1 p, j < n → j1 < n → p ∈ B j → p ∈ B j1 → j = j1) :
    ∀ (k i : Nat) (mem : Nat → wState) (buckets : Nat → Option Nat),
      i + k = n → (∀ p, (mem p).hash = hsh p) →
      (∀ j, i ≤ j → j < n → IsChain mem (buckets j) (B j)) →
      ∃ mem1 buckets1, splitBuckets fuel mask n k i mem buckets = some (mem1, buckets1) ∧
        (∀ j, i ≤ j → j < n →
          IsChain mem1 (buckets1 j) ((B j).filter (fun p => decide (hsh p &&& mask = j))) ∧
          IsChain mem1 (buckets1 (j + n))
            ((B j).filter (fun p => !decide (hsh p &&& mask = j)))) ∧
        (∀ j, ¬ (i ≤ j ∧ j < n) → ¬ (n + i ≤ j ∧ j < n + n) → buckets1 j = buckets j) ∧
        (∀ p, (∀ j, i ≤ j → j < n → p ∉ B j) → mem1 p = mem p) ∧
        (∀ p, (mem1 p).hash = (mem p).hash ∧ (mem1 p).memory = (mem p).memory ∧
          (mem1 p).work = (mem p).work) := by
  intro k
  induction k with
  | zero =>
    intro i mem buckets hik _ _
    refine ⟨mem, buckets, rfl, ?_, fun _ _ _ => rfl, fun _ _ => rfl, fun _ => ⟨rfl, rfl, rfl⟩⟩
    intro j h1 h2
    omega
  | succ k ih =>
    intro i mem buckets hik hh hc
    have hin : i < n := by omega
    obtain ⟨m1, r1, r2, hrun1, hk1, hk2, hfr1, hd1⟩ :=
      splitBucket_spec fuel mask n i hsh mem buckets (B i) (hlen i hin) hh
        (hc i (Nat.le_refl i) hin) (hnd i hin)
    have hh1 : ∀ p, (m1 p).hash = hsh p := fun p => (hd1 p).1.trans (hh p)
    have hb1 : ∀ j, j ≠ i → j ≠ i + n →
        setAt (setAt buckets i r1) (i + n) r2 j = buckets j := by
      intro j h1 h2
      rw [setAt_ne _ _ _ _ h2, setAt_ne _ _ _ _ h1]
    have hc1 : ∀ j, i + 1 ≤ j → j < n →
        IsChain m1 (setAt (setAt buckets i r1) (i + n) r2 j) (B j) := by
      intro j h1 h2
      rw [hb1 j (by omega) (by omega)]
      refine IsSeg.congr (fun p hp => ?_) (hc j (by omega) h2)
      rw [hfr1 p]
      intro hpi
      have := hdisj j i p h2 hin hp hpi
      omega
    obtain ⟨m2, b2, hrun2, hk, hfb, hfm, hd2⟩ :=
      ih (i + 1) m1 (setAt (setAt buckets i r1) (i + n) r2) (by omega) hh1 hc1
    have hagree : ∀ p, p ∈ B i → m2 p = m1 p := by
      intro p hp
      apply hfm
      intro j h1 h2 hpj
      have := hdisj j i p h2 hin hpj hp
      omega
    refine ⟨m2, b2, ?_, ?_, ?_, ?_, ?_⟩
    · simp [splitBuckets, hrun1, hrun2]
    · intro j h1 h2
      by_cases hji : j = i
      · subst hji
        have e1 : b2 j = r1 := by
          rw [hfb j (by omega) (by omega), setAt_ne _ _ _ _ (by omega), setAt_same]
        have e2 : b2 (j + n) = r2 := by
          rw [hfb (j + n) (by omega) (by omega), setAt_same]
        rw [e1, e2]
        constructor
        · exact IsSeg.congr
            (fun p hp => by rw [hagree p (List.mem_filter.mp hp).1]) hk1
        · exact IsSeg.congr
            (fun p hp => by rw [hagree p (List.mem_filter.mp hp).1]) hk2
      · exact hk j (by omega) h2
    · intro j h1 h2
      rw [hfb j (by omega) (by omega), hb1 j (by omega) (by omega)]
    · intro p hp
      rw [hfm p (fun j h1 h2 => hp j (by omega) h2), hfr1 p (hp i (Nat.le_refl i) hin)]
    · intro p
      have a := hd1 p
      have b := hd2 p
      exact ⟨b.1.trans a.1, b.2.1.trans a.2.1, b.2.2.trans a.2.2⟩


/-! ## The comparator contract and the table arithmetic -/

theorem CmpOK.lt_iff {cmp : wState → wState → Int} {mem : Nat → wState} (h : CmpOK cmp mem)
    (p q : Nat) : cmp (mem p) (mem q) < 0 ↔ ¬ cmp (mem q) (mem p) ≤ 0 := by
  rw [h.antisymm p q]; omega

theorem CmpOK.eq_iff {cmp : wState → wState → Int} {mem : Nat → wState} (h : CmpOK cmp mem)
    (p q : Nat) :
    cmp (mem p) (mem q) = 0 ↔ cmp (mem p) (mem q) ≤ 0 ∧ cmp (mem q) (mem p) ≤ 0 := by
  have h1 := h.antisymm p q
  have h2 := h.antisymm q p
  omega

theorem CmpOK.refl {cmp : wState → wState → Int} {mem : Nat → wState} (h : CmpOK cmp mem)
    (p : Nat) : cmp (mem p) (mem p) = 0 := by
  have h1 := h.antisymm p p
  omega

theorem CmpOK.symm {cmp : wState → wState → Int} {mem : Nat → wState} (h : CmpOK cmp mem)
    {p q : Nat} (hpq : cmp (mem p) (mem q) = 0) : cmp (mem q) (mem p) = 0 := by
  have h1 := h.antisymm p q
  have h2 := h.antisymm q p
  omega

theorem CmpOK.lt_trans {cmp : wState → wState → Int} {mem : Nat → wState} (h : CmpOK cmp mem)
    {p q r : Nat} (h1 : cmp (mem p) (mem q) < 0) (h2 : cmp (mem q) (mem r) < 0) :
    cmp (mem p) (mem r) < 0 := by
  rw [h.lt_iff] at h1 h2 ⊢
  intro h3
  apply h2
  exact h.trans r p q h3 (by
    by_contra hc
    exact h1 (by have := h.antisymm p q; omega))

theorem CmpOK.eq_trans {cmp : wState → wState → Int} {mem : Nat → wState} (h : CmpOK cmp mem)
    {p q r : Nat} (h1 : cmp (mem p) (mem q) = 0) (h2 : cmp (mem q) (mem r) = 0) :
    cmp (mem p) (mem r) = 0 := by
  rw [h.eq_iff] at h1 h2 ⊢
  exact ⟨h.trans p q r h1.1 h2.1, h.trans r q p h2.2 h1.2⟩

theorem CmpOK.lt_of_lt_of_eq {cmp : wState → wState → Int} {mem : Nat → wState}
    (h : CmpOK cmp mem) {p q r : Nat} (h1 : cmp (mem p) (mem q) < 0)
    (h2 : cmp (mem q) (mem r) = 0) : cmp (mem p) (mem r) < 0 := by
  rw [h.lt_iff] at h1 ⊢
  rw [h.eq_iff] at h2
  intro h3
  exact h1 (h.trans q r p h2.1 h3)

theorem CmpOK.lt_of_eq_of_lt {cmp : wState → wState → Int} {mem : Nat → wState}
    (h : CmpOK cmp mem) {p q r : Nat} (h1 : cmp (mem p) (mem q) = 0)
    (h2 : cmp (mem q) (mem r) < 0) : cmp (mem p) (mem r) < 0 := by
  rw [h.lt_iff] at h2 ⊢
  rw [h.eq_iff] at h1
  intro h3
  exact h2 (h.trans r p q h3 h1.1)

theorem CmpOK.ne_of_lt {cmp : wState → wState → Int} {mem : Nat → wState}
    (h : CmpOK cmp mem) {p q : Nat} (h1 : cmp (mem p) (mem q) < 0) : p ≠ q := by
  rintro rfl
  have := h.refl p
  omega

/-- The comparator applied to the current records agrees with the initial memory. -/
theorem Wf.cmp_mem {cmp : wState → wState → Int} {mem0 : Nat → wState} {s : Store}
    {A W : List Nat} (hc : CmpOK cmp mem0) (hw : Wf cmp mem0 s A W) (p q : Nat) :
    s.table.cmp (s.mem p) (s.mem q) = cmp (mem0 p) (mem0 q) := by
  rw [hw.cmp_eq]
  exact hc.data _ _ _ _ (hw.data p).1 (hw.data p).2 (hw.data q).1 (hw.data q).2

theorem land_mask (x g : Nat) : x &&& (WHASH_MIN * 2 ^ g - 1) = x % (WHASH_MIN * 2 ^ g) := by
  have h : WHASH_MIN * 2 ^ g = 2 ^ (10 + g) := by
    rw [Nat.pow_add]; rfl
  rw [h, Nat.and_pow_two_sub_one_eq_mod]

theorem Wf.land_mask_mod {cmp : wState → wState → Int} {mem0 : Nat → wState} {s : Store}
    {A W : List Nat} (hw : Wf cmp mem0 s A W) (x : Nat) :
    x &&& s.table.mask = x % s.table.num_buckets := by
  obtain ⟨g, hg⟩ := hw.size
  rw [hw.mask, hg]
  exact WHash.land_mask x g

theorem Wf.buckets_pos {cmp : wState → wState → Int} {mem0 : Nat → wState} {s : Store}
    {A W : List Nat} (hw : Wf cmp mem0 s A W) : 0 < s.table.num_buckets := by
  obtain ⟨g, hg⟩ := hw.size
  rw [hg]
  exact Nat.mul_pos (by decide) (Nat.pos_pow_of_pos _ (by decide))

theorem mod_double (h n : Nat) :
    h % (n * 2) = h % n ∨ h % (n * 2) = h % n + n := by
  rw [Nat.mod_mul]
  have : h / n % 2 = 0 ∨ h / n % 2 = 1 := by omega
  rcases this with h0 | h1
  · left; rw [h0]; simp
  · right; rw [h1]; simp


/-! ## The search loops -/

/-- The search loop stops at the first chain entry that does not compare less than the
candidate: the chain splits into the entries passed (`L1`, all less) and the rest (`L2`). -/
theorem searchLoop_spec (cmp : wState → wState → Int) (mem : Nat → wState) (e : Nat)
    (L : List Nat) :
    ∀ (fuel : Nat) (c0 : Int) (last0 cur : Option Nat),
      L.length ≤ fuel → IsChain mem cur L →
      ∃ c last next L1 L2, searchLoop cmp mem e fuel c0 last0 cur = some (c, last, next) ∧
        L = L1 ++ L2 ∧ IsSeg mem cur L1 next ∧ IsChain mem next L2 ∧
        (∀ p ∈ L1, cmp (mem p) (mem e) < 0) ∧
        ((L1 = [] ∧ last = last0) ∨ (∃ L0 l, L1 = L0 ++ [l] ∧ last = some l)) ∧
        ((∃ q L3, L2 = q :: L3 ∧ c = cmp (mem q) (mem e) ∧ 0 ≤ c) ∨
          (L2 = [] ∧ (c = c0 ∨ c < 0))) := by
  induction L with
  | nil =>
    intro fuel c0 last0 cur _ hc
    cases hc
    refine ⟨c0, last0, none, [], [], ?_, rfl, rfl, rfl, by simp, Or.inl ⟨rfl, rfl⟩,
      Or.inr ⟨rfl, Or.inl rfl⟩⟩
    cases fuel <;> rfl
  | cons a L ih =>
    intro fuel c0 last0 cur hf hc
    obtain ⟨hcur, hrest⟩ := hc
    subst hcur
    cases fuel with
    | zero => simp at hf
    | succ fuel =>
      have hf1 : L.length ≤ fuel := by simpa using hf
      by_cases hge : cmp (mem a) (mem e) ≥ 0
      · refine ⟨cmp (mem a) (mem e), last0, some a, [], a :: L, ?_, rfl, rfl, ⟨rfl, hrest⟩,
          by simp, Or.inl ⟨rfl, rfl⟩, Or.inl ⟨a, L, rfl, rfl, hge⟩⟩
        simp [searchLoop, hge]
      · obtain ⟨c, last, next, L1, L2, hrun, hL, hseg, hch, hlt, hlast, hcv⟩ :=
          ih fuel (cmp (mem a) (mem e)) (some a) (mem a).next hf1 hrest
        refine ⟨c, last, next, a :: L1, L2, ?_, by rw [hL]; rfl, ⟨rfl, hseg⟩, hch, ?_, ?_, ?_⟩
        · simp only [searchLoop, if_neg hge]
          exact hrun
        · intro p hp
          rcases List.mem_cons.mp hp with rfl | hp
          · omega
          · exact hlt p hp
        · right
          rcases hlast with ⟨h1, h2⟩ | ⟨L0, l, h1, h2⟩
          · exact ⟨[], a, by rw [h1]; rfl, h2⟩
          · exact ⟨a :: L0, l, by rw [h1]; rfl, h2⟩
        · rcases hcv with h | ⟨h1, h2⟩
          · exact Or.inl h
          · refine Or.inr ⟨h1, Or.inr ?_⟩
            rcases h2 with h2 | h2
            · rw [h2]; omega
            · exact h2

/-- The loop of `wHashFind` returns what the search loop of `wHashInsert` finds: for every
memory, comparator and chain (well formed or not) and the same fuel. -/
theorem findLoop_eq_searchLoop (cmp : wState → wState → Int) (mem : Nat → wState) (e : Nat) :
    ∀ (fuel : Nat) (c0 : Int) (last0 cur : Option Nat), c0 ≠ 0 →
      findLoop cmp mem e fuel cur =
        (searchLoop cmp mem e fuel c0 last0 cur).map
          (fun r => if r.1 = 0 then r.2.2 else none) := by
  intro fuel
  induction fuel with
  | zero =>
    intro c0 last0 cur hc0
    cases cur with
    | none => simp [findLoop, searchLoop, hc0]
    | some n => simp [findLoop, searchLoop]
  | succ fuel ih =>
    intro c0 last0 cur hc0
    cases cur with
    | none => simp [findLoop, searchLoop, hc0]
    | some n =>
      by_cases hge : cmp (mem n) (mem e) ≥ 0
      · by_cases hgt : cmp (mem n) (mem e) > 0
        · have hne : cmp (mem n) (mem e) ≠ 0 := by omega
          simp [findLoop, searchLoop, hge, hgt, hne]
        · have heq : cmp (mem n) (mem e) = 0 := by omega
          simp [findLoop, searchLoop, heq]
      · have hgt : ¬ cmp (mem n) (mem e) > 0 := by omega
        simp only [findLoop, searchLoop, if_neg hge, if_neg hgt]
        exact ih _ _ _ (by omega)


/-! ## The invariant: search, link and grow -/

theorem Chains.nodup {cmp : wState → wState → Int} {mem0 : Nat → wState} {s : Store}
    {A : List Nat} {B : Nat → List Nat} (hc : CmpOK cmp mem0) (hB : Chains cmp mem0 s A B)
    (i : Nat) (hi : i < s.table.num_buckets) : (B i).Nodup := by
  refine List.Pairwise.imp ?_ (hB i hi).2.1
  intro a b hab
  exact hc.ne_of_lt hab

theorem Chains.length_le {cmp : wState → wState → Int} {mem0 : Nat → wState} {s : Store}
    {A : List Nat} {B : Nat → List Nat} (hc : CmpOK cmp mem0) (hB : Chains cmp mem0 s A B)
    (i : Nat) (hi : i < s.table.num_buckets) : (B i).length ≤ A.length := by
  have hsub : B i ⊆ A := fun p hp => (((hB i hi).2.2 p).mp hp).1
  exact (List.subperm_of_subset (hB.nodup hc i hi) hsub).length_le

/-- In a well-formed store the search loop of `wHashInsert` terminates within `A.length`
iterations, finds the admitted entry equal to the candidate when there is one, and
otherwise stops at the place that keeps the chain ascending. -/
theorem Wf.search {cmp : wState → wState → Int} {mem0 : Nat → wState} {s : Store}
    {A W : List Nat} {B : Nat → List Nat} (hc : CmpOK cmp mem0) (hw : Wf cmp mem0 s A W)
    (hB : Chains cmp mem0 s A B) (e fuel : Nat) (c0 : Int) (hf : A.length ≤ fuel)
    (hc0 : c0 ≠ 0) :
    ∃ c last next L1 L2,
      searchLoop s.table.cmp s.mem e fuel c0 none
        (s.table.buckets ((s.mem e).hash &&& s.table.mask)) = some (c, last, next) ∧
      B ((mem0 e).hash % s.table.num_buckets) = L1 ++ L2 ∧
      IsSeg s.mem (s.table.buckets ((mem0 e).hash % s.table.num_buckets)) L1 next ∧
      IsChain s.mem next L2 ∧
      (∀ p ∈ L1, cmp (mem0 p) (mem0 e) < 0) ∧
      ((L1 = [] ∧ last = none) ∨ (∃ L0 l, L1 = L0 ++ [l] ∧ last = some l)) ∧
      ((c = 0 ∧ ∃ q, next = some q ∧ q ∈ A ∧ cmp (mem0 q) (mem0 e) = 0) ∨
        (c ≠ 0 ∧ (∀ q ∈ A, cmp (mem0 q) (mem0 e) ≠ 0) ∧
          ∀ q ∈ L2, cmp (mem0 e) (mem0 q) < 0)) := by
  have hi : (mem0 e).hash % s.table.num_buckets < s.table.num_buckets :=
    Nat.mod_lt _ hw.buckets_pos
  have hidx : (s.mem e).hash &&& s.table.mask = (mem0 e).hash % s.table.num_buckets := by
    rw [hw.land_mask_mod, (hw.data e).1]
  obtain ⟨hch, hsorted, hmem⟩ := hB _ hi
  obtain ⟨c, last, next, L1, L2, hrun, hL, hseg, hch2, hlt, hlast, hcv⟩ :=
    searchLoop_spec s.table.cmp s.mem e _ fuel c0 none _
      ((hB.length_le hc _ hi).trans hf) hch
  have hlt1 : ∀ p ∈ L1, cmp (mem0 p) (mem0 e) < 0 := fun p hp => by
    rw [← hw.cmp_mem hc]; exact hlt p hp
  rw [hL] at hsorted
  have hs := List.pairwise_append.mp hsorted
  have hin : ∀ q ∈ A, cmp (mem0 q) (mem0 e) = 0 → q ∈ L1 ++ L2 := by
    intro q hq heq
    rw [← hL, hmem q]
    exact ⟨hq, by rw [hc.keys q e heq]⟩
  refine ⟨c, last, next, L1, L2, by rw [hidx]; exact hrun, hL, hseg, hch2, hlt1, hlast, ?_⟩
  rcases hcv with ⟨q, L3, hq, hcq, hc0le⟩ | ⟨hnil, hcc⟩
  · rw [hw.cmp_mem hc] at hcq
    subst hq
    have hnext : next = some q := hch2.1
    by_cases hz : c = 0
    · left
      refine ⟨hz, q, hnext, ?_, by rw [← hcq]; exact hz⟩
      exact ((hmem q).mp (by rw [hL]; simp)).1
    · right
      have hqe : 0 < cmp (mem0 q) (mem0 e) := by omega
      have heq : cmp (mem0 e) (mem0 q) < 0 := (hc.antisymm e q).mpr hqe
      have hL3 : ∀ r ∈ L3, cmp (mem0 q) (mem0 r) < 0 :=
        fun r hr => (List.pairwise_cons.mp hs.2.1).1 r hr
      refine ⟨hz, ?_, ?_⟩
      · intro r hr hre
        rcases List.mem_append.mp (hin r hr hre) with h1 | h2
        · have := hlt1 r h1; omega
        · rcases List.mem_cons.mp h2 with rfl | h3
          · omega
          · have := hc.lt_of_lt_of_eq (hL3 r h3) hre
            omega
      · intro r hr
        rcases List.mem_cons.mp hr with rfl | h3
        · exact heq
        · exact hc.lt_trans heq (hL3 r h3)
  · right
    subst hnil
    refine ⟨by omega, ?_, by simp⟩
    intro r hr hre
    have h1 := hin r hr hre
    rw [List.append_nil] at h1
    have := hlt1 r h1
    omega

theorem linkEntry_table (s : Store) (e : Nat) (last next : Option Nat) :
    (linkEntry s e last next).table.cmp = s.table.cmp ∧
    (linkEntry s e last next).table.num_buckets = s.table.num_buckets ∧
    (linkEntry s e last next).table.num_entries = s.table.num_entries ∧
    (linkEntry s e last next).table.mask = s.table.mask ∧
    (linkEntry s e last next).table.min_buckets = s.table.min_buckets ∧
    (linkEntry s e last next).table.worklist = some e := by
  cases last <;> simp [linkEntry]

theorem linkEntry_data (s : Store) (e : Nat) (last next : Option Nat) (p : Nat) :
    ((linkEntry s e last next).mem p).hash = (s.mem p).hash ∧
    ((linkEntry s e last next).mem p).memory = (s.mem p).memory := by
  cases last with
  | none =>
    simp only [linkEntry]
    exact ⟨(setWork_data _ _ _ p).1.trans (setNext_data _ _ _ p).1,
      (setWork_data _ _ _ p).2.1.trans (setNext_data _ _ _ p).2.1⟩
  | some l =>
    simp only [linkEntry]
    exact ⟨(setWork_data _ _ _ p).1.trans ((setNext_data _ _ _ p).1.trans
        (setNext_data _ _ _ p).1),
      (setWork_data _ _ _ p).2.1.trans ((setNext_data _ _ _ p).2.1.trans
        (setNext_data _ _ _ p).2.1)⟩

theorem linkEntry_work (s : Store) (e : Nat) (last next : Option Nat) (p : Nat) :
    ((linkEntry s e last next).mem p).work = if p = e then s.table.worklist else (s.mem p).work := by
  cases last with
  | none =>
    simp only [linkEntry]
    rw [setWork_work]
    split
    · rfl
    · exact (setNext_data _ _ _ p).2.2
  | some l =>
    simp only [linkEntry]
    rw [setWork_work]
    split
    · rfl
    · exact (setNext_data _ _ _ p).2.2.trans (setNext_data _ _ _ p).2.2

theorem linkEntry_next_none (s : Store) (e : Nat) (next : Option Nat) (p : Nat) :
    ((linkEntry s e none next).mem p).next =
      if p = e then s.table.buckets ((s.mem e).hash &&& s.table.mask) else (s.mem p).next := by
  simp only [linkEntry]
  rw [(setWork_data _ _ _ p).2.2, setNext_next]

theorem linkEntry_next_some (s : Store) (e l : Nat) (next : Option Nat) (p : Nat) :
    ((linkEntry s e (some l) next).mem p).next =
      if p = l then some e else if p = e then next else (s.mem p).next := by
  simp only [linkEntry]
  rw [(setWork_data _ _ _ p).2.2, setNext_next, setNext_next]

theorem linkEntry_buckets_none (s : Store) (e : Nat) (next : Option Nat) :
    (linkEntry s e none next).table.buckets =
      setAt s.table.buckets ((s.mem e).hash &&& s.table.mask) (some e) := by
  simp [linkEntry]

theorem linkEntry_buckets_some (s : Store) (e l : Nat) (next : Option Nat) :
    (linkEntry s e (some l) next).table.buckets = s.table.buckets := by
  simp [linkEntry]

/-- Linking a new entry at the place found by the search keeps every bucket chain: the
chain of its bucket becomes `L1 ++ e :: L2`, the other chains are untouched. -/
theorem Chains.link_chains {cmp : wState → wState → Int} {mem0 : Nat → wState} {s : Store}
    {A W : List Nat} {B : Nat → List Nat} (hc : CmpOK cmp mem0) (hw : Wf cmp mem0 s A W)
    (hB : Chains cmp mem0 s A B) (e : Nat) (last next : Option Nat) (L1 L2 : List Nat)
    (hL : B ((mem0 e).hash % s.table.num_buckets) = L1 ++ L2)
    (hseg : IsSeg s.mem (s.table.buckets ((mem0 e).hash % s.table.num_buckets)) L1 next)
    (hch : IsChain s.mem next L2)
    (hlt : ∀ p ∈ L1, cmp (mem0 p) (mem0 e) < 0)
    (hlast : (L1 = [] ∧ last = none) ∨ (∃ L0 l, L1 = L0 ++ [l] ∧ last = some l))
    (hnew : ∀ q ∈ A, cmp (mem0 q) (mem0 e) ≠ 0)
    (hgt : ∀ q ∈ L2, cmp (mem0 e) (mem0 q) < 0) :
    Chains cmp mem0 (linkEntry s e last next) (e :: A)
      (setAt B ((mem0 e).hash % s.table.num_buckets) (L1 ++ e :: L2)) := by
  have hi : (mem0 e).hash % s.table.num_buckets < s.table.num_buckets :=
    Nat.mod_lt _ hw.buckets_pos
  have hidx : (s.mem e).hash &&& s.table.mask = (mem0 e).hash % s.table.num_buckets := by
    rw [hw.land_mask_mod, (hw.data e).1]
  have heA : e ∉ A := fun h => hnew e h (hc.refl e)
  obtain ⟨_, hsorted, hmem⟩ := hB _ hi
  have hndi := hB.nodup hc _ hi
  rw [hL] at hsorted hndi
  have hsub : ∀ p, p ∈ L1 ++ L2 → p ∈ A := fun p hp => ((hmem p).mp (hL ▸ hp)).1
  have hne : ∀ p, p ∈ L1 ++ L2 → p ≠ e := fun p hp h => heA (h ▸ hsub p hp)
  intro j hj
  rw [(linkEntry_table s e last next).2.1] at hj ⊢
  by_cases hji : j = (mem0 e).hash % s.table.num_buckets
  · subst hji
    rw [setAt_same]
    refine ⟨?_, ?_, ?_⟩
    · rcases hlast with ⟨h1, h2⟩ | ⟨L0, l, h1, h2⟩
      · subst h1 h2
        rw [linkEntry_buckets_none, hidx, setAt_same]
        refine ⟨rfl, ?_⟩
        rw [linkEntry_next_none, if_pos rfl, hidx]
        have hbn : s.table.buckets ((mem0 e).hash % s.table.num_buckets) = next := hseg
        rw [hbn]
        refine IsSeg.congr (fun p hp => ?_) hch
        rw [linkEntry_next_none, if_neg (hne p (by simpa using hp))]
      · subst h1 h2
        rw [linkEntry_buckets_some]
        obtain ⟨m, hs0, hs1⟩ := IsSeg.split hseg
        obtain ⟨hm, hln⟩ := hs1
        have hln : (s.mem l).next = next := hln
        subst hm
        have hle : l ≠ e := hne l (by simp)
        have hnd0 : l ∉ L0 ∧ l ∉ L2 := by
          have := hndi
          simp only [List.append_assoc, List.singleton_append] at this
          have h3 := (List.nodup_append.mp this).2.2
          have h4 := (List.nodup_cons.mp (List.nodup_append.mp this).2.1).1
          exact ⟨fun h => h3 h (List.mem_cons_self _ _), h4⟩
        have hA : IsSeg (linkEntry s e (some l) next).mem
            (s.table.buckets ((mem0 e).hash % s.table.num_buckets)) L0 (some l) := by
          refine IsSeg.congr (fun p hp => ?_) hs0
          rw [linkEntry_next_some, if_neg (fun h : p = l => hnd0.1 (h ▸ hp)),
            if_neg (hne p (by simp [hp]))]
        have hM : IsSeg (linkEntry s e (some l) next).mem (some l) [l] (some e) :=
          ⟨rfl, by rw [linkEntry_next_some, if_pos rfl]; rfl⟩
        have hZ : IsSeg (linkEntry s e (some l) next).mem (some e) (e :: L2) none := by
          refine ⟨rfl, ?_⟩
          rw [linkEntry_next_some, if_neg hle.symm, if_pos rfl]
          refine IsSeg.congr (fun p hp => ?_) hch
          rw [linkEntry_next_some, if_neg (fun h : p = l => hnd0.2 (h ▸ hp)),
            if_neg (hne p (by simp [hp]))]
        exact IsSeg.append (IsSeg.append hA hM) hZ
    · have hs := List.pairwise_append.mp hsorted
      refine List.pairwise_append.mpr ⟨hs.1, List.pairwise_cons.mpr ⟨hgt, hs.2.1⟩, ?_⟩
      intro a ha b hb
      rcases List.mem_cons.mp hb with rfl | hb
      · exact hlt a ha
      · exact hs.2.2 a ha b hb
    · intro p
      have := hmem p
      rw [hL] at this
      simp only [List.mem_append, List.mem_cons] at this ⊢
      constructor
      · rintro (h | rfl | h)
        · exact ⟨Or.inr (this.mp (Or.inl h)).1, (this.mp (Or.inl h)).2⟩
        · exact ⟨Or.inl rfl, rfl⟩
        · exact ⟨Or.inr (this.mp (Or.inr h)).1, (this.mp (Or.inr h)).2⟩
      · rintro ⟨rfl | h, h2⟩
        · exact Or.inr (Or.inl rfl)
        · rcases this.mpr ⟨h, h2⟩ with h3 | h3
          · exact Or.inl h3
          · exact Or.inr (Or.inr h3)
  · rw [setAt_ne _ _ _ _ hji]
    obtain ⟨hcj, hsj, hmj⟩ := hB j hj
    have hnej : ∀ p, p ∈ B j → p ≠ e := fun p hp h => heA (h ▸ ((hmj p).mp hp).1)
    have hnij : ∀ p, p ∈ B j → p ∉ L1 ++ L2 := fun p hp h =>
      hji (((hmj p).mp hp).2.symm.trans ((hmem p).mp (hL ▸ h)).2)
    refine ⟨?_, hsj, ?_⟩
    · rcases hlast with ⟨h1, h2⟩ | ⟨L0, l, h1, h2⟩
      · subst h1 h2
        rw [linkEntry_buckets_none, hidx, setAt_ne _ _ _ _ hji]
        refine IsSeg.congr (fun p hp => ?_) hcj
        rw [linkEntry_next_none, if_neg (hnej p hp)]
      · subst h1 h2
        rw [linkEntry_buckets_some]
        refine IsSeg.congr (fun p hp => ?_) hcj
        rw [linkEntry_next_some, if_neg (fun h => hnij p hp (by simp [h])),
          if_neg (hnej p hp)]
    · intro p
      rw [hmj p]
      simp only [List.mem_cons]
      constructor
      · rintro ⟨h1, h2⟩
        exact ⟨Or.inr h1, h2⟩
      · rintro ⟨rfl | h1, h2⟩
        · exact absurd h2.symm hji
        · exact ⟨h1, h2⟩

theorem Wf.link {cmp : wState → wState → Int} {mem0 : Nat → wState} {s : Store}
    {A W : List Nat} {B : Nat → List Nat} (hc : CmpOK cmp mem0) (hw : Wf cmp mem0 s A W)
    (hB : Chains cmp mem0 s A B) (e : Nat) (last next : Option Nat) (L1 L2 : List Nat)
    (hL : B ((mem0 e).hash % s.table.num_buckets) = L1 ++ L2)
    (hseg : IsSeg s.mem (s.table.buckets ((mem0 e).hash % s.table.num_buckets)) L1 next)
    (hch : IsChain s.mem next L2)
    (hlt : ∀ p ∈ L1, cmp (mem0 p) (mem0 e) < 0)
    (hlast : (L1 = [] ∧ last = none) ∨ (∃ L0 l, L1 = L0 ++ [l] ∧ last = some l))
    (hnew : ∀ q ∈ A, cmp (mem0 q) (mem0 e) ≠ 0)
    (hgt : ∀ q ∈ L2, cmp (mem0 e) (mem0 q) < 0) :
    Wf cmp mem0 (linkEntry s e last next) (e :: A) (e :: W) := by
  have heA : e ∉ A := fun h => hnew e h (hc.refl e)
  have ht := linkEntry_table s e last next
  refine ⟨ht.1.trans hw.cmp_eq, ?_, ?_, ?_, ?_, ?_, ?_, hw.sub.cons₂ e⟩
  · intro p
    exact ⟨(linkEntry_data s e last next p).1.trans (hw.data p).1,
      (linkEntry_data s e last next p).2.trans (hw.data p).2⟩
  · rw [ht.2.1]; exact hw.size
  · rw [ht.2.1, ht.2.2.2.1]; exact hw.mask
  · exact List.pairwise_cons.mpr ⟨fun q hq h => hnew q hq (hc.symm h), hw.distinct⟩
  · exact ⟨_, hB.link_chains hc hw e last next L1 L2 hL hseg hch hlt hlast hnew hgt⟩
  · rw [ht.2.2.2.2.2]
    refine ⟨rfl, ?_⟩
    rw [linkEntry_work, if_pos rfl]
    refine IsWork.congr_work (fun p hp => ?_) hw.work
    rw [linkEntry_work, if_neg (fun h : p = e => heA (h ▸ hw.sub.subset hp))]

/-- A grow keeps every entry and the order inside the chains: new bucket `j` is old bucket
`j` filtered by the new mask, new bucket `j + n` holds the entries filtered out. -/
theorem Chains.grow_chains {cmp : wState → wState → Int} {mem0 : Nat → wState} {s : Store}
    {A W : List Nat} {B : Nat → List Nat} (hc : CmpOK cmp mem0) (hw : Wf cmp mem0 s A W)
    (hB : Chains cmp mem0 s A B) (fuel : Nat) (hf : A.length ≤ fuel) :
    ∃ s1, growTable fuel s = some s1 ∧
      s1.table = { s.table with
        mask := s.table.num_buckets * 2 - 1
        buckets := s1.table.buckets
        num_buckets := s.table.num_buckets * 2 } ∧
      (∀ p, (s1.mem p).hash = (s.mem p).hash ∧ (s1.mem p).memory = (s.mem p).memory ∧
        (s1.mem p).work = (s.mem p).work) ∧
      Chains cmp mem0 s1 A (fun j =>
        if j < s.table.num_buckets then
          (B j).filter (fun p => decide ((mem0 p).hash &&& (s.table.num_buckets * 2 - 1) = j))
        else
          (B (j - s.table.num_buckets)).filter (fun p =>
            !decide ((mem0 p).hash &&& (s.table.num_buckets * 2 - 1)
              = j - s.table.num_buckets))) := by
  have hpos := hw.buckets_pos
  have hland : ∀ x, x &&& (s.table.num_buckets * 2 - 1) = x % (s.table.num_buckets * 2) := by
    intro x
    obtain ⟨g, hg⟩ := hw.size
    have h2 : s.table.num_buckets * 2 = WHASH_MIN * 2 ^ (g + 1) := by
      rw [hg, Nat.pow_succ, Nat.mul_assoc]
    rw [h2]
    exact land_mask x (g + 1)
  obtain ⟨mem1, b1, hrun, hk, _, _, hd⟩ :=
    splitBuckets_spec fuel (s.table.num_buckets * 2 - 1) s.table.num_buckets
      (fun p => (mem0 p).hash) B
      (fun j hj => (hB.length_le hc j hj).trans hf)
      (fun j hj => hB.nodup hc j hj)
      (fun j j1 p hj hj1 h1 h2 =>
        (((hB j hj).2.2 p).mp h1).2.symm.trans (((hB j1 hj1).2.2 p).mp h2).2)
      s.table.num_buckets 0 s.mem s.table.buckets (by omega) (fun p => (hw.data p).1)
      (fun j _ hj => (hB j hj).1)
  refine ⟨{ mem := mem1, table := { s.table with
      mask := s.table.num_buckets * 2 - 1, buckets := b1,
      num_buckets := s.table.num_buckets * 2 } },
    by simp only [growTable, hrun], rfl, hd, ?_⟩
  intro j hj
  have hj2 : j < s.table.num_buckets * 2 := hj
  show IsChain mem1 (b1 j) _ ∧ _ ∧ ∀ p, _ ↔ p ∈ A ∧ (mem0 p).hash % (s.table.num_buckets * 2) = j
  by_cases hjn : j < s.table.num_buckets
  · simp only [if_pos hjn]
    refine ⟨(hk j (Nat.zero_le j) hjn).1, (hB j hjn).2.1.filter _, ?_⟩
    intro p
    rw [List.mem_filter, (hB j hjn).2.2 p, decide_eq_true_eq, hland]
    have := mod_double (mem0 p).hash s.table.num_buckets
    constructor
    · rintro ⟨⟨h1, _⟩, h3⟩
      exact ⟨h1, h3⟩
    · rintro ⟨h1, h3⟩
      refine ⟨⟨h1, ?_⟩, h3⟩
      have := Nat.mod_lt (mem0 p).hash hpos
      omega
  · simp only [if_neg hjn]
    have hjn1 : j - s.table.num_buckets < s.table.num_buckets := by omega
    have hk2 := (hk (j - s.table.num_buckets) (Nat.zero_le _) hjn1).2
    rw [Nat.sub_add_cancel (by omega)] at hk2
    refine ⟨hk2, (hB _ hjn1).2.1.filter _, ?_⟩
    intro p
    rw [List.mem_filter, (hB _ hjn1).2.2 p, Bool.not_eq_true', decide_eq_false_iff_not, hland]
    have := mod_double (mem0 p).hash s.table.num_buckets
    have := Nat.mod_lt (mem0 p).hash hpos
    constructor
    · rintro ⟨⟨h1, h2⟩, h3⟩
      exact ⟨h1, by omega⟩
    · rintro ⟨h1, h3⟩
      exact ⟨⟨h1, by omega⟩, by omega⟩

theorem Wf.grow {cmp : wState → wState → Int} {mem0 : Nat → wState} {s : Store}
    {A W : List Nat} (hc : CmpOK cmp mem0) (hw : Wf cmp mem0 s A W) (fuel : Nat)
    (hf : A.length ≤ fuel) :
    ∃ s1, growTable fuel s = some s1 ∧ Wf cmp mem0 s1 A W ∧
      s1.table.num_buckets = s.table.num_buckets * 2 ∧
      s1.table.num_entries = s.table.num_entries := by
  obtain ⟨B, hB⟩ := hw.chains
  obtain ⟨s1, hrun, htab, hd, hch⟩ := hB.grow_chains hc hw fuel hf
  have hnb : s1.table.num_buckets = s.table.num_buckets * 2 := by rw [htab]
  refine ⟨s1, hrun, ⟨?_, ?_, ?_, ?_, hw.distinct, ⟨_, hch⟩, ?_, hw.sub⟩, hnb, by rw [htab]⟩
  · rw [htab]; exact hw.cmp_eq
  · intro p
    exact ⟨(hd p).1.trans (hw.data p).1, (hd p).2.1.trans (hw.data p).2⟩
  · obtain ⟨g, hg⟩ := hw.size
    exact ⟨g + 1, by rw [hnb, hg, Nat.pow_succ, Nat.mul_assoc]⟩
  · rw [htab]
  · have : s1.table.worklist = s.table.worklist := by rw [htab]
    rw [this]
    exact IsWork.congr_work (fun p _ => (hd p).2.2) hw.work

theorem Wf.buckets_ge {cmp : wState → wState → Int} {mem0 : Nat → wState} {s : Store}
    {A W : List Nat} (hw : Wf cmp mem0 s A W) : WHASH_MIN ≤ s.table.num_buckets := by
  obtain ⟨g, hg⟩ := hw.size
  rw [hg]
  exact Nat.le_mul_of_pos_right _ (Nat.pos_pow_of_pos _ (by decide))

theorem Inv.create (cmp : wState → wState → Int) (mem0 : Nat → wState) :
    Inv cmp mem0 ⟨mem0, wHashCreate cmp⟩ [] [] := by
  refine ⟨⟨rfl, fun _ => ⟨rfl, rfl⟩, ⟨0, rfl⟩, rfl, List.Pairwise.nil, ⟨fun _ => [], ?_⟩, rfl,
    List.Sublist.slnil⟩, rfl, by simp, fun h => absurd rfl h⟩
  intro i _
  exact ⟨rfl, List.Pairwise.nil, fun p => by simp⟩

theorem Wf.find?_eq {cmp : wState → wState → Int} {mem0 : Nat → wState} {s : Store}
    {A W : List Nat} (hc : CmpOK cmp mem0) (hw : Wf cmp mem0 s A W) (e q : Nat) (hq : q ∈ A)
    (heq : cmp (mem0 q) (mem0 e) = 0) :
    A.find? (fun r => decide (cmp (mem0 r) (mem0 e) = 0)) = some q := by
  cases h : A.find? (fun r => decide (cmp (mem0 r) (mem0 e) = 0)) with
  | none =>
    have := List.find?_eq_none.mp h q hq
    simp [heq] at this
  | some r =>
    have hr : cmp (mem0 r) (mem0 e) = 0 := by simpa using List.find?_some h
    have hrA : r ∈ A := List.mem_of_find?_eq_some h
    by_cases hrq : r = q
    · rw [hrq]
    · exfalso
      have hsym : Symmetric (fun p q : Nat => cmp (mem0 p) (mem0 q) ≠ 0) :=
        fun a b hab h => hab (hc.symm h)
      exact hw.distinct.forall hsym hrA hq hrq (hc.eq_trans hr (hc.symm heq))

theorem Wf.find?_none {cmp : wState → wState → Int} {mem0 : Nat → wState} {A : List Nat}
    (e : Nat) (hnew : ∀ q ∈ A, cmp (mem0 q) (mem0 e) ≠ 0) :
    A.find? (fun r => decide (cmp (mem0 r) (mem0 e) = 0)) = none := by
  rw [List.find?_eq_none]
  intro q hq
  simpa using hnew q hq

/-- In the stores the operations build, `wHashFind` terminates and returns the admitted
entry that compares equal to the candidate, or `NULL` when there is none. -/
theorem Wf.find {cmp : wState → wState → Int} {mem0 : Nat → wState} {s : Store}
    {A W : List Nat} (hc : CmpOK cmp mem0) (hw : Wf cmp mem0 s A W) (e fuel : Nat)
    (hf : A.length ≤ fuel) :
    wHashFind fuel s e = some (A.find? (fun r => decide (cmp (mem0 r) (mem0 e) = 0))) := by
  obtain ⟨B, hB⟩ := hw.chains
  obtain ⟨c, last, next, L1, L2, hrun, _, _, _, _, _, hcv⟩ :=
    hw.search hc hB e fuel 1 hf (by decide)
  unfold wHashFind
  rw [findLoop_eq_searchLoop _ _ _ fuel 1 none _ (by decide), hrun]
  rcases hcv with ⟨hz, q, hn, hq, heq⟩ | ⟨hz, hnew, _⟩
  · simp [hz, hn, hw.find?_eq hc e q hq heq]
  · simp [hz, Wf.find?_none e hnew]

/-- Inserting a candidate equal to an admitted entry returns that entry and changes
nothing. -/
theorem Inv.insert_found {cmp : wState → wState → Int} {mem0 : Nat → wState} {s : Store}
    {A W : List Nat} (hc : CmpOK cmp mem0) (hi : Inv cmp mem0 s A W) (e fuel q : Nat)
    (hf : A.length ≤ fuel) (hq : q ∈ A) (heq : cmp (mem0 q) (mem0 e) = 0) :
    wHashInsert fuel s e = some (s, some q) := by
  obtain ⟨B, hB⟩ := hi.wf.chains
  obtain ⟨c, last, next, L1, L2, hrun, _, _, _, _, _, hcv⟩ :=
    hi.wf.search hc hB e fuel 1 hf (by decide)
  unfold wHashInsert
  rw [hrun]
  rcases hcv with ⟨hz, r, hn, hr, hre⟩ | ⟨_, hnew, _⟩
  · have h1 := hi.wf.find?_eq hc e q hq heq
    have h2 := hi.wf.find?_eq hc e r hr hre
    have hrq : r = q := Option.some.inj (h2.symm.trans h1)
    simp [hz, hn, hrq]
  · exact absurd heq (hnew q hq)

/-- Inserting a candidate equal to no admitted entry admits it: it becomes the newest
admitted entry and the head of the frontier, after a grow exactly when the entry count
before the call has reached 3/4 of the bucket count. -/
theorem Inv.insert_new {cmp : wState → wState → Int} {mem0 : Nat → wState} {s : Store}
    {A W : List Nat} (hc : CmpOK cmp mem0) (hi : Inv cmp mem0 s A W) (e fuel : Nat)
    (hf : A.length ≤ fuel) (hnew : ∀ q ∈ A, cmp (mem0 q) (mem0 e) ≠ 0) :
    ∃ s1, wHashInsert fuel s e = some (s1, some e) ∧ Inv cmp mem0 s1 (e :: A) (e :: W) ∧
      s1.table.num_buckets =
        if s.table.num_entries ≥ s.table.num_buckets * 3 / 4 then s.table.num_buckets * 2
        else s.table.num_buckets := by
  obtain ⟨B, hB⟩ := hi.wf.chains
  obtain ⟨c, last, next, L1, L2, hrun, hL, hseg, hch, hlt, hlast, hcv⟩ :=
    hi.wf.search hc hB e fuel 1 hf (by decide)
  have hcount := hi.count
  have hload := hi.load
  have hge : 1024 ≤ s.table.num_buckets := hi.wf.buckets_ge
  have htight := hi.tight
  rcases hcv with ⟨_, r, _, hr, hre⟩ | ⟨hz, _, hgt⟩
  · exact absurd hre (hnew r hr)
  have hw1 : Wf cmp mem0
      { s with table := { s.table with num_entries := s.table.num_entries + 1 } } A W :=
    ⟨hi.wf.cmp_eq, hi.wf.data, hi.wf.size, hi.wf.mask, hi.wf.distinct, ⟨B, hB⟩, hi.wf.work,
      hi.wf.sub⟩
  by_cases hg : s.table.num_entries ≥ s.table.num_buckets * 3 / 4
  · obtain ⟨s2, hgrow, hw2, hnb2, hne2⟩ := hw1.grow hc fuel hf
    obtain ⟨B2, hB2⟩ := hw2.chains
    obtain ⟨c2, last2, next2, M1, M2, hrun2, hM, hseg2, hch2, hlt2, hlast2, hcv2⟩ :=
      hw2.search hc hB2 e fuel c hf hz
    rcases hcv2 with ⟨_, r, _, hr, hre⟩ | ⟨_, _, hgt2⟩
    · exact absurd hre (hnew r hr)
    have hwl := hw2.link hc hB2 e last2 next2 M1 M2 hM hseg2 hch2 hlt2 hlast2 hnew hgt2
    have ht := linkEntry_table s2 e last2 next2
    refine ⟨linkEntry s2 e last2 next2, ?_, ⟨hwl, ?_, ?_, ?_⟩, ?_⟩
    · unfold wHashInsert
      simp only [hrun, if_neg hz, if_pos hg, hgrow, hrun2]
    · rw [ht.2.2.1, hne2]; simp [hcount]
    · rw [ht.2.1, hnb2]
      simp only [List.length_cons]
      have : s.table.num_buckets * 3 / 4 ≤ A.length := by rw [← hcount]; exact hg
      show 4 * (A.length + 1) ≤ 3 * (s.table.num_buckets * 2)
      omega
    · intro _
      rw [ht.2.1, hnb2]
      simp only [List.length_cons]
      have : s.table.num_buckets * 3 / 4 ≤ A.length := by rw [← hcount]; exact hg
      show 3 * (s.table.num_buckets * 2) < 8 * (A.length + 1)
      omega
    · rw [ht.2.1, hnb2, if_pos hg]
  · have hwl := hw1.link hc hB e last next L1 L2 hL hseg hch hlt hlast hnew hgt
    have ht := linkEntry_table
      { s with table := { s.table with num_entries := s.table.num_entries + 1 } } e last next
    refine ⟨_, ?_, ⟨hwl, ?_, ?_, ?_⟩, ?_⟩
    · unfold wHashInsert
      simp only [hrun, if_neg hz, if_neg hg]
    · rw [ht.2.2.1]; simp [hcount]
    · rw [ht.2.1]
      simp only [List.length_cons]
      have : A.length < s.table.num_buckets * 3 / 4 := by rw [← hcount]; omega
      show 4 * (A.length + 1) ≤ 3 * s.table.num_buckets
      omega
    · intro h
      rw [ht.2.1] at h ⊢
      simp only [List.length_cons]
      have := htight h
      show 3 * s.table.num_buckets < 8 * (A.length + 1)
      omega
    · rw [ht.2.1, if_neg hg]

/-- A pop hands out the head of the frontier and keeps the admitted entries. -/
theorem Inv.pop_cons {cmp : wState → wState → Int} {mem0 : Nat → wState} {s : Store}
    {A W : List Nat} {r : Nat} (hi : Inv cmp mem0 s A (r :: W)) :
    (wHashPop s).2 = some r ∧ Inv cmp mem0 (wHashPop s).1 A W := by
  have hw := hi.wf.work
  obtain ⟨h1, h2⟩ := hw
  unfold wHashPop
  rw [h1]
  refine ⟨rfl, ⟨⟨hi.wf.cmp_eq, hi.wf.data, hi.wf.size, hi.wf.mask, hi.wf.distinct,
    hi.wf.chains, h2, (List.sublist_cons_self r W).trans hi.wf.sub⟩, hi.count, hi.load,
    hi.tight⟩⟩

theorem Inv.pop_nil {cmp : wState → wState → Int} {mem0 : Nat → wState} {s : Store}
    {A : List Nat} (hi : Inv cmp mem0 s A []) : wHashPop s = (s, none) := by
  have hw : s.table.worklist = none := hi.wf.work
  unfold wHashPop
  rw [hw]


/-! ## Sequences of calls -/

/-- Every call on a store of the invariant terminates and does what `absStep` says. -/
theorem step_refines {cmp : wState → wState → Int} {mem0 : Nat → wState} {s : Store}
    {A W : List Nat} (hc : CmpOK cmp mem0) (hi : Inv cmp mem0 s A W) (fuel : Nat)
    (hf : A.length ≤ fuel) (op : Op) :
    ∃ s1, step fuel s op = some (s1, (absStep cmp mem0 (A, W) op).2) ∧
      Inv cmp mem0 s1 (absStep cmp mem0 (A, W) op).1.1 (absStep cmp mem0 (A, W) op).1.2 ∧
      (absStep cmp mem0 (A, W) op).1.1.length ≤ A.length + 1 := by
  cases op with
  | insert e =>
    cases h : A.find? (fun r => decide (cmp (mem0 r) (mem0 e) = 0)) with
    | some q =>
      have hq : q ∈ A := List.mem_of_find?_eq_some h
      have heq : cmp (mem0 q) (mem0 e) = 0 := by simpa using List.find?_some h
      refine ⟨s, ?_, ?_, ?_⟩
      · simp only [step, absStep, h]
        exact hi.insert_found hc e fuel q hf hq heq
      · simpa only [absStep, h] using hi
      · simp [absStep, h]
    | none =>
      have hnew : ∀ q ∈ A, cmp (mem0 q) (mem0 e) ≠ 0 := fun q hq => by
        simpa using List.find?_eq_none.mp h q hq
      obtain ⟨s1, hrun, hi1, _⟩ := hi.insert_new hc e fuel hf hnew
      refine ⟨s1, ?_, ?_, ?_⟩
      · simp only [step, absStep, h]
        exact hrun
      · simpa only [absStep, h] using hi1
      · simp [absStep, h]
  | find e =>
    refine ⟨s, ?_, hi, by simp [absStep]⟩
    simp only [step, absStep, hi.wf.find hc e fuel hf]
  | pop =>
    cases W with
    | nil =>
      refine ⟨s, ?_, hi, by simp [absStep]⟩
      simp only [step, absStep, hi.pop_nil]
    | cons r W =>
      have hp := hi.pop_cons
      refine ⟨(wHashPop s).1, ?_, hp.2, by simp [absStep]⟩
      simp only [step, absStep]
      rw [← hp.1]

/-- Every sequence of calls on a store of the invariant terminates, given fuel for the
longest chain, and does what `absRun` says. -/
theorem run_refines {cmp : wState → wState → Int} {mem0 : Nat → wState}
    (hc : CmpOK cmp mem0) (fuel : Nat) (ops : List Op) :
    ∀ (s : Store) (A W : List Nat), Inv cmp mem0 s A W → A.length + ops.length ≤ fuel →
      ∃ s1, run fuel s ops = some (s1, (absRun cmp mem0 (A, W) ops).2) ∧
        Inv cmp mem0 s1 (absRun cmp mem0 (A, W) ops).1.1 (absRun cmp mem0 (A, W) ops).1.2 := by
  induction ops with
  | nil =>
    intro s A W hi _
    exact ⟨s, rfl, hi⟩
  | cons op ops ih =>
    intro s A W hi hf
    simp only [List.length_cons] at hf
    obtain ⟨s1, hstep, hi1, hlen⟩ := step_refines hc hi fuel (by omega) op
    obtain ⟨s2, hrun, hi2⟩ := ih s1 _ _ hi1 (by omega)
    refine ⟨s2, ?_, hi2⟩
    simp only [run, hstep, hrun, absRun]

theorem popAll_spec {cmp : wState → wState → Int} {mem0 : Nat → wState} (W : List Nat) :
    ∀ (fuel : Nat) (s : Store) (A : List Nat), Inv cmp mem0 s A W → W.length ≤ fuel →
      ∃ s1, popAll fuel s = some (s1, W) ∧ Inv cmp mem0 s1 A [] := by
  induction W with
  | nil =>
    intro fuel s A hi _
    refine ⟨s, ?_, hi⟩
    cases fuel <;> simp [popAll, hi.pop_nil]
  | cons r W ih =>
    intro fuel s A hi hf
    cases fuel with
    | zero => simp at hf
    | succ fuel =>
      have hp := hi.pop_cons
      obtain ⟨s1, hrun, hi1⟩ := ih fuel _ A hp.2 (by simpa using hf)
      refine ⟨s1, ?_, hi1⟩
      simp only [popAll, hp.1, hrun]

/-- Admitting keeps this relation: the admitted entry equal to a candidate is the first
candidate seen that is equal to it. -/
theorem absStep_insert_find {cmp : wState → wState → Int} {mem0 : Nat → wState}
    (hc : CmpOK cmp mem0) (A W seen : List Nat) (e : Nat)
    (h1 : ∀ x, A.find? (fun r => decide (cmp (mem0 r) (mem0 x) = 0))
      = seen.find? (fun r => decide (cmp (mem0 r) (mem0 x) = 0))) (x : Nat) :
    (absStep cmp mem0 (A, W) (Op.insert e)).1.1.find?
        (fun r => decide (cmp (mem0 r) (mem0 x) = 0))
      = (seen ++ [e]).find? (fun r => decide (cmp (mem0 r) (mem0 x) = 0)) := by
  rw [List.find?_append, ← h1 x]
  cases h : A.find? (fun r => decide (cmp (mem0 r) (mem0 e) = 0)) with
  | some q =>
    have hq : q ∈ A := List.mem_of_find?_eq_some h
    have heq : cmp (mem0 q) (mem0 e) = 0 := by simpa using List.find?_some h
    simp only [absStep, h]
    cases hx : A.find? (fun r => decide (cmp (mem0 r) (mem0 x) = 0)) with
    | some y => simp
    | none =>
      have hne : cmp (mem0 e) (mem0 x) ≠ 0 := by
        intro hex
        have := List.find?_eq_none.mp hx q hq
        simp [hc.eq_trans heq hex] at this
      simp [hne]
  | none =>
    have hnew : ∀ q ∈ A, cmp (mem0 q) (mem0 e) ≠ 0 := fun q hq => by
      simpa using List.find?_eq_none.mp h q hq
    simp only [absStep, h]
    by_cases hex : cmp (mem0 e) (mem0 x) = 0
    · have hx : A.find? (fun r => decide (cmp (mem0 r) (mem0 x) = 0)) = none := by
        rw [List.find?_eq_none]
        intro q hq hqx
        have hqx : cmp (mem0 q) (mem0 x) = 0 := by simpa using hqx
        exact hnew q hq (hc.eq_trans hqx (hc.symm hex))
      simp [hex, hx]
    · simp [hex]

theorem absStep_insertsOf {cmp : wState → wState → Int} {mem0 : Nat → wState}
    (hc : CmpOK cmp mem0) (A W seen : List Nat) (op : Op)
    (h1 : ∀ x, A.find? (fun r => decide (cmp (mem0 r) (mem0 x) = 0))
      = seen.find? (fun r => decide (cmp (mem0 r) (mem0 x) = 0))) (x : Nat) :
    (absStep cmp mem0 (A, W) op).1.1.find? (fun r => decide (cmp (mem0 r) (mem0 x) = 0))
      = (seen ++ insertsOf [op]).find? (fun r => decide (cmp (mem0 r) (mem0 x) = 0)) := by
  cases op with
  | insert e => exact absStep_insert_find hc A W seen e h1 x
  | find e => simpa [absStep, insertsOf] using h1 x
  | pop =>
    cases W with
    | nil => simpa [absStep, insertsOf] using h1 x
    | cons r W => simpa [absStep, insertsOf] using h1 x

theorem insertsOf_cons (op : Op) (ops : List Op) :
    insertsOf (op :: ops) = insertsOf [op] ++ insertsOf ops := by
  cases op <;> simp [insertsOf]

theorem insertsOf_length_le (ops : List Op) : (insertsOf ops).length ≤ ops.length := by
  induction ops with
  | nil => simp [insertsOf]
  | cons op ops ih => cases op <;> simp [insertsOf] <;> omega

theorem any_eq_isSome_find {cmp : wState → wState → Int} {mem0 : Nat → wState}
    (A seen : List Nat) (c : Nat)
    (h1 : A.find? (fun r => decide (cmp (mem0 r) (mem0 c) = 0))
      = seen.find? (fun r => decide (cmp (mem0 r) (mem0 c) = 0))) :
    seen.any (fun q => decide (cmp (mem0 q) (mem0 c) = 0))
      = (A.find? (fun r => decide (cmp (mem0 r) (mem0 c) = 0))).isSome := by
  rw [h1, Bool.eq_iff_iff, List.any_eq_true, List.find?_isSome]

/-- The admitted entries after a sequence of calls are the first members of the
equivalence classes of the candidates inserted, most recent first. -/
theorem absRun_admitted {cmp : wState → wState → Int} {mem0 : Nat → wState}
    (hc : CmpOK cmp mem0) (ops : List Op) :
    ∀ (A W seen : List Nat),
      (∀ x, A.find? (fun r => decide (cmp (mem0 r) (mem0 x) = 0))
        = seen.find? (fun r => decide (cmp (mem0 r) (mem0 x) = 0))) →
      (absRun cmp mem0 (A, W) ops).1.1
          = (firstsFrom cmp mem0 seen (insertsOf ops)).reverse ++ A ∧
        ∀ x, (absRun cmp mem0 (A, W) ops).1.1.find?
            (fun r => decide (cmp (mem0 r) (mem0 x) = 0))
          = (seen ++ insertsOf ops).find? (fun r => decide (cmp (mem0 r) (mem0 x) = 0)) := by
  induction ops with
  | nil =>
    intro A W seen h1
    exact ⟨by simp [absRun, insertsOf, firstsFrom], fun x => by simpa [absRun, insertsOf] using h1 x⟩
  | cons op ops ih =>
    intro A W seen h1
    have h2 := absStep_insertsOf hc A W seen op h1
    obtain ⟨ihA, ihF⟩ := ih (absStep cmp mem0 (A, W) op).1.1 (absStep cmp mem0 (A, W) op).1.2
      (seen ++ insertsOf [op]) h2
    have hfin : ∀ x, (absRun cmp mem0 (A, W) (op :: ops)).1.1.find?
            (fun r => decide (cmp (mem0 r) (mem0 x) = 0))
          = (seen ++ insertsOf (op :: ops)).find?
            (fun r => decide (cmp (mem0 r) (mem0 x) = 0)) := by
      intro x
      rw [insertsOf_cons, ← List.append_assoc]
      exact ihF x
    refine ⟨?_, hfin⟩
    show (absRun cmp mem0 (absStep cmp mem0 (A, W) op).1 ops).1.1 = _
    rw [ihA]
    cases op with
    | insert e =>
      have hany := @any_eq_isSome_find cmp mem0 A seen e (h1 e)
      cases h : A.find? (fun r => decide (cmp (mem0 r) (mem0 e) = 0)) with
      | some q =>
        rw [h] at hany
        simp [absStep, h, insertsOf, firstsFrom, hany]
      | none =>
        rw [h] at hany
        simp [absStep, h, insertsOf, firstsFrom, hany]
    | find e => simp [absStep, insertsOf]
    | pop =>
      cases W with
      | nil => simp [absStep, insertsOf]
      | cons r W => simp [absStep, insertsOf]

theorem absRun_length {cmp : wState → wState → Int} {mem0 : Nat → wState} (ops : List Op) :
    ∀ a : List Nat × List Nat, (absRun cmp mem0 a ops).2.length = ops.length := by
  induction ops with
  | nil => intro a; rfl
  | cons op ops ih => intro a; simp [absRun, ih]

/-- An insert call returns the first candidate inserted that compares equal to its own
candidate. -/
theorem absRun_insert_result {cmp : wState → wState → Int} {mem0 : Nat → wState}
    (hc : CmpOK cmp mem0) (ops : List Op) :
    ∀ (A W seen : List Nat) (k e : Nat),
      (∀ x, A.find? (fun r => decide (cmp (mem0 r) (mem0 x) = 0))
        = seen.find? (fun r => decide (cmp (mem0 r) (mem0 x) = 0))) →
      ops[k]? = some (Op.insert e) →
      (absRun cmp mem0 (A, W) ops).2[k]?
        = some ((seen ++ insertsOf ops).find? (fun r => decide (cmp (mem0 r) (mem0 e) = 0))) := by
  induction ops with
  | nil => intro A W seen k e _ h; simp at h
  | cons op ops ih =>
    intro A W seen k e h1 hk
    cases k with
    | zero =>
      simp only [List.getElem?_cons_zero, Option.some.injEq] at hk
      subst hk
      simp only [absRun, List.getElem?_cons_zero, insertsOf, List.find?_append, ← h1 e,
        List.find?_cons, hc.refl e, decide_True]
      cases h : A.find? (fun r => decide (cmp (mem0 r) (mem0 e) = 0)) with
      | some q => simp [absStep, h]
      | none => simp [absStep, h]
    | succ k =>
      simp only [List.getElem?_cons_succ] at hk
      have h2 := absStep_insertsOf hc A W seen op h1
      have := ih (absStep cmp mem0 (A, W) op).1.1 (absStep cmp mem0 (A, W) op).1.2
        (seen ++ insertsOf [op]) k e h2 hk
      simp only [absRun, List.getElem?_cons_succ]
      rw [insertsOf_cons, ← List.append_assoc]
      exact this

theorem filter_not_mem_cons (A P : List Nat) (r : Nat) (W : List Nat) (hA : A.Nodup)
    (h : A.filter (fun p => decide (p ∉ P)) = r :: W) :
    A.filter (fun p => decide (p ∉ r :: P)) = W := by
  have hnd : (r :: W).Nodup := h ▸ hA.filter _
  have hrW : r ∉ W := (List.nodup_cons.mp hnd).1
  have h2 : A.filter (fun p => decide (p ∉ r :: P))
      = (A.filter (fun p => decide (p ∉ P))).filter (fun p => decide (p ≠ r)) := by
    rw [List.filter_filter]
    congr 1
    funext p
    simp only [List.mem_cons, not_or, Bool.decide_and]
  rw [h2, h, List.filter_cons]
  simp only [ne_eq, not_true_eq_false, decide_False, Bool.false_eq_true, if_false]
  rw [List.filter_eq_self]
  intro a ha
  simpa using fun h : a = r => hrW (h ▸ ha)

/-- The frontier is at any moment the admitted entries not popped so far, most recently
admitted first; no entry is popped twice and every popped entry is admitted. -/
theorem absRun_frontier {cmp : wState → wState → Int} {mem0 : Nat → wState}
    (hc : CmpOK cmp mem0) (ops : List Op) :
    ∀ (A W P : List Nat), A.Nodup → W = A.filter (fun p => decide (p ∉ P)) → P.Nodup →
      (∀ x ∈ P, x ∈ A) →
      (absRun cmp mem0 (A, W) ops).1.2 = (absRun cmp mem0 (A, W) ops).1.1.filter
          (fun p => decide (p ∉ (poppedOf ops (absRun cmp mem0 (A, W) ops).2).reverse ++ P)) ∧
        ((poppedOf ops (absRun cmp mem0 (A, W) ops).2).reverse ++ P).Nodup ∧
        (∀ x ∈ (poppedOf ops (absRun cmp mem0 (A, W) ops).2).reverse ++ P,
          x ∈ (absRun cmp mem0 (A, W) ops).1.1) ∧
        (absRun cmp mem0 (A, W) ops).1.1.Nodup := by
  induction ops with
  | nil =>
    intro A W P hA hW hP hPA
    exact ⟨hW, hP, hPA, hA⟩
  | cons op ops ih =>
    intro A W P hA hW hP hPA
    cases op with
    | insert e =>
      cases h : A.find? (fun r => decide (cmp (mem0 r) (mem0 e) = 0)) with
      | some q =>
        have := ih A W P hA hW hP hPA
        simpa [absRun, absStep, h, poppedOf] using this
      | none =>
        have heA : e ∉ A := fun hm => by
          have := List.find?_eq_none.mp h e hm
          simp [hc.refl e] at this
        have heP : e ∉ P := fun hm => heA (hPA e hm)
        have := ih (e :: A) (e :: W) P (List.nodup_cons.mpr ⟨heA, hA⟩)
          (by rw [List.filter_cons, hW]; simp [heP]) hP
          (fun x hx => List.mem_cons_of_mem _ (hPA x hx))
        simpa [absRun, absStep, h, poppedOf] using this
    | find e =>
      have := ih A W P hA hW hP hPA
      simpa [absRun, absStep, poppedOf] using this
    | pop =>
      cases W with
      | nil =>
        have := ih A [] P hA hW hP hPA
        simpa [absRun, absStep, poppedOf] using this
      | cons r W =>
        have hr : r ∈ A.filter (fun p => decide (p ∉ P)) := by rw [← hW]; simp
        have hrA : r ∈ A := (List.mem_filter.mp hr).1
        have hrP : r ∉ P := by simpa using (List.mem_filter.mp hr).2
        have := ih A W (r :: P) hA (filter_not_mem_cons A P r W hA hW.symm).symm
          (List.nodup_cons.mpr ⟨hrP, hP⟩)
          (fun x hx => by
            rcases List.mem_cons.mp hx with rfl | hx
            · exact hrA
            · exact hPA x hx)
        simpa [absRun, absStep, poppedOf] using this

theorem insertsOf_map_insert (cs : List Nat) : insertsOf (cs.map Op.insert) = cs := by
  induction cs with
  | nil => rfl
  | cons c cs ih => simp [insertsOf, ih]

theorem poppedOf_map_insert (cs : List Nat) :
    ∀ rs : List (Option Nat), poppedOf (cs.map Op.insert) rs = [] := by
  induction cs with
  | nil => intro rs; simp [poppedOf]
  | cons c cs ih =>
    intro rs
    cases rs with
    | nil => simp [poppedOf]
    | cons r rs => simp [poppedOf, ih]

theorem firstsFrom_distinct (cmp : wState → wState → Int) (mem : Nat → wState)
    (cs : List Nat) :
    ∀ seen : List Nat, (∀ q ∈ seen, ∀ c ∈ cs, cmp (mem q) (mem c) ≠ 0) →
      cs.Pairwise (fun a b => cmp (mem a) (mem b) ≠ 0) → firstsFrom cmp mem seen cs = cs := by
  induction cs with
  | nil => intro seen _ _; rfl
  | cons c cs ih =>
    intro seen hs hp
    have hany : seen.any (fun q => decide (cmp (mem q) (mem c) = 0)) = false := by
      rw [List.any_eq_false]
      intro q hq
      simpa using hs q hq c (List.mem_cons_self _ _)
    have hp2 := List.pairwise_cons.mp hp
    simp only [firstsFrom, hany, Bool.false_eq_true, if_false]
    rw [ih (seen ++ [c]) ?_ hp2.2]
    intro q hq x hx
    rcases List.mem_append.mp hq with h | h
    · exact hs q h x (List.mem_cons_of_mem _ hx)
    · rw [List.mem_singleton.mp h]
      exact hp2.1 x hx

/-- From a fresh table every sequence of calls terminates, given fuel for the longest
chain, and leaves a store of the invariant: the admitted entries are the first members
of the equivalence classes of the candidates, the frontier holds those not popped. -/
theorem run_create {cmp : wState → wState → Int} {mem : Nat → wState} (hc : CmpOK cmp mem)
    (ops : List Op) (fuel : Nat) (hf : ops.length ≤ fuel) :
    ∃ s rs, run fuel ⟨mem, wHashCreate cmp⟩ ops = some (s, rs) ∧
      rs = (absRun cmp mem ([], []) ops).2 ∧
      Inv cmp mem s (classReps cmp mem (insertsOf ops)).reverse
        ((classReps cmp mem (insertsOf ops)).reverse.filter
          (fun p => decide (p ∉ poppedOf ops rs))) ∧
      (poppedOf ops rs).Nodup ∧
      (∀ x ∈ poppedOf ops rs, x ∈ classReps cmp mem (insertsOf ops)) ∧
      (∀ x, (classReps cmp mem (insertsOf ops)).reverse.find?
          (fun r => decide (cmp (mem r) (mem x) = 0))
        = (insertsOf ops).find? (fun r => decide (cmp (mem r) (mem x) = 0))) := by
  obtain ⟨s, hrun, hi⟩ := run_refines hc fuel ops _ [] [] (Inv.create cmp mem)
    (by simpa using hf)
  obtain ⟨hA, hF⟩ := absRun_admitted hc ops [] [] [] (fun _ => rfl)
  obtain ⟨hW, hP, hPA, _⟩ := absRun_frontier hc ops [] [] [] List.nodup_nil rfl
    List.nodup_nil (fun _ h => by simp at h)
  simp only [List.append_nil, List.nil_append] at hA hF hW hP hPA
  have hA1 : (absRun cmp mem ([], []) ops).1.1
      = (classReps cmp mem (insertsOf ops)).reverse := hA
  rw [hA1] at hi hW hPA hF
  rw [hW] at hi
  refine ⟨s, _, hrun, rfl, ?_, List.nodup_reverse.mp hP, ?_, hF⟩
  · have hfil : (fun p : Nat => decide (p ∉ (poppedOf ops (absRun cmp mem ([], []) ops).2).reverse))
        = (fun p : Nat => decide (p ∉ poppedOf ops (absRun cmp mem ([], []) ops).2)) := by
      funext p
      simp
    rw [hfil] at hi
    exact hi
  · intro x hx
    exact List.mem_reverse.mp (hPA x (List.mem_reverse.mpr hx))

theorem Inv.buckets_of_count {cmp : wState → wState → Int} {mem0 : Nat → wState} {s : Store}
    {A W : List Nat} (hi : Inv cmp mem0 s A W) :
    (A.length ≤ 768 → s.table.num_buckets = 1024) ∧
    (769 ≤ A.length → A.length ≤ 1536 → s.table.num_buckets = 2048) ∧
    (1537 ≤ A.length → A.length ≤ 3072 → s.table.num_buckets = 4096) := by
  obtain ⟨g, hg⟩ := hi.wf.size
  have hload := hi.load
  have htight := hi.tight
  have hmin : WHASH_MIN = 1024 := rfl
  rw [hmin] at hg htight
  rcases Nat.lt_or_ge g 3 with h3 | h3
  · interval_cases g <;> simp at hg <;> omega
  · have : 2 ^ 3 ≤ 2 ^ g := Nat.pow_le_pow_right (by decide) h3
    have h8 : 8 ≤ 2 ^ g := this
    have hnb : 8192 ≤ s.table.num_buckets := by rw [hg]; omega
    omega

theorem payloadCmp_eq_zero (a b : wState) : payloadCmp a b = 0 ↔ a.memory = b.memory := by
  unfold payloadCmp
  split
  · constructor
    · intro h; omega
    · intro h; omega
  · split
    · simp_all
    · constructor
      · intro h; omega
      · intro h; contradiction

theorem payloadCmp_ok (mem : Nat → wState)
    (hk : ∀ p q, (mem p).memory = (mem q).memory → (mem p).hash = (mem q).hash) :
    CmpOK payloadCmp mem := by
  refine ⟨?_, ?_, ?_, ?_⟩
  · intro a b a1 b1 _ h1 _ h2
    simp only [payloadCmp, h1, h2]
  · intro p q
    simp only [payloadCmp]
    split_ifs <;> omega
  · intro p q r
    simp only [payloadCmp]
    split_ifs <;> omega
  · intro p q h
    exact hk p q ((payloadCmp_eq_zero _ _).mp h)

theorem scenarioMem_ok : CmpOK payloadCmp scenarioMem := by
  apply payloadCmp_ok
  intro p q
  simp only [scenarioMem]
  split_ifs <;> simp

theorem distinctMem_ok : CmpOK payloadCmp distinctMem :=
  payloadCmp_ok distinctMem (fun _ _ h => h)

theorem range_distinct (n : Nat) :
    (List.range n).Pairwise (fun a b => payloadCmp (distinctMem a) (distinctMem b) ≠ 0) := by
  refine List.Pairwise.imp ?_ (List.pairwise_lt_range n)
  intro a b hab h
  have := (payloadCmp_eq_zero _ _).mp h
  simp only [distinctMem] at this
  omega

/-- Pairwise non-equal candidates are all admitted, whatever their number. -/
theorem run_inserts_distinct {cmp : wState → wState → Int} {mem : Nat → wState}
    (hc : CmpOK cmp mem) (cs : List Nat)
    (hd : cs.Pairwise (fun a b => cmp (mem a) (mem b) ≠ 0)) (fuel : Nat)
    (hf : cs.length ≤ fuel) :
    ∃ s rs, run fuel ⟨mem, wHashCreate cmp⟩ (cs.map Op.insert) = some (s, rs) ∧
      Inv cmp mem s cs.reverse cs.reverse := by
  obtain ⟨s, rs, hrun, _, hi, _, _, _⟩ := run_create hc (cs.map Op.insert) fuel
    (by simpa using hf)
  refine ⟨s, rs, hrun, ?_⟩
  have h1 : classReps cmp mem cs = cs :=
    firstsFrom_distinct cmp mem cs [] (fun _ h => by simp at h) hd
  rw [insertsOf_map_insert, poppedOf_map_insert, h1] at hi
  simpa using hi

theorem firstsFrom_length_le (cmp : wState → wState → Int) (mem : Nat → wState)
    (cs : List Nat) : ∀ seen : List Nat, (firstsFrom cmp mem seen cs).length ≤ cs.length := by
  induction cs with
  | nil => intro seen; simp [firstsFrom]
  | cons c cs ih =>
    intro seen
    simp only [firstsFrom]
    split
    · exact (ih _).trans (Nat.le_succ _)
    · simpa using ih _

theorem IsWork.head {mem : Nat → wState} {w : Option Nat} {L : List Nat}
    (h : IsWork mem w L) : w = L.head? := by
  cases L with
  | nil => exact h
  | cons a L => exact h.1

theorem growTable_table (fuel : Nat) (s s1 : Store) (h : growTable fuel s = some s1) :
    s1.table.num_buckets = s.table.num_buckets * 2 ∧
    s1.table.num_entries = s.table.num_entries := by
  unfold growTable at h
  cases hs : splitBuckets fuel (s.table.num_buckets * 2 - 1) s.table.num_buckets
      s.table.num_buckets 0 s.mem s.table.buckets with
  | none => simp [hs] at h
  | some res =>
    simp only [hs, Option.some.injEq] at h
    subst h
    exact ⟨rfl, rfl⟩

/-- The three ways a call of `wHashInsert` can return: an equal entry was found and the
store is unchanged, or the candidate was admitted after a grow, or without one. -/
theorem wHashInsert_cases (fuel : Nat) (s : Store) (e : Nat) (s1 : Store) (r : Option Nat)
    (h : wHashInsert fuel s e = some (s1, r)) :
    s1 = s ∨
    (s1.table.num_entries = s.table.num_entries + 1 ∧
      s.table.num_entries ≥ s.table.num_buckets * 3 / 4 ∧
      s1.table.num_buckets = s.table.num_buckets * 2) ∨
    (s1.table.num_entries = s.table.num_entries + 1 ∧
      ¬ s.table.num_entries ≥ s.table.num_buckets * 3 / 4 ∧
      s1.table.num_buckets = s.table.num_buckets) := by
  unfold wHashInsert at h
  cases hs : searchLoop s.table.cmp s.mem e fuel 1 none
      (s.table.buckets ((s.mem e).hash &&& s.table.mask)) with
  | none => simp [hs] at h
  | some res =>
    obtain ⟨c, last, next⟩ := res
    simp only [hs] at h
    by_cases hc0 : c = 0
    · simp only [hc0, if_true, Option.some.injEq, Prod.mk.injEq] at h
      exact Or.inl h.1.symm
    · simp only [if_neg hc0] at h
      by_cases hg : s.table.num_entries ≥ s.table.num_buckets * 3 / 4
      · simp only [if_pos hg] at h
        cases hgr : growTable fuel
            { s with table := { s.table with num_entries := s.table.num_entries + 1 } } with
        | none => simp [hgr] at h
        | some s2 =>
          simp only [hgr] at h
          have ht := growTable_table fuel _ s2 hgr
          cases hs2 : searchLoop s2.table.cmp s2.mem e fuel c none
              (s2.table.buckets ((s2.mem e).hash &&& s2.table.mask)) with
          | none => simp [hs2] at h
          | some res2 =>
            simp only [hs2, Option.some.injEq, Prod.mk.injEq] at h
            have hl := linkEntry_table s2 e res2.2.1 res2.2.2
            rw [← h.1]
            exact Or.inr (Or.inl ⟨by rw [hl.2.2.1, ht.2], hg, by rw [hl.2.1, ht.1]⟩)
      · simp only [if_neg hg, Option.some.injEq, Prod.mk.injEq] at h
        have hl := linkEntry_table
          { s with table := { s.table with num_entries := s.table.num_entries + 1 } }
          e last next
        rw [← h.1]
        exact Or.inr (Or.inr ⟨by rw [hl.2.2.1], hg, by rw [hl.2.1]⟩)

theorem searchLoop_zero (cmp : wState → wState → Int) (mem : Nat → wState) (e : Nat) :
    ∀ (fuel : Nat) (c0 : Int) (last0 cur : Option Nat) (last next : Option Nat), c0 ≠ 0 →
      searchLoop cmp mem e fuel c0 last0 cur = some (0, last, next) →
      ∃ q, next = some q ∧ cmp (mem q) (mem e) = 0 := by
  intro fuel
  induction fuel with
  | zero =>
    intro c0 last0 cur last next hc0 h
    cases cur with
    | none =>
      simp only [searchLoop, Option.some.injEq, Prod.mk.injEq] at h
      exact absurd h.1 hc0
    | some n => simp [searchLoop] at h
  | succ fuel ih =>
    intro c0 last0 cur last next hc0 h
    cases cur with
    | none =>
      simp only [searchLoop, Option.some.injEq, Prod.mk.injEq] at h
      exact absurd h.1 hc0
    | some n =>
      by_cases hge : cmp (mem n) (mem e) ≥ 0
      · simp only [searchLoop, if_pos hge, Option.some.injEq, Prod.mk.injEq] at h
        exact ⟨n, h.2.2.symm, h.1⟩
      · simp only [searchLoop, if_neg hge] at h
        exact ih _ _ _ _ _ (by omega) h


theorem mem_insertsOf (ops : List Op) :
    ∀ (k e : Nat), ops[k]? = some (Op.insert e) → e ∈ insertsOf ops := by
  induction ops with
  | nil => intro k e hk; simp at hk
  | cons op ops ih =>
    intro k e hk
    cases k with
    | zero =>
      simp only [List.getElem?_cons_zero, Option.some.injEq] at hk
      subst hk
      simp [insertsOf]
    | succ k =>
      simp only [List.getElem?_cons_succ] at hk
      rw [insertsOf_cons]
      exact List.mem_append_right _ (ih k e hk)

/-- The store `scenarioStore` is what the code builds from a fresh table. -/
theorem scenarioStore_eq :
    wHashInsert 1 ⟨scenarioMem, wHashCreate payloadCmp⟩ 1 = some (scenarioStore, some 1) := by
  have h1 : wHashInsert 1 ⟨scenarioMem, wHashCreate payloadCmp⟩ 1
      = some (linkEntry ⟨scenarioMem, { wHashCreate payloadCmp with num_entries := 1 }⟩ 1
          none none, some 1) := rfl
  have hm : setWork (setNext scenarioMem 1 (none : Option Nat)) 1 none = scenarioMem := by
    funext x
    by_cases hx : x = 1
    · subst hx; rfl
    · simp [setWork, setNext, hx]
  have h2 : linkEntry ⟨scenarioMem, { wHashCreate payloadCmp with num_entries := 1 }⟩ 1
      none none = scenarioStore := by
    show Store.mk (setWork (setNext scenarioMem 1 none) 1 none) _ = Store.mk _ _
    rw [hm]
    rfl
  rw [h1, h2]

theorem firstsFrom_sublist (cmp : wState → wState → Int) (mem : Nat → wState)
    (cs : List Nat) : ∀ seen : List Nat, (firstsFrom cmp mem seen cs).Sublist cs := by
  induction cs with
  | nil => intro seen; exact List.Sublist.slnil
  | cons c cs ih =>
    intro seen
    simp only [firstsFrom]
    split
    · exact (ih _).cons c
    · exact (ih _).cons₂ c

/-! ## What every call keeps, whatever the comparator and the store -/

theorem splitLoop_data (mask i : Nat) :
    ∀ (fuel : Nat) (mem : Nat → wState) (l1 l2 cur : Option Nat) (mem1 : Nat → wState)
      (r1 r2 : Option Nat), splitLoop mask i fuel mem l1 l2 cur = some (mem1, r1, r2) →
      ∀ p, (mem1 p).hash = (mem p).hash ∧ (mem1 p).memory = (mem p).memory ∧
        (mem1 p).work = (mem p).work := by
  intro fuel
  induction fuel with
  | zero =>
    intro mem l1 l2 cur mem1 r1 r2 h p
    cases cur with
    | none =>
      simp only [splitLoop, Option.some.injEq, Prod.mk.injEq] at h
      rw [← h.1]
      exact ⟨rfl, rfl, rfl⟩
    | some e => simp [splitLoop] at h
  | succ fuel ih =>
    intro mem l1 l2 cur mem1 r1 r2 h p
    cases cur with
    | none =>
      simp only [splitLoop, Option.some.injEq, Prod.mk.injEq] at h
      rw [← h.1]
      exact ⟨rfl, rfl, rfl⟩
    | some e =>
      simp only [splitLoop] at h
      split at h
      · have a := ih _ _ _ _ _ _ _ h p
        have b := setNext_data mem e l1 p
        exact ⟨a.1.trans b.1, a.2.1.trans b.2.1, a.2.2.trans b.2.2⟩
      · have a := ih _ _ _ _ _ _ _ h p
        have b := setNext_data mem e l2 p
        exact ⟨a.1.trans b.1, a.2.1.trans b.2.1, a.2.2.trans b.2.2⟩

theorem reverseLoop_data :
    ∀ (fuel : Nat) (mem : Nat → wState) (cur acc : Option Nat) (mem1 : Nat → wState)
      (r : Option Nat), reverseLoop fuel mem cur acc = some (mem1, r) →
      ∀ p, (mem1 p).hash = (mem p).hash ∧ (mem1 p).memory = (mem p).memory ∧
        (mem1 p).work = (mem p).work := by
  intro fuel
  induction fuel with
  | zero =>
    intro mem cur acc mem1 r h p
    cases cur with
    | none =>
      simp only [reverseLoop, Option.some.injEq, Prod.mk.injEq] at h
      rw [← h.1]
      exact ⟨rfl, rfl, rfl⟩
    | some e => simp [reverseLoop] at h
  | succ fuel ih =>
    intro mem cur acc mem1 r h p
    cases cur with
    | none =>
      simp only [reverseLoop, Option.some.injEq, Prod.mk.injEq] at h
      rw [← h.1]
      exact ⟨rfl, rfl, rfl⟩
    | some e =>
      simp only [reverseLoop] at h
      have a := ih _ _ _ _ _ h p
      have b := setNext_data mem e acc p
      exact ⟨a.1.trans b.1, a.2.1.trans b.2.1, a.2.2.trans b.2.2⟩

/-- The parts of one iteration of the `for` loop, when it returns. -/
theorem splitBucket_parts (fuel mask n i : Nat) (mem : Nat → wState)
    (buckets : Nat → Option Nat) (mem3 : Nat → wState) (b3 : Nat → Option Nat)
    (h : splitBucket fuel mask n i mem buckets = some (mem3, b3)) :
    ∃ mem1 l1 l2 mem2 r1 r2, splitLoop mask i fuel mem none none (buckets i) = some (mem1, l1, l2) ∧
      reverseLoop fuel mem1 l1 none = some (mem2, r1) ∧
      reverseLoop fuel mem2 l2 none = some (mem3, r2) ∧
      b3 = setAt (setAt buckets i r1) (i + n) r2 := by
  unfold splitBucket at h
  cases h1 : splitLoop mask i fuel mem none none (buckets i) with
  | none => simp [h1] at h
  | some res1 =>
    obtain ⟨mem1, l1, l2⟩ := res1
    simp only [h1] at h
    cases h2 : reverseLoop fuel mem1 l1 none with
    | none => simp [h2] at h
    | some res2 =>
      obtain ⟨mem2, r1⟩ := res2
      simp only [h2] at h
      cases h3 : reverseLoop fuel mem2 l2 none with
      | none => simp [h3] at h
      | some res3 =>
        obtain ⟨m3, r2⟩ := res3
        simp only [h3, Option.some.injEq, Prod.mk.injEq] at h
        exact ⟨mem1, l1, l2, mem2, r1, r2, rfl, h2, h.1 ▸ h3, h.2.symm⟩

theorem splitBucket_data (fuel mask n i : Nat) (mem : Nat → wState)
    (buckets : Nat → Option Nat) (mem3 : Nat → wState) (b3 : Nat → Option Nat)
    (h : splitBucket fuel mask n i mem buckets = some (mem3, b3)) :
    ∀ p, (mem3 p).hash = (mem p).hash ∧ (mem3 p).memory = (mem p).memory ∧
      (mem3 p).work = (mem p).work := by
  obtain ⟨mem1, l1, l2, mem2, r1, r2, h1, h2, h3, _⟩ := splitBucket_parts _ _ _ _ _ _ _ _ h
  intro p
  have a := splitLoop_data _ _ _ _ _ _ _ _ _ _ h1 p
  have b := reverseLoop_data _ _ _ _ _ _ h2 p
  have c := reverseLoop_data _ _ _ _ _ _ h3 p
  exact ⟨c.1.trans (b.1.trans a.1), c.2.1.trans (b.2.1.trans a.2.1),
    c.2.2.trans (b.2.2.trans a.2.2)⟩

/-- The first iteration and the rest of the `for` loop, when it returns. -/
theorem splitBuckets_succ (fuel mask n k i : Nat) (mem : Nat → wState)
    (buckets : Nat → Option Nat) (mem2 : Nat → wState) (b2 : Nat → Option Nat)
    (h : splitBuckets fuel mask n (k + 1) i mem buckets = some (mem2, b2)) :
    ∃ mem1 b1, splitBucket fuel mask n i mem buckets = some (mem1, b1) ∧
      splitBuckets fuel mask n k (i + 1) mem1 b1 = some (mem2, b2) := by
  simp only [splitBuckets] at h
  cases h1 : splitBucket fuel mask n i mem buckets with
  | none => simp [h1] at h
  | some res =>
    obtain ⟨mem1, b1⟩ := res
    simp only [h1] at h
    exact ⟨mem1, b1, rfl, h⟩

theorem splitBuckets_data (fuel mask n : Nat) :
    ∀ (k i : Nat) (mem : Nat → wState) (buckets : Nat → Option Nat) (mem2 : Nat → wState)
      (b2 : Nat → Option Nat), splitBuckets fuel mask n k i mem buckets = some (mem2, b2) →
      ∀ p, (mem2 p).hash = (mem p).hash ∧ (mem2 p).memory = (mem p).memory ∧
        (mem2 p).work = (mem p).work := by
  intro k
  induction k with
  | zero =>
    intro i mem buckets mem2 b2 h p
    simp only [splitBuckets, Option.some.injEq, Prod.mk.injEq] at h
    rw [← h.1]
    exact ⟨rfl, rfl, rfl⟩
  | succ k ih =>
    intro i mem buckets mem2 b2 h p
    obtain ⟨mem1, b1, h1, h2⟩ := splitBuckets_succ _ _ _ _ _ _ _ _ _ h
    have a := splitBucket_data _ _ _ _ _ _ _ _ h1 p
    have b := ih _ _ _ _ _ h2 p
    exact ⟨b.1.trans a.1, b.2.1.trans a.2.1, b.2.2.trans a.2.2⟩

/-- What a grow returns: the table fields it sets and the loop it ran. -/
theorem growTable_parts (fuel : Nat) (s s1 : Store) (h : growTable fuel s = some s1) :
    splitBuckets fuel (s.table.num_buckets * 2 - 1) s.table.num_buckets
        s.table.num_buckets 0 s.mem s.table.buckets = some (s1.mem, s1.table.buckets) ∧
    s1.table = { s.table with
      mask := s.table.num_buckets * 2 - 1
      buckets := s1.table.buckets
      num_buckets := s.table.num_buckets * 2 } := by
  unfold growTable at h
  cases hs : splitBuckets fuel (s.table.num_buckets * 2 - 1) s.table.num_buckets
      s.table.num_buckets 0 s.mem s.table.buckets with
  | none => simp [hs] at h
  | some res =>
    simp only [hs, Option.some.injEq] at h
    subst h
    exact ⟨rfl, rfl⟩

/-- The parts of a call of `wHashInsert`, when it returns: the search, then either the
return of the entry found, or the increment, the grow if triggered with the second search,
and the linking. -/
theorem wHashInsert_parts (fuel : Nat) (s : Store) (e : Nat) (s1 : Store) (r : Option Nat)
    (h : wHashInsert fuel s e = some (s1, r)) :
    ∃ c last next, searchLoop s.table.cmp s.mem e fuel 1 none
        (s.table.buckets ((s.mem e).hash &&& s.table.mask)) = some (c, last, next) ∧
      ((c = 0 ∧ s1 = s ∧ r = next) ∨
       (c ≠ 0 ∧ r = some e ∧ s.table.num_entries ≥ s.table.num_buckets * 3 / 4 ∧
        ∃ s2 c2 last2 next2,
          growTable fuel
            { s with table := { s.table with num_entries := s.table.num_entries + 1 } }
            = some s2 ∧
          searchLoop s2.table.cmp s2.mem e fuel c none
            (s2.table.buckets ((s2.mem e).hash &&& s2.table.mask)) = some (c2, last2, next2) ∧
          s1 = linkEntry s2 e last2 next2) ∨
       (c ≠ 0 ∧ r = some e ∧ ¬ s.table.num_entries ≥ s.table.num_buckets * 3 / 4 ∧
        s1 = linkEntry
          { s with table := { s.table with num_entries := s.table.num_entries + 1 } }
          e last next)) := by
  unfold wHashInsert at h
  cases hs : searchLoop s.table.cmp s.mem e fuel 1 none
      (s.table.buckets ((s.mem e).hash &&& s.table.mask)) with
  | none => simp [hs] at h
  | some res =>
    obtain ⟨c, last, next⟩ := res
    simp only [hs] at h
    refine ⟨c, last, next, rfl, ?_⟩
    by_cases hc0 : c = 0
    · simp only [hc0, if_true, Option.some.injEq, Prod.mk.injEq] at h
      exact Or.inl ⟨hc0, h.1.symm, h.2.symm⟩
    · simp only [if_neg hc0] at h
      by_cases hg : s.table.num_entries ≥ s.table.num_buckets * 3 / 4
      · simp only [if_pos hg] at h
        cases hgr : growTable fuel
            { s with table := { s.table with num_entries := s.table.num_entries + 1 } } with
        | none => simp [hgr] at h
        | some s2 =>
          simp only [hgr] at h
          cases hs2 : searchLoop s2.table.cmp s2.mem e fuel c none
              (s2.table.buckets ((s2.mem e).hash &&& s2.table.mask)) with
          | none => simp [hs2] at h
          | some res2 =>
            obtain ⟨c2, last2, next2⟩ := res2
            simp only [hs2, Option.some.injEq, Prod.mk.injEq] at h
            exact Or.inr (Or.inl ⟨hc0, h.2.symm, hg, s2, c2, last2, next2, rfl, hs2, h.1.symm⟩)
      · simp only [if_neg hg, Option.some.injEq, Prod.mk.injEq] at h
        exact Or.inr (Or.inr ⟨hc0, h.2.symm, hg, h.1.symm⟩)

theorem wHashPop_tbl (s : Store) :
    (wHashPop s).1.table.num_buckets = s.table.num_buckets ∧
    (wHashPop s).1.table.mask = s.table.mask ∧
    (wHashPop s).1.table.num_entries = s.table.num_entries ∧
    (wHashPop s).1.table.buckets = s.table.buckets ∧
    (wHashPop s).1.table.cmp = s.table.cmp ∧
    (wHashPop s).1.mem = s.mem := by
  unfold wHashPop
  cases s.table.worklist <;> exact ⟨rfl, rfl, rfl, rfl, rfl, rfl⟩

theorem run_cons (fuel : Nat) (s : Store) (op : Op) (ops : List Op) (s2 : Store)
    (rs : List (Option Nat)) (h : run fuel s (op :: ops) = some (s2, rs)) :
    ∃ s1 r rs1, step fuel s op = some (s1, r) ∧ run fuel s1 ops = some (s2, rs1) ∧
      rs = r :: rs1 := by
  simp only [run] at h
  cases h1 : step fuel s op with
  | none => simp [h1] at h
  | some res =>
    obtain ⟨s1, r⟩ := res
    simp only [h1] at h
    cases h2 : run fuel s1 ops with
    | none => simp [h2] at h
    | some res2 =>
      obtain ⟨s3, rs1⟩ := res2
      simp only [h2, Option.some.injEq, Prod.mk.injEq] at h
      exact ⟨s1, r, rs1, rfl, h.1 ▸ h2, h.2.symm⟩

/-- A property kept by every returning call holds after every returning sequence. -/
theorem run_invariant (P : Store → Prop) (fuel : Nat)
    (hstep : ∀ s op s1 r, P s → step fuel s op = some (s1, r) → P s1) :
    ∀ (ops : List Op) (s s1 : Store) (rs : List (Option Nat)), P s →
      run fuel s ops = some (s1, rs) → P s1 := by
  intro ops
  induction ops with
  | nil =>
    intro s s1 rs hP h
    simp only [run, Option.some.injEq, Prod.mk.injEq] at h
    rw [← h.1]
    exact hP
  | cons op ops ih =>
    intro s s2 rs hP h
    obtain ⟨s1, r, rs1, h1, h2, _⟩ := run_cons _ _ _ _ _ _ h
    exact ih s1 s2 rs1 (hstep s op s1 r hP h1) h2

/-- The counts after a returning call: unchanged, or one more entry without a grow, or
one more entry with the bucket count doubled and the mask renewed. -/
theorem step_counts (fuel : Nat) (s : Store) (op : Op) (s1 : Store) (r : Option Nat)
    (h : step fuel s op = some (s1, r)) :
    (s1.table.num_buckets = s.table.num_buckets ∧ s1.table.mask = s.table.mask ∧
      s1.table.num_entries = s.table.num_entries) ∨
    (s1.table.num_buckets = s.table.num_buckets ∧ s1.table.mask = s.table.mask ∧
      s1.table.num_entries = s.table.num_entries + 1 ∧
      s.table.num_entries < s.table.num_buckets * 3 / 4) ∨
    (s1.table.num_buckets = s.table.num_buckets * 2 ∧
      s1.table.mask = s.table.num_buckets * 2 - 1 ∧
      s1.table.num_entries = s.table.num_entries + 1 ∧
      s.table.num_entries ≥ s.table.num_buckets * 3 / 4) := by
  cases op with
  | insert e =>
    obtain ⟨c, last, next, _, hcase⟩ := wHashInsert_parts fuel s e s1 r h
    rcases hcase with ⟨_, hs, _⟩ | ⟨_, _, hg, s2, c2, last2, next2, hgr, _, hs⟩ |
      ⟨_, _, hg, hs⟩
    · rw [hs]; exact Or.inl ⟨rfl, rfl, rfl⟩
    · have ht := (growTable_parts fuel _ s2 hgr).2
      have hl := linkEntry_table s2 e last2 next2
      rw [hs]
      refine Or.inr (Or.inr ⟨?_, ?_, ?_, hg⟩)
      · rw [hl.2.1, ht]
      · rw [hl.2.2.2.1, ht]
      · rw [hl.2.2.1, ht]
    · have hl := linkEntry_table
        { s with table := { s.table with num_entries := s.table.num_entries + 1 } } e last next
      rw [hs]
      exact Or.inr (Or.inl ⟨hl.2.1, hl.2.2.2.1, hl.2.2.1, by omega⟩)
  | find e =>
    simp only [step] at h
    cases hf : wHashFind fuel s e with
    | none => simp [hf] at h
    | some q =>
      simp only [hf, Option.some.injEq, Prod.mk.injEq] at h
      rw [← h.1]
      exact Or.inl ⟨rfl, rfl, rfl⟩
  | pop =>
    simp only [step, Option.some.injEq] at h
    have hp := wHashPop_tbl s
    rw [h] at hp
    exact Or.inl ⟨hp.1, hp.2.1, hp.2.2.1⟩

theorem wHashInsert_data (fuel : Nat) (s : Store) (e : Nat) (s1 : Store) (r : Option Nat)
    (h : wHashInsert fuel s e = some (s1, r)) (p : Nat) :
    (s1.mem p).hash = (s.mem p).hash ∧ (s1.mem p).memory = (s.mem p).memory := by
  obtain ⟨c, last, next, _, hcase⟩ := wHashInsert_parts fuel s e s1 r h
  rcases hcase with ⟨_, hs, _⟩ | ⟨_, _, _, s2, c2, last2, next2, hgr, _, hs⟩ | ⟨_, _, _, hs⟩
  · rw [hs]; exact ⟨rfl, rfl⟩
  · have hd := splitBuckets_data _ _ _ _ _ _ _ _ _ (growTable_parts fuel _ s2 hgr).1 p
    have hl := linkEntry_data s2 e last2 next2 p
    rw [hs]
    exact ⟨hl.1.trans hd.1, hl.2.trans hd.2.1⟩
  · rw [hs]
    exact linkEntry_data _ e last next p

theorem step_find (fuel : Nat) (s : Store) (e : Nat) (s1 : Store) (r : Option Nat)
    (h : step fuel s (Op.find e) = some (s1, r)) : s1 = s ∧ wHashFind fuel s e = some r := by
  simp only [step] at h
  cases hf : wHashFind fuel s e with
  | none => simp [hf] at h
  | some q =>
    simp only [hf, Option.some.injEq, Prod.mk.injEq] at h
    exact ⟨h.1.symm, by rw [h.2]⟩

theorem step_data (fuel : Nat) (s : Store) (op : Op) (s1 : Store) (r : Option Nat)
    (h : step fuel s op = some (s1, r)) (p : Nat) :
    (s1.mem p).hash = (s.mem p).hash ∧ (s1.mem p).memory = (s.mem p).memory := by
  cases op with
  | insert e => exact wHashInsert_data fuel s e s1 r h p
  | find e => rw [(step_find fuel s e s1 r h).1]; exact ⟨rfl, rfl⟩
  | pop =>
    simp only [step, Option.some.injEq] at h
    have hp := (wHashPop_tbl s).2.2.2.2.2
    rw [h] at hp
    rw [show s1.mem = s.mem from hp]
    exact ⟨rfl, rfl⟩

/-- The bucket count is `1024 * 2 ^ g`, the mask is one less and the load is at most 3/4:
kept by every returning call, whatever the comparator. -/
theorem step_shape (fuel : Nat) (s : Store) (op : Op) (s1 : Store) (r : Option Nat)
    (hP : (∃ g, s.table.num_buckets = WHASH_MIN * 2 ^ g) ∧
      s.table.mask = s.table.num_buckets - 1 ∧
      4 * s.table.num_entries ≤ 3 * s.table.num_buckets)
    (h : step fuel s op = some (s1, r)) :
    (∃ g, s1.table.num_buckets = WHASH_MIN * 2 ^ g) ∧
      s1.table.mask = s1.table.num_buckets - 1 ∧
      4 * s1.table.num_entries ≤ 3 * s1.table.num_buckets := by
  obtain ⟨⟨g, hg⟩, hm, hl⟩ := hP
  have hge : 1024 ≤ s.table.num_buckets := by
    rw [hg]
    exact Nat.le_mul_of_pos_right _ (Nat.pos_pow_of_pos _ (by decide))
  rcases step_counts fuel s op s1 r h with ⟨h1, h2, h3⟩ | ⟨h1, h2, h3, h4⟩ | ⟨h1, h2, h3, h4⟩
  · rw [h1, h2, h3]; exact ⟨⟨g, hg⟩, hm, hl⟩
  · rw [h1, h2, h3]; exact ⟨⟨g, hg⟩, hm, by omega⟩
  · rw [h1, h2, h3]
    exact ⟨⟨g + 1, by rw [hg, Nat.pow_succ, Nat.mul_assoc]⟩, rfl, by omega⟩

theorem run_shape (cmp : wState → wState → Int) (mem : Nat → wState) (fuel : Nat)
    (ops : List Op) (s : Store) (rs : List (Option Nat))
    (h : run fuel ⟨mem, wHashCreate cmp⟩ ops = some (s, rs)) :
    (∃ g, s.table.num_buckets = WHASH_MIN * 2 ^ g) ∧
      s.table.mask = s.table.num_buckets - 1 ∧
      4 * s.table.num_entries ≤ 3 * s.table.num_buckets :=
  run_invariant _ fuel (step_shape fuel) ops _ s rs
    ⟨⟨0, rfl⟩, rfl, by simp [wHashCreate]⟩ h

/-- A returning call of `wHashInsert` that enters the grow branch runs the grow and doubles
`num_buckets`; one that does not enter it leaves `num_buckets` as it was. -/
theorem growBranch_spec (fuel : Nat) (s : Store) (e : Nat) (s1 : Store) (r : Option Nat)
    (h : wHashInsert fuel s e = some (s1, r)) :
    (growBranch fuel s e = true →
      s.table.num_entries ≥ s.table.num_buckets * 3 / 4 ∧
      (∃ s2, growTable fuel
        { s with table := { s.table with num_entries := s.table.num_entries + 1 } } = some s2 ∧
        s1.table.num_buckets = s2.table.num_buckets) ∧
      s1.table.num_buckets = s.table.num_buckets * 2) ∧
    (growBranch fuel s e = false → s1.table.num_buckets = s.table.num_buckets) := by
  obtain ⟨c, last, next, hs, hcase⟩ := wHashInsert_parts fuel s e s1 r h
  have hgb : growBranch fuel s e =
      (if c = 0 then false
        else decide (s.table.num_entries ≥ s.table.num_buckets * 3 / 4)) := by
    unfold growBranch
    rw [hs]
  rcases hcase with ⟨hc0, h1, _⟩ | ⟨hc0, _, hg, s2, c2, last2, next2, hgr, _, hs1⟩ |
    ⟨hc0, _, hg, hs1⟩
  · rw [hgb, if_pos hc0, h1]
    exact ⟨fun hf => (by cases hf), fun _ => rfl⟩
  · have hnb2 : s2.table.num_buckets = s.table.num_buckets * 2 := by
      rw [(growTable_parts fuel _ s2 hgr).2]
    have hnb1 : s1.table.num_buckets = s2.table.num_buckets := by
      rw [hs1, (linkEntry_table s2 e last2 next2).2.1]
    rw [hgb, if_neg hc0, decide_eq_true hg]
    exact ⟨fun _ => ⟨hg, ⟨s2, hgr, hnb1⟩, hnb1.trans hnb2⟩, fun hf => (by cases hf)⟩
  · rw [hgb, if_neg hc0, decide_eq_false hg]
    refine ⟨fun hf => (by cases hf), fun _ => ?_⟩
    rw [hs1, (linkEntry_table _ e last next).2.1]

theorem run_grows (fuel : Nat) (ops : List Op) :
    ∀ (s s1 : Store) (rs : List (Option Nat)),
      run fuel s ops = some (s1, rs) →
      s1.table.num_buckets = s.table.num_buckets * 2 ^ growsOf fuel s ops := by
  induction ops with
  | nil =>
    intro s s1 rs h
    simp only [run, Option.some.injEq, Prod.mk.injEq] at h
    rw [← h.1]
    simp [growsOf]
  | cons op ops ih =>
    intro s s2 rs h
    obtain ⟨s1, r, rs1, h1, h2, _⟩ := run_cons _ _ _ _ _ _ h
    have ih1 := ih s1 s2 rs1 h2
    cases op with
    | insert e =>
      have hins : wHashInsert fuel s e = some (s1, r) := h1
      have hsp := growBranch_spec fuel s e s1 r hins
      simp only [growsOf, h1]
      cases hb : growBranch fuel s e with
      | true =>
        rw [ih1, (hsp.1 hb).2.2, if_pos rfl, Nat.pow_add, Nat.pow_one,
          Nat.mul_assoc (s.table.num_buckets) 2]
      | false =>
        rw [ih1, hsp.2 hb]
        simp
    | find e =>
      simp only [growsOf, h1]
      rw [ih1, (step_find fuel s e s1 r h1).1, Nat.zero_add]
    | pop =>
      simp only [growsOf, h1]
      simp only [step, Option.some.injEq] at h1
      have hp := (wHashPop_tbl s).1
      rw [h1] at hp
      rw [ih1, show s1.table.num_buckets = s.table.num_buckets from hp, Nat.zero_add]

theorem run_buckets_mono (fuel : Nat) (ops : List Op) (s s1 : Store)
    (rs : List (Option Nat)) (h : run fuel s ops = some (s1, rs)) :
    s.table.num_buckets ≤ s1.table.num_buckets := by
  refine run_invariant (fun t => s.table.num_buckets ≤ t.table.num_buckets) fuel ?_ ops s s1 rs
    (Nat.le_refl _) h
  intro t op t1 r hP hstep
  have hnb : t1.table.num_buckets = t.table.num_buckets ∨
      t1.table.num_buckets = t.table.num_buckets * 2 := by
    rcases step_counts fuel t op t1 r hstep with ⟨a, _⟩ | ⟨a, _⟩ | ⟨a, _⟩
    · exact Or.inl a
    · exact Or.inl a
    · exact Or.inr a
  show s.table.num_buckets ≤ t1.table.num_buckets
  have hP1 : s.table.num_buckets ≤ t.table.num_buckets := hP
  rcases hnb with a | a <;> omega

theorem run_returns {cmp : wState → wState → Int} {mem : Nat → wState} (hc : CmpOK cmp mem)
    (ops : List Op) (fuel : Nat) (hf : ops.length ≤ fuel) :
    ∃ s rs, run fuel ⟨mem, wHashCreate cmp⟩ ops = some (s, rs) := by
  obtain ⟨s, rs, h, _⟩ := run_create hc ops fuel hf
  exact ⟨s, rs, h⟩

/-- The increment of `num_entries` (line 157) keeps the shape of the store. -/
theorem Wf.bump {cmp : wState → wState → Int} {mem0 : Nat → wState} {s : Store}
    {A W : List Nat} (hw : Wf cmp mem0 s A W) :
    Wf cmp mem0
      { s with table := { s.table with num_entries := s.table.num_entries + 1 } } A W :=
  ⟨hw.cmp_eq, hw.data, hw.size, hw.mask, hw.distinct, hw.chains, hw.work, hw.sub⟩

theorem replay_append (w1 w2 : List (Nat × Option Nat)) :
    ∀ b : Nat → Option Nat, replay b (w1 ++ w2) = replay (replay b w1) w2 := by
  induction w1 with
  | nil => intro b; rfl
  | cons kv w ih =>
    intro b
    simp only [List.cons_append, replay]
    exact ih _

/-- The body of the `for` loop with its log of assignments computes what the body
without the log computes. -/
theorem splitBucketLog_eq (fuel mask n i : Nat) (mem : Nat → wState)
    (buckets : Nat → Option Nat) :
    (splitBucketLog fuel mask n i mem buckets).map (fun r => (r.1, r.2.1)) =
      splitBucket fuel mask n i mem buckets := by
  unfold splitBucketLog splitBucket
  cases splitLoop mask i fuel mem none none (buckets i) with
  | none => rfl
  | some res1 =>
    obtain ⟨mem1, l1, l2⟩ := res1
    simp only []
    cases reverseLoop fuel mem1 l1 none with
    | none => rfl
    | some res2 =>
      obtain ⟨mem2, r1⟩ := res2
      simp only []
      cases reverseLoop fuel mem2 l2 none with
      | none => rfl
      | some res3 => rfl

/-- The assignments logged by the body of the `for` loop for bucket `i`: first
`buckets[i]`, then `buckets[i + n]`, and the resulting array. -/
theorem splitBucketLog_parts (fuel mask n i : Nat) (mem : Nat → wState)
    (buckets : Nat → Option Nat) (mem3 : Nat → wState) (b3 : Nat → Option Nat)
    (w : List (Nat × Option Nat))
    (h : splitBucketLog fuel mask n i mem buckets = some (mem3, b3, w)) :
    ∃ r1 r2, b3 = setAt (setAt buckets i r1) (i + n) r2 ∧ w = [(i, r1), (i + n, r2)] := by
  unfold splitBucketLog at h
  cases h1 : splitLoop mask i fuel mem none none (buckets i) with
  | none => simp [h1] at h
  | some res1 =>
    obtain ⟨mem1, l1, l2⟩ := res1
    simp only [h1] at h
    cases h2 : reverseLoop fuel mem1 l1 none with
    | none => simp [h2] at h
    | some res2 =>
      obtain ⟨mem2, r1⟩ := res2
      simp only [h2] at h
      cases h3 : reverseLoop fuel mem2 l2 none with
      | none => simp [h3] at h
      | some res3 =>
        obtain ⟨m3, r2⟩ := res3
        simp only [h3, Option.some.injEq, Prod.mk.injEq] at h
        exact ⟨r1, r2, h.2.1.symm, h.2.2.symm⟩

theorem splitBucketsLog_succ (fuel mask n k i : Nat) (mem : Nat → wState)
    (buckets : Nat → Option Nat) (mem2 : Nat → wState) (b2 : Nat → Option Nat)
    (w : List (Nat × Option Nat))
    (h : splitBucketsLog fuel mask n (k + 1) i mem buckets = some (mem2, b2, w)) :
    ∃ mem1 b1 w1 w2, splitBucketLog fuel mask n i mem buckets = some (mem1, b1, w1) ∧
      splitBucketsLog fuel mask n k (i + 1) mem1 b1 = some (mem2, b2, w2) ∧ w = w1 ++ w2 := by
  simp only [splitBucketsLog] at h
  cases h1 : splitBucketLog fuel mask n i mem buckets with
  | none => simp [h1] at h
  | some res =>
    obtain ⟨mem1, b1, w1⟩ := res
    simp only [h1] at h
    cases h2 : splitBucketsLog fuel mask n k (i + 1) mem1 b1 with
    | none => simp [h2] at h
    | some res2 =>
      obtain ⟨m2, b2a, w2⟩ := res2
      simp only [h2, Option.some.injEq, Prod.mk.injEq] at h
      exact ⟨mem1, b1, w1, w2, rfl, by rw [← h.1, ← h.2.1]; exact h2, h.2.2.symm⟩

/-- The `for` loop with its log of assignments computes what the loop without the log
computes. -/
theorem splitBucketsLog_eq (fuel mask n : Nat) :
    ∀ (k i : Nat) (mem : Nat → wState) (buckets : Nat → Option Nat),
      (splitBucketsLog fuel mask n k i mem buckets).map (fun r => (r.1, r.2.1)) =
        splitBuckets fuel mask n k i mem buckets := by
  intro k
  induction k with
  | zero => intro i mem buckets; rfl
  | succ k ih =>
    intro i mem buckets
    have h1 := splitBucketLog_eq fuel mask n i mem buckets
    simp only [splitBucketsLog, splitBuckets]
    cases hl : splitBucketLog fuel mask n i mem buckets with
    | none =>
      rw [hl] at h1
      rw [← h1]
      rfl
    | some res =>
      obtain ⟨mem1, b1, w1⟩ := res
      rw [hl] at h1
      rw [← h1]
      have h2 := ih (i + 1) mem1 b1
      simp only [Option.map_some']
      rw [← h2]
      cases splitBucketsLog fuel mask n k (i + 1) mem1 b1 with
      | none => rfl
      | some res2 => rfl

/-- The log of `k` iterations of the `for` loop starting at index `i`: the final array is
the initial one with the logged assignments executed, and the slots assigned are
`i, ..., i + k - 1` and `i + n, ..., i + n + k - 1`, each once. -/
theorem splitBucketsLog_spec (fuel mask n : Nat) :
    ∀ (k i : Nat) (mem : Nat → wState) (buckets : Nat → Option Nat) (mem2 : Nat → wState)
      (b2 : Nat → Option Nat) (w : List (Nat × Option Nat)), i + k ≤ n →
      splitBucketsLog fuel mask n k i mem buckets = some (mem2, b2, w) →
      b2 = replay buckets w ∧
      ∀ j, (w.map Prod.fst).count j =
        if (i ≤ j ∧ j < i + k) ∨ (i + n ≤ j ∧ j < i + n + k) then 1 else 0 := by
  intro k
  induction k with
  | zero =>
    intro i mem buckets mem2 b2 w _ h
    simp only [splitBucketsLog, Option.some.injEq, Prod.mk.injEq] at h
    rw [← h.2.1, ← h.2.2]
    refine ⟨rfl, fun j => ?_⟩
    have hf : ¬ ((i ≤ j ∧ j < i + 0) ∨ (i + n ≤ j ∧ j < i + n + 0)) := by omega
    rw [if_neg hf]
    rfl
  | succ k ih =>
    intro i mem buckets mem2 b2 w hik h
    obtain ⟨mem1, b1, w1, w2, h1, h2, hw⟩ := splitBucketsLog_succ _ _ _ _ _ _ _ _ _ _ h
    obtain ⟨r1, r2, hb1, hw1⟩ := splitBucketLog_parts _ _ _ _ _ _ _ _ _ h1
    obtain ⟨hrep, hcount⟩ := ih (i + 1) mem1 b1 mem2 b2 w2 (by omega) h2
    refine ⟨?_, fun j => ?_⟩
    · rw [hw, replay_append, hrep, hb1, hw1]
      rfl
    · rw [hw, List.map_append, List.count_append, hcount j, hw1]
      simp only [List.map_cons, List.map_nil, List.count_cons, List.count_nil, beq_iff_eq]
      split_ifs <;> omega

/-- A chain that ends in `NULL` visits no record twice. -/
theorem IsSeg.seg_nodup {mem : Nat → wState} {L : List Nat} :
    ∀ {s : Option Nat}, IsSeg mem s L none → L.Nodup := by
  induction L with
  | nil => intro s _; exact List.nodup_nil
  | cons a L ih =>
    intro s h
    refine List.nodup_cons.mpr ⟨?_, ih h.2⟩
    intro ha
    obtain ⟨X, Y, hXY⟩ := List.append_of_mem ha
    have h2 := h.2
    rw [hXY] at h2
    obtain ⟨m, h3, h4⟩ := IsSeg.split h2
    have h5 : IsSeg mem (mem a).next Y none := h4.2
    have h6 := IsSeg.unique h5 h.2
    have hlen : Y.length = L.length := by rw [h6]
    rw [hXY] at hlen
    simp at hlen
    omega

theorem Inv.buckets_unique {cmp : wState → wState → Int} {mem0 : Nat → wState}
    {s s1 : Store} {A W A1 W1 : List Nat} (hi : Inv cmp mem0 s A W)
    (hi1 : Inv cmp mem0 s1 A1 W1) (hlen : A.length = A1.length) :
    s.table.num_buckets = s1.table.num_buckets := by
  obtain ⟨g, hg⟩ := hi.wf.size
  obtain ⟨g1, hg1⟩ := hi1.wf.size
  have hl := hi.load
  have hl1 := hi1.load
  have ht := hi.tight
  have ht1 := hi1.tight
  have hmin : WHASH_MIN = 1024 := rfl
  rw [hmin] at hg hg1 ht ht1
  rcases Nat.lt_trichotomy g g1 with h | h | h
  · exfalso
    have hp : 2 ^ (g + 1) ≤ 2 ^ g1 := Nat.pow_le_pow_right (by decide) h
    rw [Nat.pow_succ] at hp
    have h1 : s1.table.num_buckets ≠ 1024 := by
      have : 0 < 2 ^ g := Nat.pos_pow_of_pos _ (by decide)
      omega
    have := ht1 h1
    omega
  · rw [hg, hg1, h]
  · exfalso
    have hp : 2 ^ (g1 + 1) ≤ 2 ^ g := Nat.pow_le_pow_right (by decide) h
    rw [Nat.pow_succ] at hp
    have h1 : s.table.num_buckets ≠ 1024 := by
      have : 0 < 2 ^ g1 := Nat.pos_pow_of_pos _ (by decide)
      omega
    have := ht h1
    omega

/-- Two strictly ascending lists with the same members are equal. -/
theorem sorted_ext {cmp : wState → wState → Int} {mem : Nat → wState} (hc : CmpOK cmp mem)
    {L1 L2 : List Nat} (h1 : L1.Pairwise (fun p q => cmp (mem p) (mem q) < 0))
    (h2 : L2.Pairwise (fun p q => cmp (mem p) (mem q) < 0)) (hm : ∀ p, p ∈ L1 ↔ p ∈ L2) :
    L1 = L2 := by
  have hnd1 : L1.Nodup := List.Pairwise.imp (fun hab => hc.ne_of_lt hab) h1
  have hnd2 : L2.Nodup := List.Pairwise.imp (fun hab => hc.ne_of_lt hab) h2
  have hp : L1.Perm L2 := (List.perm_ext_iff_of_nodup hnd1 hnd2).mpr hm
  haveI : IsAntisymm Nat (fun p q => cmp (mem p) (mem q) < 0) :=
    ⟨fun a b hab hba => by
      have := (hc.antisymm a b).mp hab
      omega⟩
  exact List.eq_of_perm_of_sorted hp h1 h2

/-- The store `scenarioStore` has entry 1 alone in bucket 5 and nothing elsewhere. -/
theorem scenarioStore_chains :
    (∀ i, i < scenarioStore.table.num_buckets →
      IsChain scenarioStore.mem (scenarioStore.table.buckets i) (if i = 5 then [1] else [])) ∧
    (∀ i, i < scenarioStore.table.num_buckets → ∀ p ∈ (if i = 5 then [1] else [] : List Nat),
      (scenarioStore.mem p).hash &&& scenarioStore.table.mask = i) ∧
    (∀ i, i < scenarioStore.table.num_buckets →
      (if i = 5 then [1] else [] : List Nat).length ≤ 1) := by
  refine ⟨?_, ?_, ?_⟩
  · intro i _
    by_cases h : i = 5
    · subst h
      exact ⟨rfl, rfl⟩
    · simp only [if_neg h]
      show scenarioStore.table.buckets i = none
      simp [scenarioStore, h]
  · intro i _ p hp
    by_cases h : i = 5
    · subst h
      simp only [if_true, List.mem_singleton] at hp
      subst hp
      rfl
    · simp [h] at hp
  · intro i _
    by_cases h : i = 5
    · simp [h]
    · simp [h]

/-! ## Sorted chains under a total order that need not respect the keys -/

theorem CmpOK.tot {cmp : wState → wState → Int} {mem : Nat → wState} (h : CmpOK cmp mem) :
    CmpTot cmp mem :=
  ⟨h.data, h.antisymm, h.trans⟩

theorem CmpTot.refl_tot {cmp : wState → wState → Int} {mem : Nat → wState}
    (h : CmpTot cmp mem) (p : Nat) : cmp (mem p) (mem p) = 0 := by
  have h1 := h.antisymm p p
  omega

theorem CmpTot.lt_trans_tot {cmp : wState → wState → Int} {mem : Nat → wState}
    (h : CmpTot cmp mem) {p q r : Nat} (h1 : cmp (mem p) (mem q) < 0)
    (h2 : cmp (mem q) (mem r) < 0) : cmp (mem p) (mem r) < 0 := by
  have a1 := h.antisymm p q
  have a2 := h.antisymm q r
  have a3 := h.antisymm p r
  have a4 := h.antisymm r p
  by_contra hc
  have h3 : cmp (mem r) (mem p) ≤ 0 := by omega
  have h4 := h.trans r p q h3 (by omega)
  omega

theorem Sorted0.pos0 {cmp : wState → wState → Int} {mem0 : Nat → wState} {s : Store}
    {A : List Nat} {B : Nat → List Nat} (hs0 : Sorted0 cmp mem0 s A B) :
    0 < s.table.num_buckets := by
  obtain ⟨g, hg⟩ := hs0.size
  rw [hg]
  exact Nat.mul_pos (by decide) (Nat.pos_pow_of_pos _ (by decide))

theorem Sorted0.land0 {cmp : wState → wState → Int} {mem0 : Nat → wState} {s : Store}
    {A : List Nat} {B : Nat → List Nat} (hs0 : Sorted0 cmp mem0 s A B) (x : Nat) :
    x &&& s.table.mask = x % s.table.num_buckets := by
  obtain ⟨g, hg⟩ := hs0.size
  rw [hs0.mask, hg]
  exact land_mask x g

theorem Sorted0.nodup0 {cmp : wState → wState → Int} {mem0 : Nat → wState} {s : Store}
    {A : List Nat} {B : Nat → List Nat} (hs0 : Sorted0 cmp mem0 s A B) (i : Nat)
    (hi : i < s.table.num_buckets) : (B i).Nodup :=
  (hs0.chains i hi).1.seg_nodup

theorem Sorted0.length_le0 {cmp : wState → wState → Int} {mem0 : Nat → wState} {s : Store}
    {A : List Nat} {B : Nat → List Nat} (hs0 : Sorted0 cmp mem0 s A B) (i : Nat)
    (hi : i < s.table.num_buckets) : (B i).length ≤ A.length := by
  have hsub : B i ⊆ A := fun p hp => (((hs0.chains i hi).2.2 p).mp hp).1
  exact (List.subperm_of_subset (hs0.nodup0 i hi) hsub).length_le

theorem Sorted0.cmp_mem0 {cmp : wState → wState → Int} {mem0 : Nat → wState} {s : Store}
    {A : List Nat} {B : Nat → List Nat} (ht : CmpTot cmp mem0) (hs0 : Sorted0 cmp mem0 s A B)
    (p q : Nat) : s.table.cmp (s.mem p) (s.mem q) = cmp (mem0 p) (mem0 q) := by
  rw [hs0.cmp_eq]
  exact ht.data _ _ _ _ (hs0.data p).1 (hs0.data p).2 (hs0.data q).1 (hs0.data q).2

theorem Sorted0.link0 {cmp : wState → wState → Int} {mem0 : Nat → wState} {s : Store}
    {A : List Nat} {B : Nat → List Nat} (hs0 : Sorted0 cmp mem0 s A B) (e : Nat) (last next : Option Nat) (L1 L2 : List Nat)
    (hL : B ((mem0 e).hash % s.table.num_buckets) = L1 ++ L2)
    (hseg : IsSeg s.mem (s.table.buckets ((mem0 e).hash % s.table.num_buckets)) L1 next)
    (hch : IsChain s.mem next L2)
    (hlt : ∀ p ∈ L1, cmp (mem0 p) (mem0 e) < 0)
    (hlast : (L1 = [] ∧ last = none) ∨ (∃ L0 l, L1 = L0 ++ [l] ∧ last = some l))
    (heA : e ∉ A)
    (hgt : ∀ q ∈ L2, cmp (mem0 e) (mem0 q) < 0) :
    Chains cmp mem0 (linkEntry s e last next) (e :: A)
      (setAt B ((mem0 e).hash % s.table.num_buckets) (L1 ++ e :: L2)) := by
  have hi : (mem0 e).hash % s.table.num_buckets < s.table.num_buckets :=
    Nat.mod_lt _ hs0.pos0
  have hidx : (s.mem e).hash &&& s.table.mask = (mem0 e).hash % s.table.num_buckets := by
    rw [hs0.land0, (hs0.data e).1]
  have hB := hs0.chains
  obtain ⟨_, hsorted, hmem⟩ := hB _ hi
  have hndi := hs0.nodup0 _ hi
  rw [hL] at hsorted hndi
  have hsub : ∀ p, p ∈ L1 ++ L2 → p ∈ A := fun p hp => ((hmem p).mp (hL ▸ hp)).1
  have hne : ∀ p, p ∈ L1 ++ L2 → p ≠ e := fun p hp h => heA (h ▸ hsub p hp)
  intro j hj
  rw [(linkEntry_table s e last next).2.1] at hj ⊢
  by_cases hji : j = (mem0 e).hash % s.table.num_buckets
  · subst hji
    rw [setAt_same]
    refine ⟨?_, ?_, ?_⟩
    · rcases hlast with ⟨h1, h2⟩ | ⟨L0, l, h1, h2⟩
      · subst h1 h2
        rw [linkEntry_buckets_none, hidx, setAt_same]
        refine ⟨rfl, ?_⟩
        rw [linkEntry_next_none, if_pos rfl, hidx]
        have hbn : s.table.buckets ((mem0 e).hash % s.table.num_buckets) = next := hseg
        rw [hbn]
        refine IsSeg.congr (fun p hp => ?_) hch
        rw [linkEntry_next_none, if_neg (hne p (by simpa using hp))]
      · subst h1 h2
        rw [linkEntry_buckets_some]
        obtain ⟨m, hs0, hs1⟩ := IsSeg.split hseg
        obtain ⟨hm, hln⟩ := hs1
        have hln : (s.mem l).next = next := hln
        subst hm
        have hle : l ≠ e := hne l (by simp)
        have hnd0 : l ∉ L0 ∧ l ∉ L2 := by
          have := hndi
          simp only [List.append_assoc, List.singleton_append] at this
          have h3 := (List.nodup_append.mp this).2.2
          have h4 := (List.nodup_cons.mp (List.nodup_append.mp this).2.1).1
          exact ⟨fun h => h3 h (List.mem_cons_self _ _), h4⟩
        have hA : IsSeg (linkEntry s e (some l) next).mem
            (s.table.buckets ((mem0 e).hash % s.table.num_buckets)) L0 (some l) := by
          refine IsSeg.congr (fun p hp => ?_) hs0
          rw [linkEntry_next_some, if_neg (fun h : p = l => hnd0.1 (h ▸ hp)),
            if_neg (hne p (by simp [hp]))]
        have hM : IsSeg (linkEntry s e (some l) next).mem (some l) [l] (some e) :=
          ⟨rfl, by rw [linkEntry_next_some, if_pos rfl]; rfl⟩
        have hZ : IsSeg (linkEntry s e (some l) next).mem (some e) (e :: L2) none := by
          refine ⟨rfl, ?_⟩
          rw [linkEntry_next_some, if_neg hle.symm, if_pos rfl]
          refine IsSeg.congr (fun p hp => ?_) hch
          rw [linkEntry_next_some, if_neg (fun h : p = l => hnd0.2 (h ▸ hp)),
            if_neg (hne p (by simp [hp]))]
        exact IsSeg.append (IsSeg.append hA hM) hZ
    · have hs := List.pairwise_append.mp hsorted
      refine List.pairwise_append.mpr ⟨hs.1, List.pairwise_cons.mpr ⟨hgt, hs.2.1⟩, ?_⟩
      intro a ha b hb
      rcases List.mem_cons.mp hb with rfl | hb
      · exact hlt a ha
      · exact hs.2.2 a ha b hb
    · intro p
      have := hmem p
      rw [hL] at this
      simp only [List.mem_append, List.mem_cons] at this ⊢
      constructor
      · rintro (h | rfl | h)
        · exact ⟨Or.inr (this.mp (Or.inl h)).1, (this.mp (Or.inl h)).2⟩
        · exact ⟨Or.inl rfl, rfl⟩
        · exact ⟨Or.inr (this.mp (Or.inr h)).1, (this.mp (Or.inr h)).2⟩
      · rintro ⟨rfl | h, h2⟩
        · exact Or.inr (Or.inl rfl)
        · rcases this.mpr ⟨h, h2⟩ with h3 | h3
          · exact Or.inl h3
          · exact Or.inr (Or.inr h3)
  · rw [setAt_ne _ _ _ _ hji]
    obtain ⟨hcj, hsj, hmj⟩ := hB j hj
    have hnej : ∀ p, p ∈ B j → p ≠ e := fun p hp h => heA (h ▸ ((hmj p).mp hp).1)
    have hnij : ∀ p, p ∈ B j → p ∉ L1 ++ L2 := fun p hp h =>
      hji (((hmj p).mp hp).2.symm.trans ((hmem p).mp (hL ▸ h)).2)
    refine ⟨?_, hsj, ?_⟩
    · rcases hlast with ⟨h1, h2⟩ | ⟨L0, l, h1, h2⟩
      · subst h1 h2
        rw [linkEntry_buckets_none, hidx, setAt_ne _ _ _ _ hji]
        refine IsSeg.congr (fun p hp => ?_) hcj
        rw [linkEntry_next_none, if_neg (hnej p hp)]
      · subst h1 h2
        rw [linkEntry_buckets_some]
        refine IsSeg.congr (fun p hp => ?_) hcj
        rw [linkEntry_next_some, if_neg (fun h => hnij p hp (by simp [h])),
          if_neg (hnej p hp)]
    · intro p
      rw [hmj p]
      simp only [List.mem_cons]
      constructor
      · rintro ⟨h1, h2⟩
        exact ⟨Or.inr h1, h2⟩
      · rintro ⟨rfl | h1, h2⟩
        · exact absurd h2.symm hji
        · exact ⟨h1, h2⟩

theorem Sorted0.grow0 {cmp : wState → wState → Int} {mem0 : Nat → wState} {s : Store}
    {A : List Nat} {B : Nat → List Nat} (hs0 : Sorted0 cmp mem0 s A B) (fuel : Nat)
    (hf : A.length ≤ fuel) :
    ∃ s1, growTable fuel s = some s1 ∧
      s1.table = { s.table with
        mask := s.table.num_buckets * 2 - 1
        buckets := s1.table.buckets
        num_buckets := s.table.num_buckets * 2 } ∧
      (∀ p, (s1.mem p).hash = (s.mem p).hash ∧ (s1.mem p).memory = (s.mem p).memory ∧
        (s1.mem p).work = (s.mem p).work) ∧
      Chains cmp mem0 s1 A (fun j =>
        if j < s.table.num_buckets then
          (B j).filter (fun p => decide ((mem0 p).hash &&& (s.table.num_buckets * 2 - 1) = j))
        else
          (B (j - s.table.num_buckets)).filter (fun p =>
            !decide ((mem0 p).hash &&& (s.table.num_buckets * 2 - 1)
              = j - s.table.num_buckets))) := by
  have hB := hs0.chains
  have hpos := hs0.pos0
  have hland : ∀ x, x &&& (s.table.num_buckets * 2 - 1) = x % (s.table.num_buckets * 2) := by
    intro x
    obtain ⟨g, hg⟩ := hs0.size
    have h2 : s.table.num_buckets * 2 = WHASH_MIN * 2 ^ (g + 1) := by
      rw [hg, Nat.pow_succ, Nat.mul_assoc]
    rw [h2]
    exact land_mask x (g + 1)
  obtain ⟨mem1, b1, hrun, hk, _, _, hd⟩ :=
    splitBuckets_spec fuel (s.table.num_buckets * 2 - 1) s.table.num_buckets
      (fun p => (mem0 p).hash) B
      (fun j hj => (hs0.length_le0 j hj).trans hf)
      (fun j hj => hs0.nodup0 j hj)
      (fun j j1 p hj hj1 h1 h2 =>
        (((hB j hj).2.2 p).mp h1).2.symm.trans (((hB j1 hj1).2.2 p).mp h2).2)
      s.table.num_buckets 0 s.mem s.table.buckets (by omega) (fun p => (hs0.data p).1)
      (fun j _ hj => (hB j hj).1)
  refine ⟨{ mem := mem1, table := { s.table with
      mask := s.table.num_buckets * 2 - 1, buckets := b1,
      num_buckets := s.table.num_buckets * 2 } },
    by simp only [growTable, hrun], rfl, hd, ?_⟩
  intro j hj
  have hj2 : j < s.table.num_buckets * 2 := hj
  show IsChain mem1 (b1 j) _ ∧ _ ∧ ∀ p, _ ↔ p ∈ A ∧ (mem0 p).hash % (s.table.num_buckets * 2) = j
  by_cases hjn : j < s.table.num_buckets
  · simp only [if_pos hjn]
    refine ⟨(hk j (Nat.zero_le j) hjn).1, (hB j hjn).2.1.filter _, ?_⟩
    intro p
    rw [List.mem_filter, (hB j hjn).2.2 p, decide_eq_true_eq, hland]
    have := mod_double (mem0 p).hash s.table.num_buckets
    constructor
    · rintro ⟨⟨h1, _⟩, h3⟩
      exact ⟨h1, h3⟩
    · rintro ⟨h1, h3⟩
      refine ⟨⟨h1, ?_⟩, h3⟩
      have := Nat.mod_lt (mem0 p).hash hpos
      omega
  · simp only [if_neg hjn]
    have hjn1 : j - s.table.num_buckets < s.table.num_buckets := by omega
    have hk2 := (hk (j - s.table.num_buckets) (Nat.zero_le _) hjn1).2
    rw [Nat.sub_add_cancel (by omega)] at hk2
    refine ⟨hk2, (hB _ hjn1).2.1.filter _, ?_⟩
    intro p
    rw [List.mem_filter, (hB _ hjn1).2.2 p, Bool.not_eq_true', decide_eq_false_iff_not, hland]
    have := mod_double (mem0 p).hash s.table.num_buckets
    have := Nat.mod_lt (mem0 p).hash hpos
    constructor
    · rintro ⟨⟨h1, h2⟩, h3⟩
      exact ⟨h1, by omega⟩
    · rintro ⟨h1, h3⟩
      exact ⟨⟨h1, by omega⟩, by omega⟩

/-- Under a total order the search loop of `wHashInsert` terminates within `A.length`
iterations on sorted chains; it ends with result 0 at an entry of the bucket, or at the
place that keeps the chain ascending, and then the candidate is not an admitted entry. -/
theorem Sorted0.search0 {cmp : wState → wState → Int} {mem0 : Nat → wState} {s : Store}
    {A : List Nat} {B : Nat → List Nat} (ht : CmpTot cmp mem0) (hs0 : Sorted0 cmp mem0 s A B)
    (e fuel : Nat) (c0 : Int) (hf : A.length ≤ fuel) (hc0 : c0 ≠ 0) :
    ∃ c last next L1 L2,
      searchLoop s.table.cmp s.mem e fuel c0 none
        (s.table.buckets ((s.mem e).hash &&& s.table.mask)) = some (c, last, next) ∧
      B ((mem0 e).hash % s.table.num_buckets) = L1 ++ L2 ∧
      IsSeg s.mem (s.table.buckets ((mem0 e).hash % s.table.num_buckets)) L1 next ∧
      IsChain s.mem next L2 ∧
      (∀ p ∈ L1, cmp (mem0 p) (mem0 e) < 0) ∧
      ((L1 = [] ∧ last = none) ∨ (∃ L0 l, L1 = L0 ++ [l] ∧ last = some l)) ∧
      ((c = 0 ∧ ∃ q, next = some q ∧ q ∈ A ∧
          (mem0 q).hash % s.table.num_buckets = (mem0 e).hash % s.table.num_buckets ∧
          cmp (mem0 q) (mem0 e) = 0) ∨
        (c ≠ 0 ∧ e ∉ A ∧
          (∀ q ∈ A, (mem0 q).hash % s.table.num_buckets = (mem0 e).hash % s.table.num_buckets →
            cmp (mem0 q) (mem0 e) ≠ 0) ∧
          ∀ q ∈ L2, cmp (mem0 e) (mem0 q) < 0)) := by
  have hi : (mem0 e).hash % s.table.num_buckets < s.table.num_buckets :=
    Nat.mod_lt _ hs0.pos0
  have hidx : (s.mem e).hash &&& s.table.mask = (mem0 e).hash % s.table.num_buckets := by
    rw [hs0.land0, (hs0.data e).1]
  obtain ⟨hch, hsorted, hmem⟩ := hs0.chains _ hi
  obtain ⟨c, last, next, L1, L2, hrun, hL, hseg, hch2, hlt, hlast, hcv⟩ :=
    searchLoop_spec s.table.cmp s.mem e _ fuel c0 none _
      ((hs0.length_le0 _ hi).trans hf) hch
  have hlt1 : ∀ p ∈ L1, cmp (mem0 p) (mem0 e) < 0 := fun p hp => by
    rw [← hs0.cmp_mem0 ht]; exact hlt p hp
  rw [hL] at hsorted
  have hs := List.pairwise_append.mp hsorted
  have hin : ∀ r ∈ A,
      (mem0 r).hash % s.table.num_buckets = (mem0 e).hash % s.table.num_buckets →
      r ∈ L1 ++ L2 := by
    intro r hr hk
    rw [← hL, hmem r]
    exact ⟨hr, hk⟩
  have hrefl := ht.refl_tot e
  have hself : (∀ q ∈ A,
      (mem0 q).hash % s.table.num_buckets = (mem0 e).hash % s.table.num_buckets →
      cmp (mem0 q) (mem0 e) ≠ 0) → e ∉ A := fun h he => h e he rfl hrefl
  refine ⟨c, last, next, L1, L2, by rw [hidx]; exact hrun, hL, hseg, hch2, hlt1, hlast, ?_⟩
  rcases hcv with ⟨q, L3, hq, hcq, hc0le⟩ | ⟨hnil, hcc⟩
  · rw [hs0.cmp_mem0 ht] at hcq
    subst hq
    have hnext : next = some q := hch2.1
    by_cases hz : c = 0
    · left
      have hqm := (hmem q).mp (by rw [hL]; simp)
      exact ⟨hz, q, hnext, hqm.1, hqm.2, by rw [← hcq]; exact hz⟩
    · right
      have hqe : 0 < cmp (mem0 q) (mem0 e) := by omega
      have heq : cmp (mem0 e) (mem0 q) < 0 := (ht.antisymm e q).mpr hqe
      have hL3 : ∀ r ∈ L3, cmp (mem0 q) (mem0 r) < 0 :=
        fun r hr => (List.pairwise_cons.mp hs.2.1).1 r hr
      have hno : ∀ r ∈ A,
          (mem0 r).hash % s.table.num_buckets = (mem0 e).hash % s.table.num_buckets →
          cmp (mem0 r) (mem0 e) ≠ 0 := by
        intro r hr hk hre
        rcases List.mem_append.mp (hin r hr hk) with h1 | h2
        · have := hlt1 r h1; omega
        · rcases List.mem_cons.mp h2 with h3 | h3
          · rw [h3] at hre; omega
          · have h4 := ht.lt_trans_tot heq (hL3 r h3)
            have := (ht.antisymm e r).mp h4
            omega
      refine ⟨hz, hself hno, hno, ?_⟩
      · intro r hr
        rcases List.mem_cons.mp hr with rfl | h3
        · exact heq
        · exact ht.lt_trans_tot heq (hL3 r h3)
  · right
    subst hnil
    have hno : ∀ r ∈ A,
        (mem0 r).hash % s.table.num_buckets = (mem0 e).hash % s.table.num_buckets →
        cmp (mem0 r) (mem0 e) ≠ 0 := by
      intro r hr hk hre
      have h1 := hin r hr hk
      rw [List.append_nil] at h1
      have := hlt1 r h1
      omega
    exact ⟨by omega, hself hno, hno, by simp⟩


/-- Under a total order a call of `wHashInsert` on sorted chains returns: an entry found
with the store unchanged, or the candidate, newly linked into chains that are sorted
again. -/
theorem Sorted0.insert0 {cmp : wState → wState → Int} {mem0 : Nat → wState} {s : Store}
    {A : List Nat} {B : Nat → List Nat} (ht : CmpTot cmp mem0) (hs0 : Sorted0 cmp mem0 s A B)
    (e fuel : Nat) (hf : A.length ≤ fuel) :
    (∃ q, wHashInsert fuel s e = some (s, some q)) ∨
    (∃ s1 B1, wHashInsert fuel s e = some (s1, some e) ∧
      s1.table.num_entries = s.table.num_entries + 1 ∧ Sorted0 cmp mem0 s1 (e :: A) B1) := by
  obtain ⟨c, last, next, L1, L2, hrun, hL, hseg, hch, hlt, hlast, hcv⟩ :=
    hs0.search0 ht e fuel 1 hf (by decide)
  rcases hcv with ⟨hz, q, hn, _, _, _⟩ | ⟨hz, heA, hno, hgt⟩
  · left
    refine ⟨q, ?_⟩
    unfold wHashInsert
    rw [hrun]
    simp [hz, hn]
  right
  have hs1 : Sorted0 cmp mem0
      { s with table := { s.table with num_entries := s.table.num_entries + 1 } } A B :=
    ⟨hs0.cmp_eq, hs0.data, hs0.size, hs0.mask, hs0.chains⟩
  by_cases hg : s.table.num_entries ≥ s.table.num_buckets * 3 / 4
  · obtain ⟨s2, hgrow, htab, hd, hch2⟩ := hs1.grow0 fuel hf
    have hnb2 : s2.table.num_buckets = s.table.num_buckets * 2 := by rw [htab]
    have h2a : s2.table.cmp = cmp := by rw [htab]; exact hs0.cmp_eq
    have h2b : ∀ p, (s2.mem p).hash = (mem0 p).hash ∧ (s2.mem p).memory = (mem0 p).memory :=
      fun p => ⟨(hd p).1.trans (hs0.data p).1, (hd p).2.1.trans (hs0.data p).2⟩
    have h2c : ∃ g, s2.table.num_buckets = WHASH_MIN * 2 ^ g := by
      obtain ⟨g, hg⟩ := hs0.size
      exact ⟨g + 1, by rw [hnb2, hg, Nat.pow_succ, Nat.mul_assoc]⟩
    have h2d : s2.table.mask = s2.table.num_buckets - 1 := by rw [htab]
    have hs2 := Sorted0.mk h2a h2b h2c h2d hch2
    obtain ⟨c2, last2, next2, M1, M2, hrun2, hM, hseg2, hchn2, hlt2, hlast2, hcv2⟩ :=
      hs2.search0 ht e fuel c hf hz
    have hgt2 : ∀ q ∈ M2, cmp (mem0 e) (mem0 q) < 0 := by
      rcases hcv2 with ⟨_, q, _, hq, hk, hqe⟩ | ⟨_, _, _, h⟩
      · exfalso
        rw [hnb2] at hk
        have hk1 : (mem0 q).hash % s.table.num_buckets
            = (mem0 e).hash % s.table.num_buckets := by
          rw [← Nat.mod_mod_of_dvd (mem0 q).hash (Dvd.intro 2 rfl), hk,
            Nat.mod_mod_of_dvd _ (Dvd.intro 2 rfl)]
        exact hno q hq hk1 hqe
      · exact h
    have hl := hs2.link0 e last2 next2 M1 M2 hM hseg2 hchn2 hlt2 hlast2 heA hgt2
    have ht2 := linkEntry_table s2 e last2 next2
    refine ⟨linkEntry s2 e last2 next2, _, ?_, ?_, ⟨?_, ?_, ?_, ?_, hl⟩⟩
    · unfold wHashInsert
      simp only [hrun, if_neg hz, if_pos hg, hgrow, hrun2]
    · rw [ht2.2.2.1, htab]
    · rw [ht2.1]; exact hs2.cmp_eq
    · intro p
      exact ⟨(linkEntry_data s2 e last2 next2 p).1.trans (hs2.data p).1,
        (linkEntry_data s2 e last2 next2 p).2.trans (hs2.data p).2⟩
    · rw [ht2.2.1]; exact hs2.size
    · rw [ht2.2.1, ht2.2.2.2.1]; exact hs2.mask
  · have hl := hs1.link0 e last next L1 L2 hL hseg hch hlt hlast heA hgt
    have ht1 := linkEntry_table
      { s with table := { s.table with num_entries := s.table.num_entries + 1 } } e last next
    refine ⟨_, _, ?_, ?_, ⟨?_, ?_, ?_, ?_, hl⟩⟩
    · unfold wHashInsert
      simp only [hrun, if_neg hz, if_neg hg]
    · rw [ht1.2.2.1]
    · rw [ht1.1]; exact hs0.cmp_eq
    · intro p
      exact ⟨(linkEntry_data _ e last next p).1.trans (hs0.data p).1,
        (linkEntry_data _ e last next p).2.trans (hs0.data p).2⟩
    · rw [ht1.2.1]; exact hs0.size
    · rw [ht1.2.1, ht1.2.2.2.1]; exact hs0.mask

theorem Sorted0.pop0 {cmp : wState → wState → Int} {mem0 : Nat → wState} {s : Store}
    {A : List Nat} {B : Nat → List Nat} (hs0 : Sorted0 cmp mem0 s A B) :
    Sorted0 cmp mem0 (wHashPop s).1 A B := by
  have hp := wHashPop_tbl s
  refine ⟨hp.2.2.2.2.1.trans hs0.cmp_eq, ?_, ?_, ?_, ?_⟩
  · intro p
    rw [hp.2.2.2.2.2]
    exact hs0.data p
  · rw [hp.1]; exact hs0.size
  · rw [hp.1, hp.2.1]; exact hs0.mask
  · intro i hi
    rw [hp.1] at hi
    rw [hp.2.2.2.2.2, hp.2.2.2.1, hp.1]
    exact hs0.chains i hi

theorem Sorted0.step0 {cmp : wState → wState → Int} {mem0 : Nat → wState} {s : Store}
    {A : List Nat} {B : Nat → List Nat} (ht : CmpTot cmp mem0) (hs0 : Sorted0 cmp mem0 s A B)
    (fuel : Nat) (hf : A.length ≤ fuel) (op : Op) :
    ∃ s1 r A1 B1, step fuel s op = some (s1, r) ∧ Sorted0 cmp mem0 s1 A1 B1 ∧
      A1.length ≤ A.length + 1 := by
  cases op with
  | insert e =>
    rcases hs0.insert0 ht e fuel hf with ⟨q, h⟩ | ⟨s1, B1, h, _, hs1⟩
    · exact ⟨s, some q, A, B, h, hs0, Nat.le_succ _⟩
    · exact ⟨s1, some e, e :: A, B1, h, hs1, by simp⟩
  | find e =>
    obtain ⟨c, last, next, _, _, hrun, _⟩ := hs0.search0 ht e fuel 1 hf (by decide)
    have hfind : wHashFind fuel s e = some (if c = 0 then next else none) := by
      unfold wHashFind
      rw [findLoop_eq_searchLoop _ _ _ fuel 1 none _ (by decide), hrun]
      rfl
    refine ⟨s, (if c = 0 then next else none), A, B, ?_, hs0, Nat.le_succ _⟩
    simp only [step, hfind]
  | pop => exact ⟨(wHashPop s).1, (wHashPop s).2, A, B, rfl, hs0.pop0, Nat.le_succ _⟩

/-- Under a total order every sequence of calls on sorted chains returns, given fuel for
the longest chain, and leaves sorted chains. -/
theorem Sorted0.run0 {cmp : wState → wState → Int} {mem0 : Nat → wState}
    (ht : CmpTot cmp mem0) (fuel : Nat) (ops : List Op) :
    ∀ (s : Store) (A : List Nat) (B : Nat → List Nat), Sorted0 cmp mem0 s A B →
      A.length + ops.length ≤ fuel →
      ∃ s1 rs A1 B1, run fuel s ops = some (s1, rs) ∧ Sorted0 cmp mem0 s1 A1 B1 ∧
        A1.length ≤ A.length + ops.length := by
  induction ops with
  | nil =>
    intro s A B hs0 _
    exact ⟨s, [], A, B, rfl, hs0, Nat.le_refl _⟩
  | cons op ops ih =>
    intro s A B hs0 hf
    simp only [List.length_cons] at hf
    obtain ⟨s1, r, A1, B1, hstep, hs1, hlen⟩ := hs0.step0 ht fuel (by omega) op
    obtain ⟨s2, rs, A2, B2, hrun, hs2, hlen2⟩ := ih s1 A1 B1 hs1 (by omega)
    refine ⟨s2, r :: rs, A2, B2, ?_, hs2, by simp only [List.length_cons]; omega⟩
    simp only [run, hstep, hrun]

theorem Sorted0.create0 (cmp : wState → wState → Int) (mem0 : Nat → wState) :
    Sorted0 cmp mem0 ⟨mem0, wHashCreate cmp⟩ [] (fun _ => []) := by
  refine ⟨rfl, fun _ => ⟨rfl, rfl⟩, ⟨0, rfl⟩, rfl, ?_⟩
  intro i _
  exact ⟨rfl, List.Pairwise.nil, fun p => by simp⟩

theorem Sorted0.sorted_mem {cmp : wState → wState → Int} {mem0 : Nat → wState} {s : Store}
    {A : List Nat} {B : Nat → List Nat} (ht : CmpTot cmp mem0) (hs0 : Sorted0 cmp mem0 s A B)
    (i : Nat) (hi : i < s.table.num_buckets) :
    ∃ L, IsChain s.mem (s.table.buckets i) L ∧
      L.Pairwise (fun p q => s.table.cmp (s.mem p) (s.mem q) < 0) := by
  refine ⟨B i, (hs0.chains i hi).1, List.Pairwise.imp ?_ (hs0.chains i hi).2.1⟩
  intro a b hab
  rw [hs0.cmp_mem0 ht]
  exact hab

/-! ## Entries match their bucket, for any comparator -/

theorem allIn_none (mem : Nat → wState) (P : Nat → Prop) : AllIn mem P none := by
  intro L t h p hp
  cases L with
  | nil => cases hp
  | cons a l =>
    have h1 : none = some a := h.1
    cases h1

theorem allIn_head {mem : Nat → wState} {P : Nat → Prop} {c : Nat}
    (h : AllIn mem P (some c)) : P c :=
  h [c] (mem c).next ⟨rfl, rfl⟩ c (List.mem_cons_self _ _)

theorem allIn_tail {mem : Nat → wState} {P : Nat → Prop} {c : Nat}
    (h : AllIn mem P (some c)) : AllIn mem P (mem c).next :=
  fun L t hs p hp => h (c :: L) t ⟨rfl, hs⟩ p (List.mem_cons_of_mem _ hp)

theorem allIn_cons {mem : Nat → wState} {P : Nat → Prop} {c : Nat} (hc : P c)
    (h : AllIn mem P (mem c).next) : AllIn mem P (some c) := by
  intro L t hs p hp
  cases L with
  | nil => cases hp
  | cons a l =>
    have ha : c = a := Option.some.inj hs.1
    subst ha
    rcases List.mem_cons.mp hp with hpa | hp1
    · rw [hpa]; exact hc
    · exact h l t hs.2 p hp1

theorem allIn_mono {mem : Nat → wState} {P Q : Nat → Prop} {h : Option Nat}
    (hPQ : ∀ p, P p → Q p) (ha : AllIn mem P h) : AllIn mem Q h :=
  fun L t hs p hp => hPQ p (ha L t hs p hp)

theorem allIn_congr {mem mem1 : Nat → wState} {P : Nat → Prop} {h : Option Nat}
    (hn : ∀ p, (mem1 p).next = (mem p).next) (ha : AllIn mem P h) : AllIn mem1 P h :=
  fun L t hs p hp => ha L t (IsSeg.congr (fun q _ => (hn q).symm) hs) p hp

/-- The assignment `c->next = v` keeps every chain inside `P`, when the chain from `v` is
inside `P` in case `c` is. -/
theorem allIn_setNext {mem : Nat → wState} {P : Nat → Prop} (c : Nat) (v : Option Nat)
    (hv : P c → AllIn mem P v) :
    ∀ h, AllIn mem P h → AllIn (setNext mem c v) P h := by
  intro h ha L
  induction L generalizing h with
  | nil => intro t _ p hp; cases hp
  | cons a l ih =>
    intro t hs p hp
    have h1 : h = some a := hs.1
    subst h1
    have hPa : P a := allIn_head ha
    rcases List.mem_cons.mp hp with hpa | hp1
    · rw [hpa]; exact hPa
    · by_cases hac : a = c
      · subst hac
        have hn : (setNext mem a v a).next = v := by simp [setNext]
        have hs2 := hs.2
        rw [hn] at hs2
        exact ih v (hv hPa) t hs2 p hp1
      · have hn : (setNext mem c v a).next = (mem a).next := by simp [setNext, hac]
        have hs2 := hs.2
        rw [hn] at hs2
        exact ih _ (allIn_tail ha) t hs2 p hp1

/-- The search loop stops inside the chain it walks: the chain from `next_entry` and the
entry `last_entry` stay inside `P`. -/
theorem searchLoop_allIn (cmp : wState → wState → Int) (mem : Nat → wState) (e : Nat)
    (P : Nat → Prop) :
    ∀ (fuel : Nat) (c : Int) (last cur : Option Nat) (c1 : Int) (last1 next1 : Option Nat),
      searchLoop cmp mem e fuel c last cur = some (c1, last1, next1) →
      AllIn mem P cur → (∀ l, last = some l → P l) →
      AllIn mem P next1 ∧ ∀ l, last1 = some l → P l := by
  intro fuel
  induction fuel with
  | zero =>
    intro c last cur c1 last1 next1 h ha hl
    cases cur with
    | none =>
      simp only [searchLoop, Option.some.injEq, Prod.mk.injEq] at h
      obtain ⟨_, h2, h3⟩ := h
      subst h2; subst h3
      exact ⟨ha, hl⟩
    | some n => simp [searchLoop] at h
  | succ fuel ih =>
    intro c last cur c1 last1 next1 h ha hl
    cases cur with
    | none =>
      simp only [searchLoop, Option.some.injEq, Prod.mk.injEq] at h
      obtain ⟨_, h2, h3⟩ := h
      subst h2; subst h3
      exact ⟨ha, hl⟩
    | some n =>
      simp only [searchLoop] at h
      by_cases hc : cmp (mem n) (mem e) ≥ 0
      · simp only [if_pos hc, Option.some.injEq, Prod.mk.injEq] at h
        obtain ⟨_, h2, h3⟩ := h
        subst h2; subst h3
        exact ⟨ha, hl⟩
      · simp only [if_neg hc] at h
        refine ih _ _ _ _ _ _ h (allIn_tail ha) ?_
        intro l hl1
        rw [← Option.some.inj hl1]
        exact allIn_head ha

/-- The search loop returns its initial `last_entry` with the start of the chain, or an
entry `last_entry` of a segment of the chain that ends at `next_entry`. -/
theorem searchLoop_reach (cmp : wState → wState → Int) (mem : Nat → wState) (e : Nat) :
    ∀ (fuel : Nat) (c : Int) (last cur : Option Nat) (c1 : Int) (last1 next1 : Option Nat),
      searchLoop cmp mem e fuel c last cur = some (c1, last1, next1) →
      (last1 = last ∧ next1 = cur) ∨
      ∃ L l, last1 = some l ∧ l ∈ L ∧ IsSeg mem cur L next1 := by
  intro fuel
  induction fuel with
  | zero =>
    intro c last cur c1 last1 next1 h
    cases cur with
    | none =>
      simp only [searchLoop, Option.some.injEq, Prod.mk.injEq] at h
      exact Or.inl ⟨h.2.1.symm, h.2.2.symm⟩
    | some n => simp [searchLoop] at h
  | succ fuel ih =>
    intro c last cur c1 last1 next1 h
    cases cur with
    | none =>
      simp only [searchLoop, Option.some.injEq, Prod.mk.injEq] at h
      exact Or.inl ⟨h.2.1.symm, h.2.2.symm⟩
    | some n =>
      simp only [searchLoop] at h
      by_cases hc : cmp (mem n) (mem e) ≥ 0
      · simp only [if_pos hc, Option.some.injEq, Prod.mk.injEq] at h
        exact Or.inl ⟨h.2.1.symm, h.2.2.symm⟩
      · simp only [if_neg hc] at h
        rcases ih _ _ _ _ _ _ h with ⟨h1, h2⟩ | ⟨L, l, h1, h2, h3⟩
        · refine Or.inr ⟨[n], n, h1, List.mem_cons_self _ _, rfl, ?_⟩
          rw [h2]
          rfl
        · exact Or.inr ⟨n :: L, l, h1, List.mem_cons_of_mem _ h2, rfl, h3⟩

/-- The splitting loop, on any chain, cyclic or not: when it returns, the two lists built
hold entries of the class `P0` of the chain only, the first those whose key selects `i`
under the new mask and the second the others; chains of other classes are kept. -/
theorem splitLoop_allIn (mask i : Nat) (hsh : Nat → Nat) (P0 : Nat → Prop) :
    ∀ (fuel : Nat) (mem : Nat → wState) (l1 l2 cur : Option Nat) (mem1 : Nat → wState)
      (r1 r2 : Option Nat),
      splitLoop mask i fuel mem l1 l2 cur = some (mem1, r1, r2) →
      (∀ p, (mem p).hash = hsh p) →
      AllIn mem P0 cur →
      AllIn mem (fun p => P0 p ∧ hsh p &&& mask = i) l1 →
      AllIn mem (fun p => P0 p ∧ hsh p &&& mask ≠ i) l2 →
      AllIn mem1 (fun p => P0 p ∧ hsh p &&& mask = i) r1 ∧
      AllIn mem1 (fun p => P0 p ∧ hsh p &&& mask ≠ i) r2 ∧
      ∀ (Q : Nat → Prop) (h : Option Nat), (∀ p, Q p → ¬ P0 p) → AllIn mem Q h →
        AllIn mem1 Q h := by
  intro fuel
  induction fuel with
  | zero =>
    intro mem l1 l2 cur mem1 r1 r2 h hd hc h1 h2
    cases cur with
    | none =>
      simp only [splitLoop, Option.some.injEq, Prod.mk.injEq] at h
      obtain ⟨ha, hb, hc1⟩ := h
      subst ha; subst hb; subst hc1
      exact ⟨h1, h2, fun _ _ _ hq => hq⟩
    | some e => simp [splitLoop] at h
  | succ fuel ih =>
    intro mem l1 l2 cur mem1 r1 r2 h hd hc h1 h2
    cases cur with
    | none =>
      simp only [splitLoop, Option.some.injEq, Prod.mk.injEq] at h
      obtain ⟨ha, hb, hc1⟩ := h
      subst ha; subst hb; subst hc1
      exact ⟨h1, h2, fun _ _ _ hq => hq⟩
    | some e =>
      simp only [splitLoop] at h
      have hPe : P0 e := allIn_head hc
      by_cases hk : (mem e).hash &&& mask = i
      · simp only [if_pos hk] at h
        have hke : hsh e &&& mask = i := by rw [← hd e]; exact hk
        have hd1 : ∀ p, (setNext mem e l1 p).hash = hsh p :=
          fun p => (setNext_data mem e l1 p).1.trans (hd p)
        have hn : (setNext mem e l1 e).next = l1 := by simp [setNext]
        have hl1 : AllIn (setNext mem e l1) (fun p => P0 p ∧ hsh p &&& mask = i) l1 :=
          allIn_setNext e l1 (fun _ => h1) l1 h1
        obtain ⟨ha, hb, hq⟩ := ih _ _ _ _ _ _ _ h hd1
          (allIn_setNext e l1 (fun _ => allIn_mono (fun p hp => hp.1) h1) _ (allIn_tail hc))
          (allIn_cons ⟨hPe, hke⟩ (by rw [hn]; exact hl1))
          (allIn_setNext e l1 (fun hp => absurd hke hp.2) l2 h2)
        exact ⟨ha, hb, fun Q h0 hQ hq0 =>
          hq Q h0 hQ (allIn_setNext e l1 (fun hp => absurd hPe (hQ e hp)) h0 hq0)⟩
      · simp only [if_neg hk] at h
        have hke : hsh e &&& mask ≠ i := by rw [← hd e]; exact hk
        have hd1 : ∀ p, (setNext mem e l2 p).hash = hsh p :=
          fun p => (setNext_data mem e l2 p).1.trans (hd p)
        have hn : (setNext mem e l2 e).next = l2 := by simp [setNext]
        have hl2 : AllIn (setNext mem e l2) (fun p => P0 p ∧ hsh p &&& mask ≠ i) l2 :=
          allIn_setNext e l2 (fun _ => h2) l2 h2
        obtain ⟨ha, hb, hq⟩ := ih _ _ _ _ _ _ _ h hd1
          (allIn_setNext e l2 (fun _ => allIn_mono (fun p hp => hp.1) h2) _ (allIn_tail hc))
          (allIn_setNext e l2 (fun hp => absurd hp.2 hke) l1 h1)
          (allIn_cons ⟨hPe, hke⟩ (by rw [hn]; exact hl2))
        exact ⟨ha, hb, fun Q h0 hQ hq0 =>
          hq Q h0 hQ (allIn_setNext e l2 (fun hp => absurd hPe (hQ e hp)) h0 hq0)⟩

/-- The reversal loop, on any list, cyclic or not: when it returns, the list returned holds
entries of the class `P` of the list only; chains of other classes are kept. -/
theorem reverseLoop_allIn (P : Nat → Prop) :
    ∀ (fuel : Nat) (mem : Nat → wState) (cur prev : Option Nat) (mem1 : Nat → wState)
      (r : Option Nat),
      reverseLoop fuel mem cur prev = some (mem1, r) →
      AllIn mem P cur → AllIn mem P prev →
      AllIn mem1 P r ∧
      ∀ (Q : Nat → Prop) (h : Option Nat), (∀ p, Q p → ¬ P p) → AllIn mem Q h →
        AllIn mem1 Q h := by
  intro fuel
  induction fuel with
  | zero =>
    intro mem cur prev mem1 r h hc hp
    cases cur with
    | none =>
      simp only [reverseLoop, Option.some.injEq, Prod.mk.injEq] at h
      obtain ⟨ha, hb⟩ := h
      subst ha; subst hb
      exact ⟨hp, fun _ _ _ hq => hq⟩
    | some l => simp [reverseLoop] at h
  | succ fuel ih =>
    intro mem cur prev mem1 r h hc hp
    cases cur with
    | none =>
      simp only [reverseLoop, Option.some.injEq, Prod.mk.injEq] at h
      obtain ⟨ha, hb⟩ := h
      subst ha; subst hb
      exact ⟨hp, fun _ _ _ hq => hq⟩
    | some l =>
      simp only [reverseLoop] at h
      have hPl : P l := allIn_head hc
      have hn : (setNext mem l prev l).next = prev := by simp [setNext]
      have hprev : AllIn (setNext mem l prev) P prev :=
        allIn_setNext l prev (fun _ => hp) prev hp
      obtain ⟨ha, hq⟩ := ih _ _ _ _ _ h
        (allIn_setNext l prev (fun _ => hp) _ (allIn_tail hc))
        (allIn_cons hPl (by rw [hn]; exact hprev))
      exact ⟨ha, fun Q h0 hQ hq0 =>
        hq Q h0 hQ (allIn_setNext l prev (fun hp1 => absurd hPl (hQ l hp1)) h0 hq0)⟩

theorem mod_half (x n j : Nat) (h : x % (n * 2) = j) : x % n = j % n := by
  rw [← h]
  exact (Nat.mod_mod_of_dvd x (Dvd.intro 2 rfl)).symm

/-- One iteration of the `for` loop of a grow, on any chain: bucket `i` and bucket `i + n`
receive entries whose key selects them under the new mask. -/
theorem splitBucket_allIn (fuel mask n i : Nat) (hsh : Nat → Nat) (hn : 0 < n)
    (hmask : ∀ x, x &&& mask = x % (n * 2))
    (mem : Nat → wState) (buckets : Nat → Option Nat) (mem3 : Nat → wState)
    (b3 : Nat → Option Nat)
    (h : splitBucket fuel mask n i mem buckets = some (mem3, b3))
    (hd : ∀ p, (mem p).hash = hsh p)
    (hc : AllIn mem (fun p => hsh p % n = i) (buckets i)) :
    AllIn mem3 (fun p => hsh p % (n * 2) = i) (b3 i) ∧
    AllIn mem3 (fun p => hsh p % (n * 2) = i + n) (b3 (i + n)) ∧
    (∀ j, j ≠ i → j ≠ i + n → b3 j = buckets j) ∧
    ∀ (Q : Nat → Prop) (h0 : Option Nat), (∀ p, Q p → ¬ hsh p % n = i) → AllIn mem Q h0 →
      AllIn mem3 Q h0 := by
  obtain ⟨mem1, l1, l2, mem2, r1, r2, hs1, hs2, hs3, hb⟩ :=
    splitBucket_parts _ _ _ _ _ _ _ _ h
  obtain ⟨a1, a2, aq⟩ := splitLoop_allIn mask i hsh (fun p => hsh p % n = i) fuel mem none none
    (buckets i) mem1 l1 l2 hs1 hd hc (allIn_none _ _) (allIn_none _ _)
  obtain ⟨b1, bq⟩ := reverseLoop_allIn _ fuel mem1 l1 none mem2 r1 hs2 a1 (allIn_none _ _)
  have a2b : AllIn mem2 (fun p => hsh p % n = i ∧ hsh p &&& mask ≠ i) l2 :=
    bq _ l2 (fun p hp hp1 => hp.2 hp1.2) a2
  obtain ⟨c2, cq⟩ := reverseLoop_allIn _ fuel mem2 l2 none mem3 r2 hs3 a2b (allIn_none _ _)
  have c1 : AllIn mem3 (fun p => hsh p % n = i ∧ hsh p &&& mask = i) r1 :=
    cq _ r1 (fun p hp hp1 => hp1.2 hp.2) b1
  have e1 : b3 i = r1 := by
    rw [hb]
    have hne : i ≠ i + n := by omega
    simp [setAt, hne]
  have e2 : b3 (i + n) = r2 := by
    rw [hb]
    simp [setAt]
  refine ⟨?_, ?_, ?_, ?_⟩
  · rw [e1]
    exact allIn_mono (fun p hp => by rw [← hmask]; exact hp.2) c1
  · rw [e2]
    refine allIn_mono (fun p hp => ?_) c2
    have hne : hsh p % (n * 2) ≠ i := by rw [← hmask]; exact hp.2
    rcases mod_double (hsh p) n with h1 | h1
    · exact absurd (h1.trans hp.1) hne
    · rw [h1, hp.1]
  · intro j hj1 hj2
    rw [hb]
    simp only [setAt]
    rw [if_neg hj2, if_neg hj1]
  · intro Q h0 hQ hq
    exact cq Q h0 (fun p hp hp1 => hQ p hp hp1.1)
      (bq Q h0 (fun p hp hp1 => hQ p hp hp1.1) (aq Q h0 hQ hq))

/-- The `for` loop of a grow, on any chains: when it returns, every entry on the chain of
a bucket has a key that selects the bucket under the new mask. -/
theorem splitBuckets_allIn (fuel mask n : Nat) (hsh : Nat → Nat) (hn : 0 < n)
    (hmask : ∀ x, x &&& mask = x % (n * 2)) :
    ∀ (k i : Nat) (mem : Nat → wState) (buckets : Nat → Option Nat) (mem2 : Nat → wState)
      (b2 : Nat → Option Nat), i + k = n →
      splitBuckets fuel mask n k i mem buckets = some (mem2, b2) →
      (∀ p, (mem p).hash = hsh p) →
      (∀ j, j < i → AllIn mem (fun p => hsh p % (n * 2) = j) (buckets j) ∧
        AllIn mem (fun p => hsh p % (n * 2) = j + n) (buckets (j + n))) →
      (∀ j, i ≤ j → j < n → AllIn mem (fun p => hsh p % n = j) (buckets j)) →
      ∀ j, j < n → AllIn mem2 (fun p => hsh p % (n * 2) = j) (b2 j) ∧
        AllIn mem2 (fun p => hsh p % (n * 2) = j + n) (b2 (j + n)) := by
  intro k
  induction k with
  | zero =>
    intro i mem buckets mem2 b2 hik h hd hlo hhi j hj
    simp only [splitBuckets, Option.some.injEq, Prod.mk.injEq] at h
    rw [← h.1, ← h.2]
    exact hlo j (by omega)
  | succ k ih =>
    intro i mem buckets mem2 b2 hik h hd hlo hhi
    obtain ⟨mem1, b1, h1, h2⟩ := splitBuckets_succ _ _ _ _ _ _ _ _ _ h
    have hi : i < n := by omega
    obtain ⟨a1, a2, asame, aq⟩ := splitBucket_allIn fuel mask n i hsh hn hmask mem buckets
      mem1 b1 h1 hd (hhi i (Nat.le_refl _) hi)
    have hd1 : ∀ p, (mem1 p).hash = hsh p :=
      fun p => (splitBucket_data _ _ _ _ _ _ _ _ h1 p).1.trans (hd p)
    refine ih (i + 1) mem1 b1 mem2 b2 (by omega) h2 hd1 ?_ ?_
    · intro j hj
      by_cases hji : j = i
      · rw [hji]
        exact ⟨a1, a2⟩
      · have hjlt : j < i := by omega
        rw [asame j hji (by omega), asame (j + n) (by omega) (by omega)]
        refine ⟨aq _ _ (fun p hp hp1 => ?_) (hlo j hjlt).1,
          aq _ _ (fun p hp hp1 => ?_) (hlo j hjlt).2⟩
        · have := mod_half _ _ _ hp
          rw [hp1, Nat.mod_eq_of_lt (by omega : j < n)] at this
          exact hji this.symm
        · have := mod_half _ _ _ hp
          rw [hp1, Nat.add_mod_right, Nat.mod_eq_of_lt (by omega : j < n)] at this
          exact hji this.symm
    · intro j hij hj
      rw [asame j (by omega) (by omega)]
      exact aq _ _ (fun p hp hp1 => by omega) (hhi j (by omega) hj)

/-- A returning grow, on any chains, turns chains that match the old bucket count into
chains that match the new one. -/
theorem growTable_keys (hsh : Nat → Nat) (fuel : Nat) (s s1 : Store)
    (h : growTable fuel s = some s1) (hpos : 0 < s.table.num_buckets)
    (hland : ∀ x, x &&& (s.table.num_buckets * 2 - 1) = x % (s.table.num_buckets * 2))
    (hd : ∀ p, (s.mem p).hash = hsh p) (hk : KeyInv hsh s) : KeyInv hsh s1 := by
  obtain ⟨hsb, htab⟩ := growTable_parts fuel s s1 h
  have hall := splitBuckets_allIn fuel _ s.table.num_buckets hsh hpos hland
    s.table.num_buckets 0 s.mem s.table.buckets s1.mem s1.table.buckets (by omega) hsb hd
    (fun j hj => absurd hj (Nat.not_lt_zero _)) (fun j _ hj => hk j hj)
  have hnb : s1.table.num_buckets = s.table.num_buckets * 2 := by rw [htab]
  intro i hi
  rw [hnb] at hi ⊢
  by_cases hlt : i < s.table.num_buckets
  · exact (hall i hlt).1
  · have h2 := (hall (i - s.table.num_buckets) (by omega)).2
    rw [Nat.sub_add_cancel (by omega)] at h2
    exact h2

/-- The linking keeps the chains matched to their buckets, when the place found lies on
the chain of the bucket of the entry. -/
theorem linkEntry_keys (hsh : Nat → Nat) (s : Store) (e : Nat) (last next : Option Nat)
    (hd : ∀ p, (s.mem p).hash = hsh p)
    (hland : ∀ x, x &&& s.table.mask = x % s.table.num_buckets)
    (hpos : 0 < s.table.num_buckets) (hk : KeyInv hsh s)
    (hnext : AllIn s.mem (fun p => hsh p % s.table.num_buckets = hsh e % s.table.num_buckets)
      next)
    (hlast : ∀ l, last = some l → hsh l % s.table.num_buckets = hsh e % s.table.num_buckets) :
    KeyInv hsh (linkEntry s e last next) := by
  have hidx : (s.mem e).hash &&& s.table.mask = hsh e % s.table.num_buckets := by
    rw [hland, hd e]
  have hilt : hsh e % s.table.num_buckets < s.table.num_buckets := Nat.mod_lt _ hpos
  have hwork : ∀ (m : Nat → wState) (w : Option Nat) (p : Nat),
      (setWork m e w p).next = (m p).next := by
    intro m w p
    simp only [setWork]
    split <;> rfl
  cases last with
  | none =>
    intro j hj
    show AllIn (setWork (setNext s.mem e (s.table.buckets ((s.mem e).hash &&& s.table.mask))) e
        s.table.worklist) (fun p => hsh p % s.table.num_buckets = j)
      (setAt s.table.buckets ((s.mem e).hash &&& s.table.mask) (some e) j)
    rw [hidx]
    refine allIn_congr (hwork _ _) ?_
    have hj' : j < s.table.num_buckets := hj
    by_cases hji : j = hsh e % s.table.num_buckets
    · have hb : setAt s.table.buckets (hsh e % s.table.num_buckets) (some e) j = some e := by
        simp [setAt, hji]
      rw [hb]
      have hbi := hk j hj'
      rw [hji] at hbi ⊢
      have hn : (setNext s.mem e (s.table.buckets (hsh e % s.table.num_buckets)) e).next =
          s.table.buckets (hsh e % s.table.num_buckets) := by simp [setNext]
      refine allIn_cons rfl ?_
      rw [hn]
      exact allIn_setNext e _ (fun _ => hbi) _ hbi
    · have hb : setAt s.table.buckets (hsh e % s.table.num_buckets) (some e) j =
          s.table.buckets j := by simp [setAt, hji]
      rw [hb]
      exact allIn_setNext e _ (fun hp => absurd hp.symm hji) _ (hk j hj')
  | some l =>
    intro j hj
    show AllIn (setWork (setNext (setNext s.mem e next) l (some e)) e s.table.worklist)
      (fun p => hsh p % s.table.num_buckets = j) (s.table.buckets j)
    refine allIn_congr (hwork _ _) ?_
    have hj' : j < s.table.num_buckets := hj
    have hl := hlast l rfl
    by_cases hji : j = hsh e % s.table.num_buckets
    · have hbi := hk j hj'
      rw [hji] at hbi ⊢
      have h1 : ∀ h0, AllIn s.mem
          (fun p => hsh p % s.table.num_buckets = hsh e % s.table.num_buckets) h0 →
          AllIn (setNext s.mem e next)
            (fun p => hsh p % s.table.num_buckets = hsh e % s.table.num_buckets) h0 :=
        fun h0 hh => allIn_setNext e next (fun _ => hnext) h0 hh
      have hn : (setNext s.mem e next e).next = next := by simp [setNext]
      refine allIn_setNext l (some e) (fun _ => ?_) _ (h1 _ hbi)
      refine allIn_cons rfl ?_
      rw [hn]
      exact h1 _ hnext
    · refine allIn_setNext l (some e) (fun hp => absurd (hp.symm.trans hl) hji) _ ?_
      exact allIn_setNext e next (fun hp => absurd hp.symm hji) _ (hk j hj')


theorem keyInv_congr (hsh : Nat → Nat) (s s1 : Store) (hm : s1.mem = s.mem)
    (hb : s1.table.buckets = s.table.buckets)
    (hn : s1.table.num_buckets = s.table.num_buckets) (hk : KeyInv hsh s) : KeyInv hsh s1 := by
  intro i hi
  rw [hm, hb, hn]
  rw [hn] at hi
  exact hk i hi

/-- A search of the bucket of `e` followed by the linking of `e` at the place found keeps
the chains matched to their buckets, whatever the comparator. -/
theorem search_link_keys (hsh : Nat → Nat) (cmp : wState → wState → Int) (s : Store)
    (e fuel : Nat) (c c1 : Int) (last next : Option Nat)
    (hsize : ∃ g, s.table.num_buckets = WHASH_MIN * 2 ^ g)
    (hmask : s.table.mask = s.table.num_buckets - 1)
    (hd : ∀ p, (s.mem p).hash = hsh p) (hk : KeyInv hsh s)
    (h : searchLoop cmp s.mem e fuel c none
      (s.table.buckets ((s.mem e).hash &&& s.table.mask)) = some (c1, last, next)) :
    KeyInv hsh (linkEntry s e last next) := by
  obtain ⟨g, hg⟩ := hsize
  have hland : ∀ x, x &&& s.table.mask = x % s.table.num_buckets := by
    intro x
    rw [hmask, hg]
    exact land_mask x g
  have hpos : 0 < s.table.num_buckets := by
    rw [hg]
    exact Nat.mul_pos (by decide) (Nat.pos_pow_of_pos _ (by decide))
  have hidx : (s.mem e).hash &&& s.table.mask = hsh e % s.table.num_buckets := by
    rw [hland, hd e]
  rw [hidx] at h
  obtain ⟨h1, h2⟩ := searchLoop_allIn cmp s.mem e
    (fun p => hsh p % s.table.num_buckets = hsh e % s.table.num_buckets) fuel c none _ c1 last
    next h (hk _ (Nat.mod_lt _ hpos)) (fun l hl => by cases hl)
  exact linkEntry_keys hsh s e last next hd hland hpos hk h1 h2

/-- The first of `e` and `l` on a segment through `l`, with the segment up to it, which no
assignment to `e->next` or `l->next` changes. -/
theorem IsSeg.first_of {mem mem1 : Nat → wState} (e l : Nat)
    (hm : ∀ p, p ≠ e → p ≠ l → (mem1 p).next = (mem p).next) :
    ∀ (L : List Nat) (h t : Option Nat), IsSeg mem h L t → l ∈ L →
      ∃ L1 x, (x = e ∨ x = l) ∧ IsSeg mem1 h (L1 ++ [x]) (mem1 x).next := by
  intro L
  induction L with
  | nil => intro h t _ hl; cases hl
  | cons a L ih =>
    intro h t hs hl
    by_cases hae : a = e
    · exact ⟨[], a, Or.inl hae, hs.1, rfl⟩
    · by_cases hal : a = l
      · exact ⟨[], a, Or.inr hal, hs.1, rfl⟩
      · have hl1 : l ∈ L := by
          rcases List.mem_cons.mp hl with h1 | h1
          · exact absurd h1.symm hal
          · exact h1
        obtain ⟨L1, x, hx, hseg⟩ := ih _ t hs.2 hl1
        refine ⟨a :: L1, x, hx, hs.1, ?_⟩
        rw [hm a hae hal]
        exact hseg

/-- A search of the bucket of `e` followed by the linking of `e` at the place found leaves
`e` on the chain of that bucket, whatever the comparator. -/
theorem search_link_reach (cmp : wState → wState → Int) (s : Store)
    (e fuel : Nat) (c c1 : Int) (last next : Option Nat)
    (h : searchLoop cmp s.mem e fuel c none
      (s.table.buckets ((s.mem e).hash &&& s.table.mask)) = some (c1, last, next)) :
    ∃ L t, IsSeg (linkEntry s e last next).mem
      ((linkEntry s e last next).table.buckets ((s.mem e).hash &&& s.table.mask)) L t ∧
      e ∈ L := by
  cases last with
  | none =>
    refine ⟨[e], _, ⟨?_, rfl⟩, List.mem_cons_self _ _⟩
    show setAt s.table.buckets ((s.mem e).hash &&& s.table.mask) (some e)
      ((s.mem e).hash &&& s.table.mask) = some e
    simp [setAt]
  | some l =>
    rcases searchLoop_reach cmp s.mem e fuel c none _ c1 (some l) next h with
      ⟨h1, _⟩ | ⟨L, l1, h1, h2, h3⟩
    · cases h1
    · have hl : l1 = l := (Option.some.inj h1).symm
      rw [hl] at h2
      have hmem : (linkEntry s e (some l) next).mem =
          setWork (setNext (setNext s.mem e next) l (some e)) e s.table.worklist := rfl
      have hbk : (linkEntry s e (some l) next).table.buckets = s.table.buckets := rfl
      rw [hmem, hbk]
      have hm : ∀ p, p ≠ e → p ≠ l →
          (setWork (setNext (setNext s.mem e next) l (some e)) e s.table.worklist p).next =
            (s.mem p).next := by
        intro p hpe hpl
        simp [setWork, setNext, hpe, hpl]
      have hln : (setWork (setNext (setNext s.mem e next) l (some e)) e
          s.table.worklist l).next = some e := by
        simp only [setWork, setNext]
        split <;> simp
      obtain ⟨L1, x, hx, hseg⟩ := IsSeg.first_of e l hm L _ next h3 h2
      rcases hx with hx | hx
      · exact ⟨L1 ++ [x], _, hseg, by rw [hx]; simp⟩
      · rw [hx, hln] at hseg
        exact ⟨(L1 ++ [l]) ++ [e], _, IsSeg.append hseg ⟨rfl, rfl⟩, by simp⟩

/-- The chains stay matched to their buckets in every returning call, whatever the
comparator. -/
theorem step_keys (hsh : Nat → Nat) (fuel : Nat) (s : Store) (op : Op) (s1 : Store)
    (r : Option Nat)
    (hP : ((∃ g, s.table.num_buckets = WHASH_MIN * 2 ^ g) ∧
      s.table.mask = s.table.num_buckets - 1 ∧
      4 * s.table.num_entries ≤ 3 * s.table.num_buckets) ∧
      (∀ p, (s.mem p).hash = hsh p) ∧ KeyInv hsh s)
    (h : step fuel s op = some (s1, r)) :
    ((∃ g, s1.table.num_buckets = WHASH_MIN * 2 ^ g) ∧
      s1.table.mask = s1.table.num_buckets - 1 ∧
      4 * s1.table.num_entries ≤ 3 * s1.table.num_buckets) ∧
      (∀ p, (s1.mem p).hash = hsh p) ∧ KeyInv hsh s1 := by
  obtain ⟨hsh3, hd, hk⟩ := hP
  refine ⟨step_shape fuel s op s1 r hsh3 h, fun p => (step_data fuel s op s1 r h p).1.trans (hd p),
    ?_⟩
  cases op with
  | pop =>
    simp only [step, Option.some.injEq] at h
    have hp := wHashPop_tbl s
    rw [h] at hp
    exact keyInv_congr hsh s s1 hp.2.2.2.2.2 hp.2.2.2.1 hp.1 hk
  | find e =>
    rw [(step_find fuel s e s1 r h).1]
    exact hk
  | insert e =>
    have hins : wHashInsert fuel s e = some (s1, r) := h
    obtain ⟨c, last, next, hs, hcase⟩ := wHashInsert_parts fuel s e s1 r hins
    rcases hcase with ⟨_, h1, _⟩ | ⟨_, _, _, s2, c2, last2, next2, hgr, hs2, hs1⟩ |
      ⟨_, _, _, hs1⟩
    · rw [h1]
      exact hk
    · obtain ⟨g, hg⟩ := hsh3.1
      have hpos : 0 < s.table.num_buckets := by
        rw [hg]
        exact Nat.mul_pos (by decide) (Nat.pos_pow_of_pos _ (by decide))
      have hland : ∀ x, x &&& (s.table.num_buckets * 2 - 1) = x % (s.table.num_buckets * 2) := by
        intro x
        have h2 : s.table.num_buckets * 2 = WHASH_MIN * 2 ^ (g + 1) := by
          rw [hg, Nat.pow_succ, Nat.mul_assoc]
        rw [h2]
        exact land_mask x (g + 1)
      obtain ⟨hsb, htab⟩ := growTable_parts fuel _ s2 hgr
      have hk2 : KeyInv hsh s2 := growTable_keys hsh fuel _ s2 hgr hpos hland hd hk
      have hd2 : ∀ p, (s2.mem p).hash = hsh p :=
        fun p => (splitBuckets_data _ _ _ _ _ _ _ _ _ hsb p).1.trans (hd p)
      have hsz2 : ∃ g2, s2.table.num_buckets = WHASH_MIN * 2 ^ g2 := by
        refine ⟨g + 1, ?_⟩
        rw [htab]
        show s.table.num_buckets * 2 = _
        rw [hg, Nat.pow_succ, Nat.mul_assoc]
      have hm2 : s2.table.mask = s2.table.num_buckets - 1 := by rw [htab]
      rw [hs1]
      exact search_link_keys hsh _ s2 e fuel c c2 last2 next2 hsz2 hm2 hd2 hk2 hs2
    · rw [hs1]
      exact search_link_keys hsh s.table.cmp
        { s with table := { s.table with num_entries := s.table.num_entries + 1 } }
        e fuel 1 c last next hsh3.1 hsh3.2.1 hd hk hs

/-- An admitting insert leaves its entry on the chain of the bucket that the key of the
entry selects under the mask of the table after the call, whatever the comparator. -/
theorem wHashInsert_reach (fuel : Nat) (s : Store) (e : Nat) (s1 : Store) (r : Option Nat)
    (h : wHashInsert fuel s e = some (s1, r))
    (hne : s1.table.num_entries = s.table.num_entries + 1) :
    ∃ L t, IsSeg s1.mem (s1.table.buckets ((s1.mem e).hash &&& s1.table.mask)) L t ∧
      e ∈ L := by
  obtain ⟨c, last, next, hs, hcase⟩ := wHashInsert_parts fuel s e s1 r h
  rcases hcase with ⟨_, h1, _⟩ | ⟨_, _, _, s2, c2, last2, next2, hgr, hs2, hs1⟩ |
    ⟨_, _, _, hs1⟩
  · rw [h1] at hne
    omega
  · have hr := search_link_reach _ s2 e fuel c c2 last2 next2 hs2
    rw [hs1, (linkEntry_data s2 e last2 next2 e).1, (linkEntry_table s2 e last2 next2).2.2.2.1]
    exact hr
  · have hr := search_link_reach s.table.cmp
      { s with table := { s.table with num_entries := s.table.num_entries + 1 } }
      e fuel 1 c last next hs
    rw [hs1, (linkEntry_data _ e last next e).1, (linkEntry_table _ e last next).2.2.2.1]
    exact hr

/-! ## The claims -/

/-- C1 (idempotent insertion). With a comparator that is a total order whose equality
implies equal keys, any sequence of `wHashInsert` calls on a fresh table terminates; the
call for candidate `c` returns the first candidate of the sequence that compares equal to
`c` (the entry returned when that class was first admitted), and the final `num_entries`
is the number of equivalence classes among the candidates: the length of `classReps`,
which picks pairwise non-equal candidates, one equal to each candidate. -/
theorem insert_sequence_classes (cmp : wState → wState → Int) (mem : Nat → wState)
    (hc : CmpOK cmp mem) (cs : List Nat) (fuel : Nat) (hf : cs.length ≤ fuel) :
    ∃ s, run fuel ⟨mem, wHashCreate cmp⟩ (cs.map Op.insert)
        = some (s, cs.map (fun c => cs.find? (fun q => decide (cmp (mem q) (mem c) = 0)))) ∧
      s.table.num_entries = (classReps cmp mem cs).length ∧
      (classReps cmp mem cs).Sublist cs ∧
      (classReps cmp mem cs).Pairwise (fun a b => cmp (mem a) (mem b) ≠ 0) ∧
      ∀ c ∈ cs, ∃ r ∈ classReps cmp mem cs, cmp (mem r) (mem c) = 0 := by
  obtain ⟨s, rs, hrun, hrs, hi, _, _, hF⟩ := run_create hc (cs.map Op.insert) fuel
    (by simpa using hf)
  rw [insertsOf_map_insert] at hi hF
  refine ⟨s, ?_, ?_, firstsFrom_sublist cmp mem cs [], ?_, ?_⟩
  · rw [hrun, hrs]
    congr 2
    apply List.ext_getElem?
    intro k
    rw [List.getElem?_map]
    cases hk : cs[k]? with
    | none =>
      rw [List.getElem?_eq_none_iff] at hk
      show _ = none
      rw [List.getElem?_eq_none_iff, absRun_length, List.length_map]
      exact hk
    | some c =>
      have hop : (cs.map Op.insert)[k]? = some (Op.insert c) := by
        rw [List.getElem?_map, hk]; rfl
      have := absRun_insert_result hc (cs.map Op.insert) [] [] [] k c (fun _ => rfl) hop
      rw [this, insertsOf_map_insert]
      rfl
  · rw [hi.count, List.length_reverse]
  · have hd := List.pairwise_reverse.mp hi.wf.distinct
    exact List.Pairwise.imp (fun {a b} (h : cmp (mem b) (mem a) ≠ 0) h2 => h (hc.symm h2)) hd
  · intro c hcm
    cases hq : cs.find? (fun r => decide (cmp (mem r) (mem c) = 0)) with
    | none =>
      have := List.find?_eq_none.mp hq c hcm
      simp [hc.refl c] at this
    | some r =>
      have hr := hF c
      rw [hq] at hr
      exact ⟨r, List.mem_reverse.mp (List.mem_of_find?_eq_some hr),
        by simpa using List.find?_some hr⟩

/-- An instance of C1: five inserts with two repeated classes. -/
theorem insert_sequence_classes_witness :
    CmpOK payloadCmp scenarioMem ∧ [1, 2, 3, 4, 2].length ≤ 5 ∧
    ∃ s, run 5 ⟨scenarioMem, wHashCreate payloadCmp⟩ ([1, 2, 3, 4, 2].map Op.insert)
        = some (s, [1, 2, 3, 4, 2].map (fun c =>
            [1, 2, 3, 4, 2].find? (fun q => decide (payloadCmp (scenarioMem q) (scenarioMem c) = 0)))) ∧
      s.table.num_entries = (classReps payloadCmp scenarioMem [1, 2, 3, 4, 2]).length ∧
      (classReps payloadCmp scenarioMem [1, 2, 3, 4, 2]).Sublist [1, 2, 3, 4, 2] ∧
      (classReps payloadCmp scenarioMem [1, 2, 3, 4, 2]).Pairwise
        (fun a b => payloadCmp (scenarioMem a) (scenarioMem b) ≠ 0) ∧
      ∀ c ∈ [1, 2, 3, 4, 2], ∃ r ∈ classReps payloadCmp scenarioMem [1, 2, 3, 4, 2],
        payloadCmp (scenarioMem r) (scenarioMem c) = 0 :=
  ⟨scenarioMem_ok, by decide,
    insert_sequence_classes payloadCmp scenarioMem scenarioMem_ok [1, 2, 3, 4, 2] 5 (by decide)⟩

/-- C2 (find consistency). After any sequence of insert, find and pop calls on a fresh
table, `wHashFind` of a candidate `e` returns `NULL` when no admitted entry compares equal
to `e`, and for every earlier call `wHashInsert(e)` it returns exactly the entry that call
returned, whatever inserts, grows and pops came after it. -/
theorem find_after_insert (cmp : wState → wState → Int) (mem : Nat → wState)
    (hc : CmpOK cmp mem) (ops : List Op) (e fuel : Nat) (hf : ops.length ≤ fuel) :
    ∃ (s : Store) (rs : List (Option Nat)),
      run fuel ⟨mem, wHashCreate cmp⟩ ops = some (s, rs) ∧
      ((∀ q ∈ classReps cmp mem (insertsOf ops), cmp (mem q) (mem e) ≠ 0) →
        wHashFind fuel s e = some none) ∧
      (∀ k : Nat, ops[k]? = some (Op.insert e) →
        ∃ r, rs[k]? = some (some r) ∧ wHashFind fuel s e = some (some r)) := by
  obtain ⟨s, rs, hrun, hrs, hi, _, _, hF⟩ := run_create hc ops fuel hf
  have hlen : (classReps cmp mem (insertsOf ops)).reverse.length ≤ fuel := by
    rw [← hi.count]
    have := hi.count
    rw [List.length_reverse] at this
    rw [this]
    exact ((firstsFrom_length_le cmp mem _ []).trans (insertsOf_length_le ops)).trans hf
  have hfind := hi.wf.find hc e fuel hlen
  refine ⟨s, rs, hrun, ?_, ?_⟩
  · intro hnone
    rw [hfind, Wf.find?_none e (fun q hq => hnone q (List.mem_reverse.mp hq))]
  · intro k hk
    have hres := absRun_insert_result hc ops [] [] [] k e (fun _ => rfl) hk
    rw [List.nil_append] at hres
    have hmem : e ∈ insertsOf ops := mem_insertsOf ops k e hk
    cases hq : (insertsOf ops).find? (fun r => decide (cmp (mem r) (mem e) = 0)) with
    | none =>
      have := List.find?_eq_none.mp hq e hmem
      simp [hc.refl e] at this
    | some q =>
      refine ⟨q, by rw [hrs, hres, hq], ?_⟩
      rw [hfind, hF e, hq]

/-- An instance of C2: the find of entry 1 after its insert, with a pop in between. -/
theorem find_after_insert_witness :
    CmpOK payloadCmp scenarioMem ∧ [Op.insert 2, Op.insert 4, Op.pop, Op.insert 1].length ≤ 4 ∧
    ∃ (s : Store) (rs : List (Option Nat)), run 4 ⟨scenarioMem, wHashCreate payloadCmp⟩
        [Op.insert 2, Op.insert 4, Op.pop, Op.insert 1] = some (s, rs) ∧
      ((∀ q ∈ classReps payloadCmp scenarioMem
          (insertsOf [Op.insert 2, Op.insert 4, Op.pop, Op.insert 1]),
          payloadCmp (scenarioMem q) (scenarioMem 1) ≠ 0) →
        wHashFind 4 s 1 = some none) ∧
      (∀ k : Nat, [Op.insert 2, Op.insert 4, Op.pop, Op.insert 1][k]? = some (Op.insert 1) →
        ∃ r, rs[k]? = some (some r) ∧ wHashFind 4 s 1 = some (some r)) :=
  ⟨scenarioMem_ok, by decide,
    find_after_insert payloadCmp scenarioMem scenarioMem_ok
      [Op.insert 2, Op.insert 4, Op.pop, Op.insert 1] 1 4 (by decide)⟩

/-- C3 (frontier completeness and order). After any sequence of `wHashInsert` calls on a
fresh table, popping until `wHashPop` returns `NULL` terminates and yields exactly the
admitted entries, each once, the most recently admitted first, whatever grows happened. -/
theorem pop_all_reverse_admission (cmp : wState → wState → Int) (mem : Nat → wState)
    (hc : CmpOK cmp mem) (cs : List Nat) (fuel : Nat) (hf : cs.length ≤ fuel) :
    ∃ s rs s1, run fuel ⟨mem, wHashCreate cmp⟩ (cs.map Op.insert) = some (s, rs) ∧
      popAll fuel s = some (s1, (classReps cmp mem cs).reverse) ∧
      (classReps cmp mem cs).Nodup := by
  obtain ⟨s, rs, hrun, _, hi, _, _, _⟩ := run_create hc (cs.map Op.insert) fuel
    (by simpa using hf)
  rw [insertsOf_map_insert, poppedOf_map_insert] at hi
  have hW : (classReps cmp mem cs).reverse.filter (fun p => decide (p ∉ ([] : List Nat)))
      = (classReps cmp mem cs).reverse := by simp
  rw [hW] at hi
  obtain ⟨s1, hpop, _⟩ := popAll_spec _ fuel s _ hi
    (by rw [List.length_reverse]; exact (firstsFrom_length_le cmp mem cs []).trans hf)
  refine ⟨s, rs, s1, hrun, hpop, ?_⟩
  have hnd : (classReps cmp mem cs).reverse.Nodup :=
    List.Pairwise.imp (fun {a b} (h : cmp (mem a) (mem b) ≠ 0) (hab : a = b) =>
      h (hab ▸ hc.refl a)) hi.wf.distinct
  exact List.nodup_reverse.mp hnd

/-- An instance of C3: four inserts, one of them a duplicate. -/
theorem pop_all_reverse_admission_witness :
    CmpOK payloadCmp scenarioMem ∧ [1, 2, 4, 3].length ≤ 4 ∧
    ∃ s rs s1, run 4 ⟨scenarioMem, wHashCreate payloadCmp⟩ ([1, 2, 4, 3].map Op.insert)
        = some (s, rs) ∧
      popAll 4 s = some (s1, (classReps payloadCmp scenarioMem [1, 2, 4, 3]).reverse) ∧
      (classReps payloadCmp scenarioMem [1, 2, 4, 3]).Nodup :=
  ⟨scenarioMem_ok, by decide,
    pop_all_reverse_admission payloadCmp scenarioMem scenarioMem_ok [1, 2, 4, 3] 4 (by decide)⟩

/-- C4 (capacity growth), amended. Starting from a fresh table, admitting pairwise
non-equal entries leaves `num_buckets = 1024` up to and including the 768th entry, the
769th triggers the first grow (2048 buckets, up to the 1536th entry) and the 1537th the
second (4096 buckets). -/
theorem grow_thresholds (cmp : wState → wState → Int) (mem : Nat → wState)
    (hc : CmpOK cmp mem) (cs : List Nat)
    (hd : cs.Pairwise (fun a b => cmp (mem a) (mem b) ≠ 0)) (fuel : Nat)
    (hf : cs.length ≤ fuel) :
    ∃ s rs, run fuel ⟨mem, wHashCreate cmp⟩ (cs.map Op.insert) = some (s, rs) ∧
      s.table.num_entries = cs.length ∧
      (cs.length ≤ 768 → s.table.num_buckets = 1024) ∧
      (769 ≤ cs.length → cs.length ≤ 1536 → s.table.num_buckets = 2048) ∧
      (1537 ≤ cs.length → cs.length ≤ 3072 → s.table.num_buckets = 4096) := by
  obtain ⟨s, rs, hrun, hi⟩ := run_inserts_distinct hc cs hd fuel hf
  have hb := hi.buckets_of_count
  rw [List.length_reverse] at hb
  exact ⟨s, rs, hrun, by rw [hi.count, List.length_reverse], hb⟩

/-- An instance of C4 (amended): 769 entries, one grow. -/
theorem grow_thresholds_witness :
    CmpOK payloadCmp distinctMem ∧
    (List.range 769).Pairwise (fun a b => payloadCmp (distinctMem a) (distinctMem b) ≠ 0) ∧
    (List.range 769).length ≤ 769 ∧
    ∃ s rs, run 769 ⟨distinctMem, wHashCreate payloadCmp⟩ ((List.range 769).map Op.insert)
        = some (s, rs) ∧
      s.table.num_entries = (List.range 769).length ∧
      ((List.range 769).length ≤ 768 → s.table.num_buckets = 1024) ∧
      (769 ≤ (List.range 769).length → (List.range 769).length ≤ 1536 →
        s.table.num_buckets = 2048) ∧
      (1537 ≤ (List.range 769).length → (List.range 769).length ≤ 3072 →
        s.table.num_buckets = 4096) :=
  ⟨distinctMem_ok, range_distinct 769, by simp,
    grow_thresholds payloadCmp distinctMem distinctMem_ok (List.range 769) (range_distinct 769)
      769 (by simp)⟩

/-- C4 as stated fails: after 768 pairwise non-equal entries are inserted into a fresh
table no grow has happened (`num_buckets` is 1024, not 2048), and after 1536 entries
`num_buckets` is 2048, not 4096. -/
theorem grow_after_768_counterexample :
    (∃ s rs, run 768 ⟨distinctMem, wHashCreate payloadCmp⟩ ((List.range 768).map Op.insert)
        = some (s, rs) ∧ s.table.num_entries = 768 ∧ s.table.num_buckets = 1024) ∧
    (∃ s rs, run 1536 ⟨distinctMem, wHashCreate payloadCmp⟩ ((List.range 1536).map Op.insert)
        = some (s, rs) ∧ s.table.num_entries = 1536 ∧ s.table.num_buckets = 2048) := by
  constructor
  · obtain ⟨s, rs, hrun, hi⟩ := run_inserts_distinct distinctMem_ok (List.range 768)
      (range_distinct 768) 768 (by simp)
    have hb := hi.buckets_of_count
    have hn := hi.count
    simp only [List.length_reverse, List.length_range] at hb hn
    exact ⟨s, rs, hrun, hn, hb.1 (by decide)⟩
  · obtain ⟨s, rs, hrun, hi⟩ := run_inserts_distinct distinctMem_ok (List.range 1536)
      (range_distinct 1536) 1536 (by simp)
    have hb := hi.buckets_of_count
    have hn := hi.count
    simp only [List.length_reverse, List.length_range] at hb hn
    exact ⟨s, rs, hrun, hn, hb.2.1 (by decide) (by decide)⟩

/-- C5 (end-to-end scenario). With the comparator ordering by payload, after inserting
three entries with keys 5, 1029 and 2053 and pairwise distinct payloads into a fresh
table, `wHashFind` of a fourth entry with key 5 and the payload of the first returns the
first entry, three pops return the third, the second and the first entry, and a fourth
pop returns `NULL`. -/
theorem scenario_three_entries (mem : Nat → wState) (p1 p2 p3 p4 : Nat)
    (hc : CmpOK payloadCmp mem)
    (_h1 : (mem p1).hash = 5) (_h2 : (mem p2).hash = 1029) (_h3 : (mem p3).hash = 2053)
    (_h4 : (mem p4).hash = 5)
    (h12 : (mem p1).memory ≠ (mem p2).memory) (h13 : (mem p1).memory ≠ (mem p3).memory)
    (h23 : (mem p2).memory ≠ (mem p3).memory) (h41 : (mem p4).memory = (mem p1).memory)
    (fuel : Nat) (hf : 8 ≤ fuel) :
    ∃ s, run fuel ⟨mem, wHashCreate payloadCmp⟩
        [Op.insert p1, Op.insert p2, Op.insert p3, Op.find p4, Op.pop, Op.pop, Op.pop, Op.pop]
      = some (s, [some p1, some p2, some p3, some p1, some p3, some p2, some p1, none]) := by
  obtain ⟨s, rs, hrun, hrs, _⟩ := run_create hc
    [Op.insert p1, Op.insert p2, Op.insert p3, Op.find p4, Op.pop, Op.pop, Op.pop, Op.pop]
    fuel (by simpa using hf)
  refine ⟨s, ?_⟩
  rw [hrun, hrs]
  have e21 : ¬ (mem p2).memory = (mem p1).memory := fun h => h12 h.symm
  have e31 : ¬ (mem p3).memory = (mem p1).memory := fun h => h13 h.symm
  have e32 : ¬ (mem p3).memory = (mem p2).memory := fun h => h23 h.symm
  simp [absRun, absStep, payloadCmp_eq_zero, h12, h13, h23, e21, e31, e32, h41]

/-- An instance of C5: the payloads 10, 20 and 30. -/
theorem scenario_three_entries_witness :
    CmpOK payloadCmp scenarioMem ∧
    (scenarioMem 1).hash = 5 ∧ (scenarioMem 2).hash = 1029 ∧ (scenarioMem 3).hash = 2053 ∧
    (scenarioMem 4).hash = 5 ∧
    (scenarioMem 1).memory ≠ (scenarioMem 2).memory ∧
    (scenarioMem 1).memory ≠ (scenarioMem 3).memory ∧
    (scenarioMem 2).memory ≠ (scenarioMem 3).memory ∧
    (scenarioMem 4).memory = (scenarioMem 1).memory ∧ 8 ≤ 8 ∧
    ∃ s, run 8 ⟨scenarioMem, wHashCreate payloadCmp⟩
        [Op.insert 1, Op.insert 2, Op.insert 3, Op.find 4, Op.pop, Op.pop, Op.pop, Op.pop]
      = some (s, [some 1, some 2, some 3, some 1, some 3, some 2, some 1, none]) :=
  ⟨scenarioMem_ok, by decide, by decide, by decide, by decide, by decide, by decide,
    by decide, by decide, by decide,
    scenario_three_entries scenarioMem 1 2 3 4 scenarioMem_ok (by decide) (by decide)
      (by decide) (by decide) (by decide) (by decide) (by decide) (by decide) 8 (by decide)⟩

/-- C6 (frontier life cycle). After any interleaving of insert, find and pop calls on a
fresh table the frontier chain is exactly the admitted entries not popped so far, the most
recently admitted first, and a pop at that moment returns its head; no entry is returned
by two pops and every popped entry is an admitted one, so a popped entry never comes back
onto the frontier. -/
theorem frontier_is_admitted_not_popped (cmp : wState → wState → Int) (mem : Nat → wState)
    (hc : CmpOK cmp mem) (ops : List Op) (fuel : Nat) (hf : ops.length ≤ fuel) :
    ∃ s rs, run fuel ⟨mem, wHashCreate cmp⟩ ops = some (s, rs) ∧
      IsWork s.mem s.table.worklist
        ((classReps cmp mem (insertsOf ops)).reverse.filter
          (fun p => decide (p ∉ poppedOf ops rs))) ∧
      (wHashPop s).2 = ((classReps cmp mem (insertsOf ops)).reverse.filter
          (fun p => decide (p ∉ poppedOf ops rs))).head? ∧
      (poppedOf ops rs).Nodup ∧
      (∀ x ∈ poppedOf ops rs, x ∈ classReps cmp mem (insertsOf ops)) := by
  obtain ⟨s, rs, hrun, _, hi, hnd, hsub, _⟩ := run_create hc ops fuel hf
  refine ⟨s, rs, hrun, hi.wf.work, ?_, hnd, hsub⟩
  have hhead := hi.wf.work.head
  unfold wHashPop
  rw [← hhead]
  cases s.table.worklist <;> rfl

/-- An instance of C6: a pop between the inserts and a duplicate insert after it. -/
theorem frontier_is_admitted_not_popped_witness :
    CmpOK payloadCmp scenarioMem ∧
    [Op.insert 1, Op.insert 2, Op.pop, Op.insert 4, Op.insert 3].length ≤ 5 ∧
    ∃ s rs, run 5 ⟨scenarioMem, wHashCreate payloadCmp⟩
        [Op.insert 1, Op.insert 2, Op.pop, Op.insert 4, Op.insert 3] = some (s, rs) ∧
      IsWork s.mem s.table.worklist
        ((classReps payloadCmp scenarioMem
            (insertsOf [Op.insert 1, Op.insert 2, Op.pop, Op.insert 4, Op.insert 3])).reverse.filter
          (fun p => decide
            (p ∉ poppedOf [Op.insert 1, Op.insert 2, Op.pop, Op.insert 4, Op.insert 3] rs))) ∧
      (wHashPop s).2 = ((classReps payloadCmp scenarioMem
            (insertsOf [Op.insert 1, Op.insert 2, Op.pop, Op.insert 4, Op.insert 3])).reverse.filter
          (fun p => decide
            (p ∉ poppedOf [Op.insert 1, Op.insert 2, Op.pop, Op.insert 4, Op.insert 3] rs))).head? ∧
      (poppedOf [Op.insert 1, Op.insert 2, Op.pop, Op.insert 4, Op.insert 3] rs).Nodup ∧
      (∀ x ∈ poppedOf [Op.insert 1, Op.insert 2, Op.pop, Op.insert 4, Op.insert 3] rs,
        x ∈ classReps payloadCmp scenarioMem
          (insertsOf [Op.insert 1, Op.insert 2, Op.pop, Op.insert 4, Op.insert 3])) :=
  ⟨scenarioMem_ok, by decide,
    frontier_is_admitted_not_popped payloadCmp scenarioMem scenarioMem_ok
      [Op.insert 1, Op.insert 2, Op.pop, Op.insert 4, Op.insert 3] 5 (by decide)⟩

/-- C7 (pop frame). `wHashPop` returns the frontier head and moves the head to that
entry's `work` link, or returns `NULL` and changes nothing when the frontier is empty;
in both cases the memory of the entries (so every bucket link), the bucket array,
`num_buckets`, `mask` and `num_entries` are unchanged, and `wHashFind` answers the same
for every candidate after the pop. -/
theorem wHashPop_frame (s : Store) (e fuel : Nat) :
    (wHashPop s).2 = s.table.worklist ∧
    (wHashPop s).1 = { s with table := { s.table with
      worklist := s.table.worklist.bind (fun r => (s.mem r).work) } } ∧
    (s.table.worklist = none → wHashPop s = (s, none)) ∧
    (wHashPop s).1.mem = s.mem ∧
    (wHashPop s).1.table.buckets = s.table.buckets ∧
    (wHashPop s).1.table.num_buckets = s.table.num_buckets ∧
    (wHashPop s).1.table.mask = s.table.mask ∧
    (wHashPop s).1.table.num_entries = s.table.num_entries ∧
    wHashFind fuel (wHashPop s).1 e = wHashFind fuel s e := by
  unfold wHashPop
  cases h : s.table.worklist with
  | none =>
    refine ⟨rfl, ?_, fun _ => rfl, rfl, rfl, rfl, rfl, rfl, rfl⟩
    simp only [Option.bind]
    rw [← h]
  | some r =>
    refine ⟨rfl, rfl, ?_, rfl, rfl, rfl, rfl, rfl, rfl⟩
    intro h2
    cases h2

/-- C8 (duplicate insert). A `wHashInsert` call whose search ends with comparator result 0
returns the entry found, which compares equal to the candidate, and returns the store
unchanged (counts, mask, bucket array, frontier and the link fields of every record, the
candidate included), so no grow happens. In a store built from a fresh table, inserting a
candidate equal to an admitted entry returns that entry and changes nothing, and
repeating any insert returns the same entry and changes nothing. -/
theorem insert_equal_is_noop (fuel : Nat) (s : Store) (e : Nat) :
    (∀ last next, searchLoop s.table.cmp s.mem e fuel 1 none
        (s.table.buckets ((s.mem e).hash &&& s.table.mask)) = some (0, last, next) →
      wHashInsert fuel s e = some (s, next) ∧
      ∃ q, next = some q ∧ s.table.cmp (s.mem q) (s.mem e) = 0) ∧
    (∀ cmp mem ops rs q, CmpOK cmp mem → ops.length ≤ fuel →
      run fuel ⟨mem, wHashCreate cmp⟩ ops = some (s, rs) →
      q ∈ classReps cmp mem (insertsOf ops) → cmp (mem q) (mem e) = 0 →
      wHashInsert fuel s e = some (s, some q)) ∧
    (∀ cmp mem ops rs s1 r, CmpOK cmp mem → ops.length < fuel →
      run fuel ⟨mem, wHashCreate cmp⟩ ops = some (s, rs) →
      wHashInsert fuel s e = some (s1, r) → wHashInsert fuel s1 e = some (s1, r)) := by
  refine ⟨?_, ?_, ?_⟩
  · intro last next h
    refine ⟨?_, searchLoop_zero _ _ _ fuel 1 none _ last next (by decide) h⟩
    unfold wHashInsert
    rw [h]
    simp
  · intro cmp mem ops rs q hc hf hrun hq heq
    obtain ⟨s2, rs2, hrun2, _, hi, _, _, _⟩ := run_create hc ops fuel hf
    rw [hrun] at hrun2
    have hs : s = s2 := (Prod.mk.inj (Option.some.inj hrun2)).1
    rw [← hs] at hi
    have hlen : (classReps cmp mem (insertsOf ops)).reverse.length ≤ fuel := by
      rw [List.length_reverse]
      exact ((firstsFrom_length_le cmp mem _ []).trans (insertsOf_length_le ops)).trans hf
    exact hi.insert_found hc e fuel q hlen (List.mem_reverse.mpr hq) heq
  · intro cmp mem ops rs s1 r hc hf hrun hins
    obtain ⟨s2, rs2, hrun2, _, hi, _, _, _⟩ := run_create hc ops fuel (Nat.le_of_lt hf)
    rw [hrun] at hrun2
    have hs : s = s2 := (Prod.mk.inj (Option.some.inj hrun2)).1
    rw [← hs] at hi
    have hlen : (classReps cmp mem (insertsOf ops)).reverse.length < fuel := by
      rw [List.length_reverse]
      exact Nat.lt_of_le_of_lt
        ((firstsFrom_length_le cmp mem _ []).trans (insertsOf_length_le ops)) hf
    obtain ⟨s3, hstep, hi3, hlen3⟩ := step_refines hc hi fuel (Nat.le_of_lt hlen) (Op.insert e)
    have hstep2 : wHashInsert fuel s e = some (s3, _) := hstep
    rw [hins] at hstep2
    have hs3 : s1 = s3 := (Prod.mk.inj (Option.some.inj hstep2)).1
    have hr : r = _ := (Prod.mk.inj (Option.some.inj hstep2)).2
    rw [← hs3] at hi3
    rw [hr]
    cases hfind : (classReps cmp mem (insertsOf ops)).reverse.find?
        (fun r => decide (cmp (mem r) (mem e) = 0)) with
    | some q =>
      simp only [absStep, hfind] at hi3 hlen3 ⊢
      exact hi3.insert_found hc e fuel q (by omega) (List.mem_of_find?_eq_some hfind)
        (by simpa using List.find?_some hfind)
    | none =>
      simp only [absStep, hfind] at hi3 hlen3 ⊢
      exact hi3.insert_found hc e fuel e (by simp only [List.length_cons]; omega)
        (List.mem_cons_self _ _) (hc.refl e)

/-- An instance of C8: a candidate with the payload of the entry already stored. -/
theorem insert_equal_is_noop_witness :
    searchLoop scenarioStore.table.cmp scenarioStore.mem 4 1 1 none
      (scenarioStore.table.buckets ((scenarioStore.mem 4).hash &&& scenarioStore.table.mask))
        = some (0, none, some 1) ∧
    wHashInsert 1 scenarioStore 4 = some (scenarioStore, some 1) ∧
    ∃ q, some 1 = some q ∧
      scenarioStore.table.cmp (scenarioStore.mem q) (scenarioStore.mem 4) = 0 :=
  ⟨by decide, (insert_equal_is_noop 1 scenarioStore 4).1 none (some 1) (by decide)⟩

/-- C9 (create). `wHashCreate` returns an empty table with 1024 buckets, mask 1023, no
entries, every bucket empty and an empty frontier; on it `wHashFind` returns `NULL` for
every candidate and `wHashPop` returns `NULL`. -/
theorem wHashCreate_empty (cmp : wState → wState → Int) (mem : Nat → wState)
    (e fuel : Nat) :
    (wHashCreate cmp).num_buckets = 1024 ∧ (wHashCreate cmp).mask = 1023 ∧
    (wHashCreate cmp).num_entries = 0 ∧ (∀ i, (wHashCreate cmp).buckets i = none) ∧
    (wHashCreate cmp).worklist = none ∧
    wHashFind fuel ⟨mem, wHashCreate cmp⟩ e = some none ∧
    (wHashPop ⟨mem, wHashCreate cmp⟩).2 = none := by
  refine ⟨rfl, rfl, rfl, fun _ => rfl, rfl, ?_, rfl⟩
  unfold wHashFind
  cases fuel <;> rfl

/-- C10 (grow trigger), amended. A `wHashInsert` call that admits its candidate performs a
grow, doubling `num_buckets`, exactly when the entry count before the increment is at
least `num_buckets * 3 / 4`, that is when the count after the increment exceeds it;
otherwise `num_buckets` is unchanged. -/
theorem grow_iff_count_before (fuel : Nat) (s : Store) (e : Nat) (s1 : Store)
    (r : Option Nat) (h : wHashInsert fuel s e = some (s1, r))
    (hadm : s1.table.num_entries = s.table.num_entries + 1) :
    (s1.table.num_buckets = s.table.num_buckets * 2 ↔
      s.table.num_entries ≥ s.table.num_buckets * 3 / 4) ∧
    (s1.table.num_buckets = s.table.num_buckets * 2 ↔
      s1.table.num_entries > s.table.num_buckets * 3 / 4) ∧
    (s1.table.num_buckets = s.table.num_buckets * 2 ∨
      s1.table.num_buckets = s.table.num_buckets) := by
  rcases wHashInsert_cases fuel s e s1 r h with h0 | ⟨_, hg, hnb⟩ | ⟨_, hg, hnb⟩
  · rw [h0] at hadm
    omega
  · exact ⟨⟨fun _ => hg, fun _ => hnb⟩, ⟨fun _ => by omega, fun _ => hnb⟩, Or.inl hnb⟩
  · refine ⟨⟨fun h2 => ?_, fun h2 => absurd h2 hg⟩, ⟨fun h2 => ?_, fun h2 => ?_⟩, Or.inr hnb⟩
    · omega
    · omega
    · omega

/-- An instance of C10 (amended): the first insert into a fresh table, without a grow. -/
theorem grow_iff_count_before_witness :
    wHashInsert 1 ⟨scenarioMem, wHashCreate payloadCmp⟩ 1 = some (scenarioStore, some 1) ∧
    scenarioStore.table.num_entries = (wHashCreate payloadCmp).num_entries + 1 ∧
    (scenarioStore.table.num_buckets = (wHashCreate payloadCmp).num_buckets * 2 ↔
      (wHashCreate payloadCmp).num_entries ≥ (wHashCreate payloadCmp).num_buckets * 3 / 4) ∧
    (scenarioStore.table.num_buckets = (wHashCreate payloadCmp).num_buckets * 2 ↔
      scenarioStore.table.num_entries > (wHashCreate payloadCmp).num_buckets * 3 / 4) ∧
    (scenarioStore.table.num_buckets = (wHashCreate payloadCmp).num_buckets * 2 ∨
      scenarioStore.table.num_buckets = (wHashCreate payloadCmp).num_buckets) :=
  ⟨scenarioStore_eq, rfl,
    grow_iff_count_before 1 ⟨scenarioMem, wHashCreate payloadCmp⟩ 1 scenarioStore (some 1)
      scenarioStore_eq rfl⟩

/-- C10 as stated fails: the insert that admits the 768th entry into a table of 1024
buckets brings the entry count to 768, which is 3/4 of the bucket count, and performs no
grow. -/
theorem grow_at_768_counterexample :
    ∃ s rs s1, run 767 ⟨distinctMem, wHashCreate payloadCmp⟩
        ((List.range 767).map Op.insert) = some (s, rs) ∧
      wHashInsert 767 s 767 = some (s1, some 767) ∧
      s.table.num_buckets = 1024 ∧
      s1.table.num_entries = s.table.num_entries + 1 ∧
      s1.table.num_entries ≥ s.table.num_buckets * 3 / 4 ∧
      s1.table.num_buckets = s.table.num_buckets := by
  obtain ⟨s, rs, hrun, hi⟩ := run_inserts_distinct distinctMem_ok (List.range 767)
    (range_distinct 767) 767 (by simp)
  have hb := hi.buckets_of_count
  have hn := hi.count
  simp only [List.length_reverse, List.length_range] at hb hn
  have hnb : s.table.num_buckets = 1024 := hb.1 (by decide)
  obtain ⟨s1, hins, hi1, hnb1⟩ := hi.insert_new distinctMem_ok 767 767 (by simp)
    (fun q hq h => by
      have hq1 : q < 767 := by simpa using hq
      have := (payloadCmp_eq_zero _ _).mp h
      simp only [distinctMem] at this
      omega)
  have hn1 := hi1.count
  simp only [List.length_cons, List.length_reverse, List.length_range] at hn1
  rw [hn, hnb] at hnb1
  refine ⟨s, rs, s1, hrun, hins, hnb, by rw [hn1, hn], by rw [hn1, hnb], ?_⟩
  rw [hnb1, hnb]
  decide

/-- C14 (bucket count). After every returning sequence of calls on a fresh table, for any
comparator, `num_buckets` is `1024 * 2 ^ g` with `g` the number of grows so far, that is of
calls of `wHashInsert` that entered the grow branch, so a power of two and at least 1024,
and `mask` is `num_buckets - 1`; along any sequence of calls, from any store, `num_buckets`
never decreases. A returning insert that enters the grow branch runs the grow and doubles
`num_buckets`, one that does not leaves it. With a comparator that keeps its contract the
calls do return. -/
theorem num_buckets_power_of_two (cmp : wState → wState → Int) (mem : Nat → wState)
    (fuel : Nat) (ops : List Op) :
    (∀ s rs, run fuel ⟨mem, wHashCreate cmp⟩ ops = some (s, rs) →
      s.table.num_buckets = 1024 * 2 ^ growsOf fuel ⟨mem, wHashCreate cmp⟩ ops ∧
      1024 ≤ s.table.num_buckets ∧ s.table.mask = s.table.num_buckets - 1) ∧
    (∀ s0 s rs, run fuel s0 ops = some (s, rs) →
      s0.table.num_buckets ≤ s.table.num_buckets) ∧
    (∀ s e s1 r, wHashInsert fuel s e = some (s1, r) →
      (growBranch fuel s e = true →
        s.table.num_entries ≥ s.table.num_buckets * 3 / 4 ∧
        (∃ s2, growTable fuel
          { s with table := { s.table with num_entries := s.table.num_entries + 1 } }
            = some s2 ∧
          s1.table.num_buckets = s2.table.num_buckets) ∧
        s1.table.num_buckets = s.table.num_buckets * 2) ∧
      (growBranch fuel s e = false → s1.table.num_buckets = s.table.num_buckets)) ∧
    (CmpOK cmp mem → ops.length ≤ fuel →
      ∃ s rs, run fuel ⟨mem, wHashCreate cmp⟩ ops = some (s, rs)) := by
  refine ⟨?_, fun s0 s rs h => run_buckets_mono fuel ops s0 s rs h,
    fun s e s1 r h => growBranch_spec fuel s e s1 r h,
    fun hc hf => run_returns hc ops fuel hf⟩
  intro s rs h
  have hg := run_grows fuel ops ⟨mem, wHashCreate cmp⟩ s rs h
  have hs := run_shape cmp mem fuel ops s rs h
  have hmono := run_buckets_mono fuel ops _ s rs h
  exact ⟨hg, hmono, hs.2.1⟩

/-- An instance of C14: 769 pairwise different entries are inserted, the last insert
grows the table, and the bucket count is `1024 * 2 ^ 1`. -/
theorem num_buckets_power_of_two_witness :
    ∃ s rs, run 769 ⟨distinctMem, wHashCreate payloadCmp⟩ ((List.range 769).map Op.insert)
        = some (s, rs) ∧
      growsOf 769 ⟨distinctMem, wHashCreate payloadCmp⟩ ((List.range 769).map Op.insert) = 1 ∧
      s.table.num_buckets = 2048 ∧
      s.table.num_buckets = 1024 * 2 ^ growsOf 769 ⟨distinctMem, wHashCreate payloadCmp⟩
        ((List.range 769).map Op.insert) ∧
      1024 ≤ s.table.num_buckets ∧ s.table.mask = s.table.num_buckets - 1 := by
  have key : ∀ g : Nat, 2048 = 1024 * 2 ^ g → g = 1 := by
    intro g hg
    have hpow : 2 ^ g = 2 ^ 1 := by omega
    exact Nat.pow_right_injective (Nat.le_refl 2) hpow
  obtain ⟨s, rs, hrun, hi⟩ := run_inserts_distinct distinctMem_ok (List.range 769)
    (range_distinct 769) 769 (by simp)
  have hb := hi.buckets_of_count
  simp only [List.length_reverse, List.length_range] at hb
  have hnb : s.table.num_buckets = 2048 := hb.2.1 (by decide) (by decide)
  have h := (num_buckets_power_of_two payloadCmp distinctMem 769
    ((List.range 769).map Op.insert)).1 s rs hrun
  refine ⟨s, rs, hrun, ?_, hnb, h⟩
  have h1 := h.1
  rw [hnb] at h1
  exact key _ h1

/-- C16 (keys and payloads). No returning call, with or without a grow, changes the `hash`
or the `memory` field of any record, admitted or not, so the only fields a call may change
are `next` and `work`; a pop changes no record at all and a find changes nothing. -/
theorem keys_and_payloads_unchanged (fuel : Nat) (s : Store) (op : Op) (s1 : Store)
    (r : Option Nat) (h : step fuel s op = some (s1, r)) :
    (∀ p, (s1.mem p).hash = (s.mem p).hash ∧ (s1.mem p).memory = (s.mem p).memory) ∧
    (op = Op.pop → s1.mem = s.mem) ∧
    (∀ e, op = Op.find e → s1 = s) := by
  refine ⟨fun p => step_data fuel s op s1 r h p, ?_, ?_⟩
  · intro hop
    subst hop
    simp only [step, Option.some.injEq] at h
    have hp := (wHashPop_tbl s).2.2.2.2.2
    rw [h] at hp
    exact hp
  · intro e hop
    subst hop
    exact (step_find fuel s e s1 r h).1

/-- An instance of C16: the first insert into a fresh table. -/
theorem keys_and_payloads_unchanged_witness :
    step 1 ⟨scenarioMem, wHashCreate payloadCmp⟩ (Op.insert 1) = some (scenarioStore, some 1) ∧
    (∀ p, (scenarioStore.mem p).hash = (scenarioMem p).hash ∧
      (scenarioStore.mem p).memory = (scenarioMem p).memory) ∧
    (Op.insert 1 = Op.pop → scenarioStore.mem = scenarioMem) ∧
    (∀ e, Op.insert 1 = Op.find e → scenarioStore = ⟨scenarioMem, wHashCreate payloadCmp⟩) :=
  ⟨scenarioStore_eq,
    keys_and_payloads_unchanged 1 ⟨scenarioMem, wHashCreate payloadCmp⟩ (Op.insert 1)
      scenarioStore (some 1) scenarioStore_eq⟩

/-- C17 (insert and find agree). For every store, candidate, comparator and fuel,
`wHashFind` returns an entry exactly when `wHashInsert` returns that entry with the store
unchanged; when `wHashFind` returns `NULL` a returning `wHashInsert` admits the candidate,
and when the loop of `wHashFind` does not end neither does `wHashInsert`. -/
theorem insert_find_agree (fuel : Nat) (s : Store) (e : Nat) :
    (∀ q, wHashFind fuel s e = some (some q) ↔ wHashInsert fuel s e = some (s, some q)) ∧
    (wHashFind fuel s e = some none →
      ∀ s1 r, wHashInsert fuel s e = some (s1, r) →
        r = some e ∧ s1.table.num_entries = s.table.num_entries + 1) ∧
    (wHashFind fuel s e = none → wHashInsert fuel s e = none) := by
  have hfind : wHashFind fuel s e = (searchLoop s.table.cmp s.mem e fuel 1 none
      (s.table.buckets ((s.mem e).hash &&& s.table.mask))).map
        (fun r => if r.1 = 0 then r.2.2 else none) :=
    findLoop_eq_searchLoop _ _ _ fuel 1 none _ (by decide)
  have hne : ∀ s1 r c last next,
      searchLoop s.table.cmp s.mem e fuel 1 none
        (s.table.buckets ((s.mem e).hash &&& s.table.mask)) = some (c, last, next) →
      c ≠ 0 → wHashInsert fuel s e = some (s1, r) →
      r = some e ∧ s1.table.num_entries = s.table.num_entries + 1 := by
    intro s1 r c last next hs hc hins
    obtain ⟨c1, last1, next1, hs1, hcase⟩ := wHashInsert_parts fuel s e s1 r hins
    rw [hs] at hs1
    have hcc : c = c1 := (Prod.mk.inj (Option.some.inj hs1)).1
    rcases hcase with ⟨h0, _, _⟩ | ⟨_, hr, _, s2, c2, last2, next2, hgr, _, hs2⟩ |
      ⟨_, hr, _, hs2⟩
    · exact absurd (hcc.trans h0) hc
    · refine ⟨hr, ?_⟩
      rw [hs2, (linkEntry_table s2 e last2 next2).2.2.1, (growTable_parts fuel _ s2 hgr).2]
    · refine ⟨hr, ?_⟩
      rw [hs2, (linkEntry_table _ e last1 next1).2.2.1]
  cases hs : searchLoop s.table.cmp s.mem e fuel 1 none
      (s.table.buckets ((s.mem e).hash &&& s.table.mask)) with
  | none =>
    rw [hs] at hfind
    have hins : wHashInsert fuel s e = none := by
      unfold wHashInsert
      rw [hs]
    refine ⟨fun q => ?_, fun h => ?_, fun _ => hins⟩
    · rw [hfind, hins]
      simp
    · rw [hfind] at h
      simp at h
  | some res =>
    obtain ⟨c, last, next⟩ := res
    rw [hs] at hfind
    by_cases hc : c = 0
    · subst hc
      have hins : wHashInsert fuel s e = some (s, next) := by
        unfold wHashInsert
        rw [hs]
        simp
      have hf : wHashFind fuel s e = some next := by rw [hfind]; simp
      obtain ⟨q0, hq0, _⟩ := searchLoop_zero _ _ _ fuel 1 none _ last next (by decide) hs
      refine ⟨fun q => ?_, fun h => ?_, fun h => ?_⟩
      · rw [hf, hins]
        constructor
        · intro h
          rw [Option.some.inj h]
        · intro h
          rw [(Prod.mk.inj (Option.some.inj h)).2]
      · rw [hf, hq0] at h
        simp at h
      · rw [hf] at h
        simp at h
    · have hf : wHashFind fuel s e = some none := by rw [hfind]; simp [hc]
      refine ⟨fun q => ?_, fun _ s1 r hins => hne s1 r c last next hs hc hins, fun h => ?_⟩
      · rw [hf]
        constructor
        · intro h
          simp at h
        · intro h
          have := (hne s (some q) c last next hs hc h).2
          omega
      · rw [hf] at h
        simp at h

/-- C18 (load factor). After every returning sequence of calls on a fresh table, for any
comparator, `4 * num_entries ≤ 3 * num_buckets`; a further returning insert keeps the
bound with at most one doubling of `num_buckets`. With a comparator that keeps its
contract the calls do return. -/
theorem load_factor_bound (cmp : wState → wState → Int) (mem : Nat → wState)
    (fuel : Nat) (ops : List Op) :
    (∀ s rs, run fuel ⟨mem, wHashCreate cmp⟩ ops = some (s, rs) →
      4 * s.table.num_entries ≤ 3 * s.table.num_buckets ∧
      ∀ e s1 r, wHashInsert fuel s e = some (s1, r) →
        4 * s1.table.num_entries ≤ 3 * s1.table.num_buckets ∧
        (s1.table.num_buckets = s.table.num_buckets ∨
          s1.table.num_buckets = s.table.num_buckets * 2)) ∧
    (CmpOK cmp mem → ops.length ≤ fuel →
      ∃ s rs, run fuel ⟨mem, wHashCreate cmp⟩ ops = some (s, rs)) := by
  refine ⟨?_, fun hc hf => run_returns hc ops fuel hf⟩
  intro s rs h
  have hs := run_shape cmp mem fuel ops s rs h
  refine ⟨hs.2.2, ?_⟩
  intro e s1 r hins
  have hstep : step fuel s (Op.insert e) = some (s1, r) := hins
  refine ⟨(step_shape fuel s _ s1 r hs hstep).2.2, ?_⟩
  rcases step_counts fuel s _ s1 r hstep with ⟨a, _⟩ | ⟨a, _⟩ | ⟨a, _⟩
  · exact Or.inl a
  · exact Or.inl a
  · exact Or.inr a

/-- An instance of C18: four returning calls. -/
theorem load_factor_bound_witness :
    ∃ s rs, run 4 ⟨scenarioMem, wHashCreate payloadCmp⟩
        [Op.insert 1, Op.insert 2, Op.pop, Op.insert 3] = some (s, rs) ∧
      4 * s.table.num_entries ≤ 3 * s.table.num_buckets := by
  have h := load_factor_bound payloadCmp scenarioMem 4
    [Op.insert 1, Op.insert 2, Op.pop, Op.insert 3]
  obtain ⟨s, rs, hrun⟩ := h.2 scenarioMem_ok (by decide)
  exact ⟨s, rs, hrun, (h.1 s rs hrun).1⟩

/-- C20 (bucket indices). After every returning sequence of calls on a fresh table, for
any comparator and any key, the index `key & mask` is below `num_buckets`, and it is so
again after the grow of a further insert. A returning grow from `n` buckets, on any store,
doubles `num_buckets`; the assignments to the bucket array that its `for` loop executes
give the new array, their indices are all below `2 * n`, and every slot below `2 * n`, so
every slot of the upper half, is assigned exactly once. The loop with the log of its
assignments computes what the loop of the grow computes. With a comparator that keeps its
contract the calls do return. -/
theorem bucket_index_in_bounds (cmp : wState → wState → Int) (mem : Nat → wState)
    (fuel : Nat) (ops : List Op) :
    (∀ s rs, run fuel ⟨mem, wHashCreate cmp⟩ ops = some (s, rs) →
      (∀ key : Nat, key &&& s.table.mask < s.table.num_buckets) ∧
      ∀ s1, growTable fuel
          { s with table := { s.table with num_entries := s.table.num_entries + 1 } }
            = some s1 →
        ∀ key : Nat, key &&& s1.table.mask < s1.table.num_buckets) ∧
    (∀ s s1 : Store, growTable fuel s = some s1 →
      s1.table.num_buckets = 2 * s.table.num_buckets ∧
      ∃ w, splitBucketsLog fuel (s.table.num_buckets * 2 - 1) s.table.num_buckets
          s.table.num_buckets 0 s.mem s.table.buckets = some (s1.mem, s1.table.buckets, w) ∧
        s1.table.buckets = replay s.table.buckets w ∧
        (∀ kv ∈ w, kv.1 < 2 * s.table.num_buckets) ∧
        (∀ j, j < 2 * s.table.num_buckets → (w.map Prod.fst).count j = 1)) ∧
    (∀ mask n k i m b, (splitBucketsLog fuel mask n k i m b).map (fun r => (r.1, r.2.1)) =
      splitBuckets fuel mask n k i m b) ∧
    (CmpOK cmp mem → ops.length ≤ fuel →
      ∃ s rs, run fuel ⟨mem, wHashCreate cmp⟩ ops = some (s, rs)) := by
  refine ⟨?_, ?_, fun mask n k i m b => splitBucketsLog_eq fuel mask n k i m b,
    fun hc hf => run_returns hc ops fuel hf⟩
  · intro s rs h
    obtain ⟨⟨g, hg⟩, hm, _⟩ := run_shape cmp mem fuel ops s rs h
    refine ⟨fun key => ?_, fun s1 hgr key => ?_⟩
    · rw [hm, hg, land_mask]
      exact Nat.mod_lt _ (Nat.mul_pos (by decide) (Nat.pos_pow_of_pos _ (by decide)))
    · have htab := (growTable_parts fuel _ s1 hgr).2
      have h1 : s1.table.mask = s.table.num_buckets * 2 - 1 := by rw [htab]
      have h2 : s1.table.num_buckets = s.table.num_buckets * 2 := by rw [htab]
      have h3 : s.table.num_buckets * 2 = WHASH_MIN * 2 ^ (g + 1) := by
        rw [hg, Nat.pow_succ, Nat.mul_assoc]
      rw [h1, h2, h3, land_mask]
      exact Nat.mod_lt _ (Nat.mul_pos (by decide) (Nat.pos_pow_of_pos _ (by decide)))
  · intro s s1 hgr
    obtain ⟨hsb, htab⟩ := growTable_parts fuel s s1 hgr
    have heq := splitBucketsLog_eq fuel (s.table.num_buckets * 2 - 1) s.table.num_buckets
      s.table.num_buckets 0 s.mem s.table.buckets
    rw [hsb] at heq
    cases hl : splitBucketsLog fuel (s.table.num_buckets * 2 - 1) s.table.num_buckets
        s.table.num_buckets 0 s.mem s.table.buckets with
    | none =>
      rw [hl] at heq
      cases heq
    | some res =>
      obtain ⟨m1, b1, w⟩ := res
      rw [hl] at heq
      simp only [Option.map_some', Option.some.injEq, Prod.mk.injEq] at heq
      obtain ⟨hrep, hcount⟩ := splitBucketsLog_spec fuel _ s.table.num_buckets
        s.table.num_buckets 0 s.mem s.table.buckets m1 b1 w (by omega) hl
      have hidx : ∀ j, j ∈ w.map Prod.fst → j < 2 * s.table.num_buckets := by
        intro j hj
        have hpos := List.count_pos_iff.mpr hj
        rw [hcount j] at hpos
        by_cases hcond : (0 ≤ j ∧ j < 0 + s.table.num_buckets) ∨
            (0 + s.table.num_buckets ≤ j ∧ j < 0 + s.table.num_buckets + s.table.num_buckets)
        · omega
        · rw [if_neg hcond] at hpos
          omega
      refine ⟨by rw [htab]; exact Nat.mul_comm _ _, w, ?_, ?_, ?_, ?_⟩
      · rw [heq.1, heq.2]
      · rw [← heq.2]
        exact hrep
      · intro kv hkv
        exact hidx kv.1 (List.mem_map_of_mem Prod.fst hkv)
      · intro j hj
        rw [hcount j, if_pos (by omega)]

/-- An instance of C20: the grow of the table that holds 768 pairwise different entries,
from 1024 to 2048 buckets. -/
theorem bucket_index_in_bounds_witness :
    ∃ s rs s1 w,
      run 768 ⟨distinctMem, wHashCreate payloadCmp⟩ ((List.range 768).map Op.insert)
        = some (s, rs) ∧
      s.table.num_buckets = 1024 ∧
      growTable 768
        { s with table := { s.table with num_entries := s.table.num_entries + 1 } }
          = some s1 ∧
      s1.table.num_buckets = 2 * 1024 ∧
      (∀ key : Nat, key &&& s1.table.mask < s1.table.num_buckets) ∧
      splitBucketsLog 768 (1024 * 2 - 1) 1024 1024 0 s.mem s.table.buckets
        = some (s1.mem, s1.table.buckets, w) ∧
      s1.table.buckets = replay s.table.buckets w ∧
      (∀ kv ∈ w, kv.1 < 2 * 1024) ∧
      (∀ j, j < 2 * 1024 → (w.map Prod.fst).count j = 1) := by
  obtain ⟨s, rs, hrun, hi⟩ := run_inserts_distinct distinctMem_ok (List.range 768)
    (range_distinct 768) 768 (by simp)
  have hb := hi.buckets_of_count
  simp only [List.length_reverse, List.length_range] at hb
  have hnb : s.table.num_buckets = 1024 := hb.1 (by decide)
  have hw1 := hi.wf.bump
  obtain ⟨s1, hgr, _, _, _⟩ := hw1.grow distinctMem_ok 768
    (by rw [List.length_reverse, List.length_range])
  have h := bucket_index_in_bounds payloadCmp distinctMem 768 ((List.range 768).map Op.insert)
  obtain ⟨h1, w, h2, h3, h4, h5⟩ := h.2.1 _ s1 hgr
  have hnb1 : ({ s with table := { s.table with num_entries := s.table.num_entries + 1 } } :
      Store).table.num_buckets = 1024 := hnb
  rw [hnb1] at h1 h2 h4 h5
  exact ⟨s, rs, s1, w, hrun, hnb, hgr, h1, (h.1 s rs hrun).2 s1 hgr, h2, h3, h4, h5⟩

/-- C15 (work link after a pop), amended. `wHashPop` does not write the `work` field: when
it returns an entry `r`, the `work` field of `r` is what it was before the call, and it
is the new head of the frontier, so it is `NULL` only when `r` was the last entry of the
frontier. -/
theorem pop_keeps_work_link (s : Store) (r : Nat) (h : s.table.worklist = some r) :
    (wHashPop s).2 = some r ∧
    ((wHashPop s).1.mem r).work = (s.mem r).work ∧
    (wHashPop s).1.table.worklist = ((wHashPop s).1.mem r).work := by
  unfold wHashPop
  rw [h]
  exact ⟨rfl, rfl, rfl⟩

/-- An instance of C15 (amended): the pop of the only entry of the frontier. -/
theorem pop_keeps_work_link_witness :
    scenarioStore.table.worklist = some 1 ∧
    (wHashPop scenarioStore).2 = some 1 ∧
    ((wHashPop scenarioStore).1.mem 1).work = (scenarioStore.mem 1).work ∧
    (wHashPop scenarioStore).1.table.worklist = ((wHashPop scenarioStore).1.mem 1).work :=
  ⟨rfl, pop_keeps_work_link scenarioStore 1 rfl⟩

/-- C15 as stated fails: after entries 1 and 2 of the scenario are inserted into a fresh
table, `wHashPop` returns entry 2 and the `work` field of entry 2 still points to
entry 1. -/
theorem pop_work_not_null_counterexample :
    ∃ s1 s2, wHashInsert 1 ⟨scenarioMem, wHashCreate payloadCmp⟩ 1 = some (s1, some 1) ∧
      wHashInsert 1 s1 2 = some (s2, some 2) ∧
      (wHashPop s2).2 = some 2 ∧ ((wHashPop s2).1.mem 2).work = some 1 ∧
      ((wHashPop s2).1.mem 2).work ≠ none :=
  ⟨scenarioStore, _, scenarioStore_eq, rfl, rfl, rfl, by
    show (some 1 : Option Nat) ≠ none
    exact fun h => by cases h⟩

/-- C12 (split of a grow). On a store whose buckets below `num_buckets` are chains ending
in `NULL`, each holding entries that the mask places there, a grow with fuel for the
longest chain returns, doubles `num_buckets`, and for every old index `i` leaves in bucket
`i` exactly the entries of old bucket `i` with `hash & (2n - 1) = i` and in bucket `i + n`
exactly the others, both in their old order; together they are the entries of old bucket
`i`, none lost and none twice. -/
theorem grow_is_stable_partition (fuel : Nat) (s : Store) (B : Nat → List Nat)
    (hc : ∀ i, i < s.table.num_buckets → IsChain s.mem (s.table.buckets i) (B i))
    (hk : ∀ i, i < s.table.num_buckets → ∀ p ∈ B i, (s.mem p).hash &&& s.table.mask = i)
    (hf : ∀ i, i < s.table.num_buckets → (B i).length ≤ fuel) :
    ∃ s1, growTable fuel s = some s1 ∧
      s1.table.num_buckets = s.table.num_buckets * 2 ∧
      s1.table.mask = s.table.num_buckets * 2 - 1 ∧
      ∀ i, i < s.table.num_buckets →
        IsChain s1.mem (s1.table.buckets i)
          ((B i).filter (fun p =>
            decide ((s.mem p).hash &&& (s.table.num_buckets * 2 - 1) = i))) ∧
        IsChain s1.mem (s1.table.buckets (i + s.table.num_buckets))
          ((B i).filter (fun p =>
            !decide ((s.mem p).hash &&& (s.table.num_buckets * 2 - 1) = i))) ∧
        ((B i).filter (fun p =>
            decide ((s.mem p).hash &&& (s.table.num_buckets * 2 - 1) = i)) ++
          (B i).filter (fun p =>
            !decide ((s.mem p).hash &&& (s.table.num_buckets * 2 - 1) = i))).Perm (B i) := by
  obtain ⟨mem1, b1, hrun, hk1, _, _, _⟩ :=
    splitBuckets_spec fuel (s.table.num_buckets * 2 - 1) s.table.num_buckets
      (fun p => (s.mem p).hash) B hf (fun j hj => (hc j hj).seg_nodup)
      (fun j j1 p hj hj1 h1 h2 => (hk j hj p h1).symm.trans (hk j1 hj1 p h2))
      s.table.num_buckets 0 s.mem s.table.buckets (by omega) (fun _ => rfl)
      (fun j _ hj => hc j hj)
  refine ⟨{ mem := mem1, table := { s.table with
      mask := s.table.num_buckets * 2 - 1, buckets := b1,
      num_buckets := s.table.num_buckets * 2 } },
    by simp only [growTable, hrun], rfl, rfl, ?_⟩
  intro i hi
  exact ⟨(hk1 i (Nat.zero_le i) hi).1, (hk1 i (Nat.zero_le i) hi).2,
    List.filter_append_perm _ _⟩

/-- An instance of C12: the store with entry 1 of the scenario in bucket 5. -/
theorem grow_is_stable_partition_witness :
    (∀ i, i < scenarioStore.table.num_buckets →
      IsChain scenarioStore.mem (scenarioStore.table.buckets i) (if i = 5 then [1] else [])) ∧
    (∀ i, i < scenarioStore.table.num_buckets → ∀ p ∈ (if i = 5 then [1] else [] : List Nat),
      (scenarioStore.mem p).hash &&& scenarioStore.table.mask = i) ∧
    (∀ i, i < scenarioStore.table.num_buckets →
      (if i = 5 then [1] else [] : List Nat).length ≤ 1) ∧
    ∃ s1, growTable 1 scenarioStore = some s1 ∧
      s1.table.num_buckets = scenarioStore.table.num_buckets * 2 ∧
      s1.table.mask = scenarioStore.table.num_buckets * 2 - 1 ∧
      ∀ i, i < scenarioStore.table.num_buckets →
        IsChain s1.mem (s1.table.buckets i)
          ((if i = 5 then [1] else [] : List Nat).filter (fun p =>
            decide ((scenarioStore.mem p).hash &&&
              (scenarioStore.table.num_buckets * 2 - 1) = i))) ∧
        IsChain s1.mem (s1.table.buckets (i + scenarioStore.table.num_buckets))
          ((if i = 5 then [1] else [] : List Nat).filter (fun p =>
            !decide ((scenarioStore.mem p).hash &&&
              (scenarioStore.table.num_buckets * 2 - 1) = i))) ∧
        ((if i = 5 then [1] else [] : List Nat).filter (fun p =>
            decide ((scenarioStore.mem p).hash &&&
              (scenarioStore.table.num_buckets * 2 - 1) = i)) ++
          (if i = 5 then [1] else [] : List Nat).filter (fun p =>
            !decide ((scenarioStore.mem p).hash &&&
              (scenarioStore.table.num_buckets * 2 - 1) = i))).Perm
          (if i = 5 then [1] else [] : List Nat) :=
  ⟨scenarioStore_chains.1, scenarioStore_chains.2.1, scenarioStore_chains.2.2,
    grow_is_stable_partition 1 scenarioStore (fun i => if i = 5 then [1] else [])
      scenarioStore_chains.1 scenarioStore_chains.2.1 scenarioStore_chains.2.2⟩

/-- C19 (insertion order). With a comparator that is a total order consistent with the
keys, inserting the same pairwise non-equal entries into a fresh table in two orders
gives the same `num_entries`, `num_buckets` and `mask` and, in every bucket, the same
entries in the same order; the frontiers are the two insertion orders reversed. -/
theorem insertion_order_irrelevant (cmp : wState → wState → Int) (mem : Nat → wState)
    (hc : CmpOK cmp mem) (cs1 cs2 : List Nat) (hp : cs1.Perm cs2)
    (hd : cs1.Pairwise (fun a b => cmp (mem a) (mem b) ≠ 0)) (fuel : Nat)
    (hf : cs1.length ≤ fuel) :
    ∃ s1 rs1 s2 rs2,
      run fuel ⟨mem, wHashCreate cmp⟩ (cs1.map Op.insert) = some (s1, rs1) ∧
      run fuel ⟨mem, wHashCreate cmp⟩ (cs2.map Op.insert) = some (s2, rs2) ∧
      s1.table.num_entries = s2.table.num_entries ∧
      s1.table.num_buckets = s2.table.num_buckets ∧
      s1.table.mask = s2.table.mask ∧
      (∀ i, i < s1.table.num_buckets →
        ∃ L, IsChain s1.mem (s1.table.buckets i) L ∧ IsChain s2.mem (s2.table.buckets i) L) ∧
      IsWork s1.mem s1.table.worklist cs1.reverse ∧
      IsWork s2.mem s2.table.worklist cs2.reverse := by
  have hd2 : cs2.Pairwise (fun a b => cmp (mem a) (mem b) ≠ 0) :=
    (hp.pairwise_iff (fun {x y} (h : cmp (mem x) (mem y) ≠ 0) h2 => h (hc.symm h2))).mp hd
  obtain ⟨s1, rs1, hrun1, hi1⟩ := run_inserts_distinct hc cs1 hd fuel hf
  obtain ⟨s2, rs2, hrun2, hi2⟩ := run_inserts_distinct hc cs2 hd2 fuel (hp.length_eq ▸ hf)
  have hlen : cs1.reverse.length = cs2.reverse.length := by
    rw [List.length_reverse, List.length_reverse, hp.length_eq]
  have hnb := hi1.buckets_unique hi2 hlen
  refine ⟨s1, rs1, s2, rs2, hrun1, hrun2, ?_, hnb, ?_, ?_, hi1.wf.work, hi2.wf.work⟩
  · rw [hi1.count, hi2.count, hlen]
  · rw [hi1.wf.mask, hi2.wf.mask, hnb]
  · intro i hi
    obtain ⟨B1, hB1⟩ := hi1.wf.chains
    obtain ⟨B2, hB2⟩ := hi2.wf.chains
    obtain ⟨hc1, hs1, hm1⟩ := hB1 i hi
    obtain ⟨hc2, hs2, hm2⟩ := hB2 i (hnb ▸ hi)
    have heq : B1 i = B2 i := by
      apply sorted_ext hc hs1 hs2
      intro p
      rw [hm1 p, hm2 p, hnb, List.mem_reverse, List.mem_reverse, hp.mem_iff]
    exact ⟨B1 i, hc1, heq ▸ hc2⟩

/-- An instance of C19: the three entries of the scenario in two orders. -/
theorem insertion_order_irrelevant_witness :
    CmpOK payloadCmp scenarioMem ∧ [1, 2, 3].Perm [3, 1, 2] ∧
    [1, 2, 3].Pairwise (fun a b => payloadCmp (scenarioMem a) (scenarioMem b) ≠ 0) ∧
    [1, 2, 3].length ≤ 3 ∧
    ∃ s1 rs1 s2 rs2,
      run 3 ⟨scenarioMem, wHashCreate payloadCmp⟩ ([1, 2, 3].map Op.insert) = some (s1, rs1) ∧
      run 3 ⟨scenarioMem, wHashCreate payloadCmp⟩ ([3, 1, 2].map Op.insert) = some (s2, rs2) ∧
      s1.table.num_entries = s2.table.num_entries ∧
      s1.table.num_buckets = s2.table.num_buckets ∧
      s1.table.mask = s2.table.mask ∧
      (∀ i, i < s1.table.num_buckets →
        ∃ L, IsChain s1.mem (s1.table.buckets i) L ∧ IsChain s2.mem (s2.table.buckets i) L) ∧
      IsWork s1.mem s1.table.worklist [1, 2, 3].reverse ∧
      IsWork s2.mem s2.table.worklist [3, 1, 2].reverse :=
  ⟨scenarioMem_ok, by decide, by decide, by decide,
    insertion_order_irrelevant payloadCmp scenarioMem scenarioMem_ok [1, 2, 3] [3, 1, 2]
      (by decide) (by decide) 3 (by decide)⟩

/-- C11 (sorted chains). With a comparator that is a total order, every sequence of calls
on a fresh table returns and leaves every bucket chain strictly ascending by the
comparator; so do the chains right after a grow of that store, and a returning insert
that admits its candidate `e` leaves `e` in the chain of its bucket between the entries
that compare less, all before it, and the entries that compare greater, all after it. -/
theorem chains_strictly_ascending (cmp : wState → wState → Int) (mem : Nat → wState)
    (ht : CmpTot cmp mem) (ops : List Op) (fuel : Nat) (hf : ops.length ≤ fuel) :
    ∃ s rs, run fuel ⟨mem, wHashCreate cmp⟩ ops = some (s, rs) ∧
      (∀ i, i < s.table.num_buckets →
        ∃ L, IsChain s.mem (s.table.buckets i) L ∧
          L.Pairwise (fun p q => s.table.cmp (s.mem p) (s.mem q) < 0)) ∧
      (∃ s2, growTable fuel
          { s with table := { s.table with num_entries := s.table.num_entries + 1 } }
            = some s2 ∧
        ∀ i, i < s2.table.num_buckets →
          ∃ L, IsChain s2.mem (s2.table.buckets i) L ∧
            L.Pairwise (fun p q => s2.table.cmp (s2.mem p) (s2.mem q) < 0)) ∧
      (∀ e s1, wHashInsert fuel s e = some (s1, some e) →
        s1.table.num_entries = s.table.num_entries + 1 →
        ∃ L1 L2,
          IsChain s1.mem (s1.table.buckets ((s1.mem e).hash &&& s1.table.mask))
            (L1 ++ e :: L2) ∧
          (∀ p ∈ L1, s1.table.cmp (s1.mem p) (s1.mem e) < 0) ∧
          (∀ q ∈ L2, s1.table.cmp (s1.mem e) (s1.mem q) < 0)) := by
  obtain ⟨s, rs, A, B, hrun, hs0, hlen⟩ :=
    Sorted0.run0 ht fuel ops _ [] _ (Sorted0.create0 cmp mem) (by simpa using hf)
  have hA : A.length ≤ fuel := by
    simp only [List.length_nil, Nat.zero_add] at hlen
    omega
  refine ⟨s, rs, hrun, fun i hi => hs0.sorted_mem ht i hi, ?_, ?_⟩
  · have hs1 : Sorted0 cmp mem
        { s with table := { s.table with num_entries := s.table.num_entries + 1 } } A B :=
      ⟨hs0.cmp_eq, hs0.data, hs0.size, hs0.mask, hs0.chains⟩
    obtain ⟨s2, hgrow, htab, hd, hch2⟩ := hs1.grow0 fuel hA
    have h2a : s2.table.cmp = cmp := by rw [htab]; exact hs0.cmp_eq
    have h2b : ∀ p, (s2.mem p).hash = (mem p).hash ∧ (s2.mem p).memory = (mem p).memory :=
      fun p => ⟨(hd p).1.trans (hs0.data p).1, (hd p).2.1.trans (hs0.data p).2⟩
    have h2c : ∃ g, s2.table.num_buckets = WHASH_MIN * 2 ^ g := by
      obtain ⟨g, hg⟩ := hs0.size
      refine ⟨g + 1, ?_⟩
      rw [htab]
      show s.table.num_buckets * 2 = _
      rw [hg, Nat.pow_succ, Nat.mul_assoc]
    have h2d : s2.table.mask = s2.table.num_buckets - 1 := by rw [htab]
    have hs2 := Sorted0.mk h2a h2b h2c h2d hch2
    exact ⟨s2, hgrow, fun i hi => hs2.sorted_mem ht i hi⟩
  · intro e s1 hins hne
    rcases hs0.insert0 ht e fuel hA with ⟨q, h⟩ | ⟨s3, B1, h, _, hs3⟩
    · rw [hins] at h
      have hs : s1 = s := (Prod.mk.inj (Option.some.inj h)).1
      rw [hs] at hne
      omega
    · rw [hins] at h
      have hs : s1 = s3 := (Prod.mk.inj (Option.some.inj h)).1
      rw [← hs] at hs3
      have hi : (mem e).hash % s1.table.num_buckets < s1.table.num_buckets :=
        Nat.mod_lt _ hs3.pos0
      have hidx : (s1.mem e).hash &&& s1.table.mask = (mem e).hash % s1.table.num_buckets := by
        rw [hs3.land0, (hs3.data e).1]
      obtain ⟨hch, hsorted, hmem⟩ := hs3.chains _ hi
      have he : e ∈ B1 ((mem e).hash % s1.table.num_buckets) :=
        (hmem e).mpr ⟨List.mem_cons_self _ _, rfl⟩
      obtain ⟨L1, L2, hL⟩ := List.append_of_mem he
      rw [hL] at hch hsorted
      have hp := List.pairwise_append.mp hsorted
      refine ⟨L1, L2, by rw [hidx]; exact hch, ?_, ?_⟩
      · intro p hp1
        rw [hs3.cmp_mem0 ht]
        exact hp.2.2 p hp1 e (List.mem_cons_self _ _)
      · intro q hq
        rw [hs3.cmp_mem0 ht]
        exact (List.pairwise_cons.mp hp.2.1).1 q hq

/-- An instance of C11: calls of the scenario, with a pop and a duplicate insert. -/
theorem chains_strictly_ascending_witness :
    CmpTot payloadCmp scenarioMem ∧
    [Op.insert 2, Op.insert 1, Op.pop, Op.insert 4, Op.insert 3].length ≤ 5 ∧
    ∃ s rs, run 5 ⟨scenarioMem, wHashCreate payloadCmp⟩
        [Op.insert 2, Op.insert 1, Op.pop, Op.insert 4, Op.insert 3] = some (s, rs) ∧
      (∀ i, i < s.table.num_buckets →
        ∃ L, IsChain s.mem (s.table.buckets i) L ∧
          L.Pairwise (fun p q => s.table.cmp (s.mem p) (s.mem q) < 0)) ∧
      (∃ s2, growTable 5
          { s with table := { s.table with num_entries := s.table.num_entries + 1 } }
            = some s2 ∧
        ∀ i, i < s2.table.num_buckets →
          ∃ L, IsChain s2.mem (s2.table.buckets i) L ∧
            L.Pairwise (fun p q => s2.table.cmp (s2.mem p) (s2.mem q) < 0)) ∧
      (∀ e s1, wHashInsert 5 s e = some (s1, some e) →
        s1.table.num_entries = s.table.num_entries + 1 →
        ∃ L1 L2,
          IsChain s1.mem (s1.table.buckets ((s1.mem e).hash &&& s1.table.mask))
            (L1 ++ e :: L2) ∧
          (∀ p ∈ L1, s1.table.cmp (s1.mem p) (s1.mem e) < 0) ∧
          (∀ q ∈ L2, s1.table.cmp (s1.mem e) (s1.mem q) < 0)) :=
  ⟨scenarioMem_ok.tot, by decide,
    chains_strictly_ascending payloadCmp scenarioMem scenarioMem_ok.tot
      [Op.insert 2, Op.insert 1, Op.pop, Op.insert 4, Op.insert 3] 5 (by decide)⟩

/-- C13 (entries match their bucket). In every state reached from a fresh table by a
returning sequence of calls, with any comparator, the mask is `num_buckets - 1` and every
entry on the chain of bucket `i` has `hash & mask = i`; a further insert that admits its
entry leaves the entry on the chain of the bucket that its key selects under the mask after
the call, which after a grow is the new mask `2 * num_buckets - 1`. -/
theorem chain_entries_match_bucket (cmp : wState → wState → Int) (mem : Nat → wState)
    (ops : List Op) (fuel : Nat) (s : Store) (rs : List (Option Nat))
    (h : run fuel ⟨mem, wHashCreate cmp⟩ ops = some (s, rs)) :
    s.table.mask = s.table.num_buckets - 1 ∧
    (∀ i, i < s.table.num_buckets → ∀ L t, IsSeg s.mem (s.table.buckets i) L t →
      ∀ p ∈ L, (s.mem p).hash &&& s.table.mask = i) ∧
    (∀ e s1 r, wHashInsert fuel s e = some (s1, r) →
      s1.table.num_entries = s.table.num_entries + 1 →
      (∃ L t, IsSeg s1.mem (s1.table.buckets ((s1.mem e).hash &&& s1.table.mask)) L t ∧
        e ∈ L) ∧
      (s1.table.num_buckets ≠ s.table.num_buckets →
        s1.table.mask = 2 * s.table.num_buckets - 1)) := by
  have hinv := run_invariant
    (fun s : Store => ((∃ g, s.table.num_buckets = WHASH_MIN * 2 ^ g) ∧
      s.table.mask = s.table.num_buckets - 1 ∧
      4 * s.table.num_entries ≤ 3 * s.table.num_buckets) ∧
      (∀ p, (s.mem p).hash = (mem p).hash) ∧ KeyInv (fun p => (mem p).hash) s)
    fuel (fun s op s1 r hP hstep => step_keys (fun p => (mem p).hash) fuel s op s1 r hP hstep)
    ops ⟨mem, wHashCreate cmp⟩ s rs
    ⟨⟨⟨0, rfl⟩, rfl, by simp [wHashCreate]⟩, fun _ => rfl, fun i _ => allIn_none _ _⟩ h
  obtain ⟨⟨⟨g, hg⟩, hm, _⟩, hd, hk⟩ := hinv
  refine ⟨hm, ?_, ?_⟩
  · intro i hi L t hseg p hp
    rw [hm, hg, land_mask, ← hg, hd p]
    exact hk i hi L t hseg p hp
  · intro e s1 r hins hne
    refine ⟨wHashInsert_reach fuel s e s1 r hins hne, ?_⟩
    intro hnb
    have hstep : step fuel s (Op.insert e) = some (s1, r) := hins
    rcases step_counts fuel s (Op.insert e) s1 r hstep with ⟨h1, _, _⟩ | ⟨h1, _, _, _⟩ |
      ⟨h1, h2, _, _⟩
    · exact absurd h1 hnb
    · exact absurd h1 hnb
    · rw [h2]
      omega

/-- An instance of C13: the store after the first insert of the scenario. -/
theorem chain_entries_match_bucket_witness :
    run 1 ⟨scenarioMem, wHashCreate payloadCmp⟩ [Op.insert 1] = some (scenarioStore, [some 1]) ∧
    scenarioStore.table.mask = scenarioStore.table.num_buckets - 1 ∧
    (∀ i, i < scenarioStore.table.num_buckets →
      ∀ L t, IsSeg scenarioStore.mem (scenarioStore.table.buckets i) L t →
      ∀ p ∈ L, (scenarioStore.mem p).hash &&& scenarioStore.table.mask = i) ∧
    (∀ e s1 r, wHashInsert 1 scenarioStore e = some (s1, r) →
      s1.table.num_entries = scenarioStore.table.num_entries + 1 →
      (∃ L t, IsSeg s1.mem (s1.table.buckets ((s1.mem e).hash &&& s1.table.mask)) L t ∧
        e ∈ L) ∧
      (s1.table.num_buckets ≠ scenarioStore.table.num_buckets →
        s1.table.mask = 2 * scenarioStore.table.num_buckets - 1)) :=
  have hrun : run 1 ⟨scenarioMem, wHashCreate payloadCmp⟩ [Op.insert 1] =
      some (scenarioStore, [some 1]) := by
    have hstep : step 1 ⟨scenarioMem, wHashCreate payloadCmp⟩ (Op.insert 1) =
        some (scenarioStore, some 1) := scenarioStore_eq
    simp only [run, hstep]
  ⟨hrun, chain_entries_match_bucket payloadCmp scenarioMem [Op.insert 1] 1 scenarioStore
    [some 1] hrun⟩

end WHash
